import Mathlib

/-!
# DEV9 internal DNS server (`pcsx2/DEV9/InternalServers/DNS_Server.cpp`)

A shallow embedding of the internal DNS server of the DEV9 network device and
a verification of the properties its specification states about it.

Conventions of the embedding.

* A `DNS_State*` is an address (a `Nat`) into `DNS_Server.heap`, the list of the
  Query States that are alive. `new DNS_State` allocates the next address,
  `delete state` removes the entry. A function that dereferences an address
  that is not alive has no defined behaviour in C++ and returns `none` here.
* `std::unordered_map<std::string, IP_Address>` is an association list with
  unique keys (`StringMap`); the iteration order of the container is never
  used by the code, and the theorems speak about keys by membership only.
* `std::atomic<int>` values are `Int`. The pending counter is initialised from
  the number of questions of one DNS packet (at most 65535) and the
  outstanding counter moves by one per query, so the 32-bit range is not left.
* Console output is not part of the state. A call of `Console.Error` whose
  arguments do not match its format has no defined behaviour and is `none`
  (line 176, see `Send`).
* The wire codec (`DNS_Packet`, `UDP_Packet`) is not part of the embedded
  file: a packet is its parsed content, and `DNS_Packet::GetLength` is a
  parameter `GetLength` of every function that depends on it.
* The detached resolver threads started by `GetHost` are the entries of
  `DNS_Server.threads`; running one of them to completion is one atomic step.
  Where the order of the statements of several threads matters, the section
  on the resolver threads of one Query State runs them statement by
  statement under an arbitrary schedule.
* `callbackCount` counts the invocations of the notification callback and
  `finalised` records, for every run of `FinaliseDNS`, the Query State it
  consumed and the response as it stands at the size check. Both are
  observation fields: they are only ever extended, and no function of the
  embedding branches on them.
* `GetHost` and `GetAddrInfoThread` are the POSIX variants; the recording
  branch of the Windows completion callback is `recordOutcomeEx`.

The namespace `GSRendererPGS` holds the function
`parse_super_sampling_options` of
`pcsx2/GS/Renderers/parallel-gs/GSRendererPGS.cpp` and its table of results.
-/

namespace InternalServers

/-! ## Data model -/

/-- The four bytes of `PacketReader::IP::IP_Address` (`bytes[4]`, overlaid with
the 32-bit `integer`). -/
structure IP_Address where
  b0 : Fin 256
  b1 : Fin 256
  b2 : Fin 256
  b3 : Fin 256
deriving DecidableEq, Repr

/-- The `integer` member of the union: the four bytes read as one 32-bit
little-endian value. -/
def IP_Address.integer (a : IP_Address) : Nat :=
  a.b0.val + 256 * a.b1.val + 65536 * a.b2.val + 16777216 * a.b3.val

/-- The value-initialised address `{}`, the "no answer" sentinel. -/
def IP_Address.zero : IP_Address := ⟨0, 0, 0, 0⟩

/-- The constant `local{{{127, 0, 0, 1}}}` of `FinaliseDNS` and `Init`. -/
def IP_Address.loopback : IP_Address := ⟨127, 0, 0, 1⟩

/-- The four bytes written by `*(IP_Address*)&ansVector[0] = ans` into a
vector resized to 4. -/
def IP_Address.toBytes (a : IP_Address) : List (Fin 256) := [a.b0, a.b1, a.b2, a.b3]

/-- An association list standing for `std::unordered_map<std::string, IP_Address>`. -/
abbrev StringMap := List (String × IP_Address)

/-- The call `m.find(k)`: the mapped value when the key is present. -/
def StringMap.find : StringMap → String → Option IP_Address
  | [], _ => none
  | (k', v) :: rest, k => if k' = k then some v else StringMap.find rest k

/-- The statement `m[k] = v` (also `insert_or_assign`): the value of an
existing key is overwritten in place, a missing key is inserted. -/
def StringMap.assign : StringMap → String → IP_Address → StringMap
  | [], k, v => [(k, v)]
  | (k', v') :: rest, k, v =>
    if k' = k then (k', v) :: rest else (k', v') :: StringMap.assign rest k v

/-- The expression `m[k]` used as a value: the mapped value, and a missing key
is first inserted with the value-initialised address. -/
def StringMap.index (m : StringMap) (k : String) : IP_Address × StringMap :=
  match m.find k with
  | some v => (v, m)
  | none => (IP_Address.zero, m.assign k IP_Address.zero)

/-- The keys of the container. -/
def StringMap.keys (m : StringMap) : List String := m.map Prod.fst

/-- One question of a DNS packet (`DNS_QuestionEntry`: name, type, class). -/
structure DNS_QuestionEntry where
  name : String
  entryType : Nat
  entryClass : Nat
deriving DecidableEq, Repr

/-- One resource record (`DNS_ResponseEntry(name, type, class, data, ttl)`). -/
structure DNS_ResponseEntry where
  name : String
  entryType : Nat
  entryClass : Nat
  data : List (Fin 256)
  timeToLive : Nat
deriving DecidableEq, Repr

/-- Modelled from the spec: the class `DNS_Packet` (DNS_Packet.h is not part of
the embedded file). The fields are the ones the server reads through the
getters and writes through the setters: transaction ID, the header flags,
opcode, RCODE, the question list and the answer list. `new DNS_Packet()` is
the value with every field zero and every list empty. -/
structure DNS_Packet where
  id : Nat := 0
  qr : Bool := false
  opCode : Nat := 0
  aa : Bool := false
  tc : Bool := false
  rd : Bool := false
  ra : Bool := false
  ad : Bool := false
  cd : Bool := false
  rCode : Nat := 0
  questions : List DNS_QuestionEntry := []
  answers : List DNS_ResponseEntry := []
deriving DecidableEq, Repr

/-- The enumerator `DNS_OPCode::Query`. -/
def DNS_OPCode.Query : Nat := 0

/-- The enumerator `DNS_RCode::NoError`. -/
def DNS_RCode.NoError : Nat := 0

/-- The enumerator `DNS_RCode::ServerFailure`, written `2` in `FinaliseDNS`. -/
def DNS_RCode.ServerFailure : Nat := 2

/-- A UDP packet whose payload is a (parsed) DNS packet. -/
structure UDP_Packet where
  sourcePort : Nat
  destinationPort : Nat
  payload : DNS_Packet
deriving DecidableEq, Repr

/-- The class `DNS_Server::DNS_State`. -/
structure DNS_State where
  dns : DNS_Packet
  counter : Int
  questions : List String
  clientPort : Nat
  answers : StringMap
deriving DecidableEq, Repr

/-- One call of `FinaliseDNS`, as recorded in `DNS_Server.finalised`. -/
structure Finalisation where
  state : Nat
  snapshot : DNS_State
  response : DNS_Packet
deriving DecidableEq, Repr

/-- One element of the result list of `getaddrinfo`. -/
structure AddrInfo where
  ai_family : Nat
  sin_addr : IP_Address
deriving DecidableEq, Repr

/-- One entry of `EmuConfig.DEV9.EthHosts`. -/
structure HostEntry where
  Url : String
  Address : IP_Address
  Enabled : Bool
deriving DecidableEq, Repr

/-- The members of `DNS_Server` together with the Query States it has
allocated, the resolver threads it has started, and the observation fields. -/
structure DNS_Server where
  localhostIP : IP_Address
  hosts : StringMap
  outstandingQueries : Int
  dnsQueue : List UDP_Packet
  heap : List (Nat × DNS_State)
  nextAddr : Nat
  threads : List (Nat × String)
  callbackCount : Nat
  finalised : List Finalisation
deriving DecidableEq, Repr

/-! ## Query State -/

/-- The loop at lines 47-48: `answers[dnsQuestions[i]] = {}` for every index. -/
def prefill : List String → StringMap → StringMap
  | [], answers => answers
  | q :: rest, answers => prefill rest (answers.assign q IP_Address.zero)

/-- The constructor `DNS_State(count, dnsQuestions, dnsPacket, port)`. -/
def DNS_State.new (count : Int) (dnsQuestions : List String) (dnsPacket : DNS_Packet)
    (port : Nat) : DNS_State :=
  { dns := dnsPacket
    counter := count
    questions := dnsQuestions
    clientPort := port
    answers := prefill dnsQuestions [] }

/-- The method `AddAnswer`: `answers[answer] = address; return --counter;`. -/
def DNS_State.AddAnswer (st : DNS_State) (answer : String) (address : IP_Address) :
    DNS_State × Int :=
  ({ st with answers := st.answers.assign answer address, counter := st.counter - 1 },
   st.counter - 1)

/-- The method `AddNoAnswer`: `return --counter;`. -/
def DNS_State.AddNoAnswer (st : DNS_State) (_answer : String) : DNS_State × Int :=
  ({ st with counter := st.counter - 1 }, st.counter - 1)

/-- The method `GetAnswers`: a copy of the map. -/
def DNS_State.GetAnswers (st : DNS_State) : StringMap := st.answers

/-! ## Heap of Query States -/

/-- Dereference of a `DNS_State*`. -/
def heapGet : List (Nat × DNS_State) → Nat → Option DNS_State
  | [], _ => none
  | (a, st) :: rest, p => if a = p then some st else heapGet rest p

/-- Write through a `DNS_State*` that is alive. -/
def heapSet : List (Nat × DNS_State) → Nat → DNS_State → List (Nat × DNS_State)
  | [], _, _ => []
  | (a, st) :: rest, p, st' =>
    if a = p then (a, st') :: rest else (a, st) :: heapSet rest p st'

/-- The statement `delete state`. -/
def heapDelete : List (Nat × DNS_State) → Nat → List (Nat × DNS_State)
  | [], _ => []
  | (a, st) :: rest, p => if a = p then rest else (a, st) :: heapDelete rest p

/-! ## Server -/

/-- The character function `std::tolower` in the "C" locale. -/
def tolower (c : Char) : Char :=
  if 65 ≤ c.toNat ∧ c.toNat ≤ 90 then Char.ofNat (c.toNat + 32) else c

/-- The `std::transform(url.begin(), url.end(), url.begin(), tolower)` call. -/
def toLowerUrl (url : String) : String := String.mk (url.data.map tolower)

/-- The method `LoadHostList`, over the configured entries (lines 105-110). -/
def loadEntries : List HostEntry → StringMap → StringMap
  | [], hosts => hosts
  | entry :: rest, hosts =>
    if entry.Enabled then loadEntries rest (hosts.assign entry.Url entry.Address)
    else loadEntries rest hosts

/-- The method `LoadHostList`: `hosts.clear()` followed by the loop. -/
def LoadHostList (s : DNS_Server) (EthHosts : List HostEntry) : DNS_Server :=
  { s with hosts := loadEntries EthHosts [] }

/-- The method `Init`; `adapterIP` is the result of `AdapterUtils::GetAdapterIP`. -/
def Init (s : DNS_Server) (adapterIP : Option IP_Address) (EthHosts : List HostEntry) :
    DNS_Server :=
  let localhostIP :=
    match adapterIP with
    | some ip => ip
    | none => IP_Address.loopback
  LoadHostList { s with localhostIP := localhostIP } EthHosts

/-- The method `Recv`. -/
def Recv (s : DNS_Server) : Option UDP_Packet × DNS_Server :=
  match s.dnsQueue with
  | retPay :: rest =>
    (some retPay, { s with dnsQueue := rest, outstandingQueries := s.outstandingQueries - 1 })
  | [] => (none, s)

/-- The loop of `FinaliseDNS` (lines 204-222) over the remaining questions,
with the local copy of the answers and the response under construction. -/
def finaliseLoop (localhostIP : IP_Address) :
    List String → StringMap → DNS_Packet → DNS_Packet
  | [], _, retPay => retPay
  | req :: reqs, answers, retPay =>
    let ans := (answers.index req).1
    let answers := (answers.index req).2
    if ans.integer ≠ 0 then
      let ans := if ans = IP_Address.loopback then localhostIP else ans
      let ansVector := ans.toBytes
      let ansEntry : DNS_ResponseEntry := ⟨req, 1, 1, ansVector, 10800⟩
      finaliseLoop localhostIP reqs answers { retPay with answers := retPay.answers ++ [ansEntry] }
    else
      finaliseLoop localhostIP reqs answers { retPay with rCode := 2 }

/-- The method `FinaliseDNS`. -/
def FinaliseDNS (GetLength : DNS_Packet → Nat) (s : DNS_Server) (state : Nat) :
    Option DNS_Server :=
  match heapGet s.heap state with
  | none => none
  | some st =>
    let retPay := finaliseLoop s.localhostIP st.questions st.GetAnswers st.dns
    let clientPort := st.clientPort
    let s := { s with heap := heapDelete s.heap state,
                      finalised := s.finalised ++ [Finalisation.mk state st retPay] }
    if GetLength retPay > 512 then
      some { s with outstandingQueries := s.outstandingQueries - 1 }
    else
      let retUdp : UDP_Packet := ⟨53, clientPort, retPay⟩
      some { s with dnsQueue := s.dnsQueue ++ [retUdp], callbackCount := s.callbackCount + 1 }

/-- The method `CheckHostList`. -/
def CheckHostList (GetLength : DNS_Packet → Nat) (s : DNS_Server) (url : String)
    (state : Nat) : Option (Bool × DNS_Server) :=
  let url := toLowerUrl url
  match s.hosts.find url with
  | some _ =>
    match heapGet s.heap state with
    | none => none
    | some st =>
      let address := (s.hosts.index url).1
      let hosts := (s.hosts.index url).2
      let st' := (st.AddAnswer url address).1
      let remaining := (st.AddAnswer url address).2
      let s := { s with hosts := hosts, heap := heapSet s.heap state st' }
      if remaining = 0 then
        (FinaliseDNS GetLength s state).map (fun s => (true, s))
      else some (true, s)
  | none => some (false, s)

/-- The method `GetHost` (POSIX): a detached thread running
`GetAddrInfoThread(url, state)` is started. -/
def GetHost (s : DNS_Server) (url : String) (state : Nat) : DNS_Server :=
  { s with threads := s.threads ++ [(state, url)] }

/-- The constant `AF_INET`. -/
def AF_INET : Nat := 2

/-- The constant `EAI_NONAME` of netdb.h. -/
def EAI_NONAME : Int := -2

/-- The constant `EAI_AGAIN` of netdb.h. -/
def EAI_AGAIN : Int := -3

/-- The scan `while (retInfo != nullptr && retInfo->ai_family != AF_INET)`. -/
def firstInet : List AddrInfo → Option AddrInfo
  | [] => none
  | retInfo :: next => if retInfo.ai_family ≠ AF_INET then firstInet next else some retInfo

/-- The recording call made by `GetAddrInfoThread` (the `switch (error)`), given
the outcome `error`, `result` of `getaddrinfo`. -/
def recordOutcome (st : DNS_State) (url : String) (error : Int) (result : List AddrInfo) :
    DNS_State × Int :=
  if error = 0 then
    match firstInet result with
    | none => st.AddNoAnswer url
    | some retInfo => st.AddAnswer url retInfo.sin_addr
  else if error = EAI_NONAME ∨ error = EAI_AGAIN then st.AddNoAnswer url
  else st.AddNoAnswer url

/-- The method `GetAddrInfoThread`, from the return of `getaddrinfo` on. -/
def GetAddrInfoThread (GetLength : DNS_Packet → Nat) (s : DNS_Server) (url : String)
    (state : Nat) (error : Int) (result : List AddrInfo) : Option DNS_Server :=
  match heapGet s.heap state with
  | none => none
  | some st =>
    let st' := (recordOutcome st url error result).1
    let remaining := (recordOutcome st url error result).2
    let s := { s with heap := heapSet s.heap state st' }
    if remaining = 0 then FinaliseDNS GetLength s state else some s

/-- The filter loop of `Send` (lines 133-140), with the vector `reqs` built so far. -/
def collectQuestions : List DNS_QuestionEntry → List String → List String
  | [], reqs => reqs
  | q :: rest, reqs =>
    if q.entryType = 1 ∧ q.entryClass = 1 then collectQuestions rest (reqs ++ [q.name])
    else collectQuestions rest reqs

/-- The response template built by `Send` (lines 149-161). -/
def responseTemplate (dns : DNS_Packet) : DNS_Packet :=
  let ret : DNS_Packet := {}
  { ret with
    id := dns.id
    qr := true
    opCode := DNS_OPCode.Query
    aa := false
    tc := false
    rd := true
    ra := true
    ad := false
    cd := false
    rCode := DNS_RCode.NoError
    questions := dns.questions }

/-- One iteration of the dispatch loop of `Send` (lines 168-170). -/
def dispatchQuestion (GetLength : DNS_Packet → Nat) (s : DNS_Server) (url : String)
    (state : Nat) : Option DNS_Server :=
  match CheckHostList GetLength s url state with
  | none => none
  | some (true, s) => some s
  | some (false, s) => some (GetHost s url state)

/-- The dispatch loop of `Send` (lines 166-171) over the remaining questions. -/
def dispatchLoop (GetLength : DNS_Packet → Nat) :
    DNS_Server → List String → Nat → Option DNS_Server
  | s, [], _ => some s
  | s, url :: rest, state =>
    match dispatchQuestion GetLength s url state with
    | none => none
    | some s => dispatchLoop GetLength s rest state

/-- The part of `Send` that sets up the Query State (lines 126-164): the server
with the new Query State, its address and the vector `reqs`, and `none` when
`Send` sets up no Query State (the query is dropped at line 142 or 146, or the
branch of line 129 is not taken). -/
def sendSetup (s : DNS_Server) (payload : UDP_Packet) :
    Option (DNS_Server × Nat × List String) :=
  let dns := payload.payload
  if dns.opCode = DNS_OPCode.Query ∧ dns.questions.length > 0 ∧ dns.qr = false then
    let reqs := collectQuestions dns.questions []
    if reqs.length = 0 then none
    else if dns.tc = true then none
    else
      let ret := responseTemplate dns
      let st := DNS_State.new reqs.length reqs ret payload.sourcePort
      let state := s.nextAddr
      some ({ s with heap := s.heap ++ [(state, st)], nextAddr := s.nextAddr + 1,
                     outstandingQueries := s.outstandingQueries + 1 }, state, reqs)
  else none

/-- The method `Send`: the returned flag and the server afterwards. In the
`else` branch of line 129 the call `Console.Error("... Code: %s",
dns.GetOpCode())` of line 176 hands the `u8` opcode, promoted to `int`, to a
`%s` conversion, which requires a pointer to a string: the call has no defined
behaviour (an opcode from 1 to 15 is read as the address 1 to 15), and `Send`
is `none` there. The other calls of `Console.Error` match their formats and
are not part of the state. -/
def Send (GetLength : DNS_Packet → Nat) (s : DNS_Server) (payload : UDP_Packet) :
    Option (Bool × DNS_Server) :=
  let dns := payload.payload
  if dns.opCode = DNS_OPCode.Query ∧ dns.questions.length > 0 ∧ dns.qr = false then
    match sendSetup s payload with
    | none => some (true, s)
    | some (s, state, reqs) => (dispatchLoop GetLength s reqs state).map (fun s => (true, s))
  else none

/-- A server right after construction and `Init`: nothing in flight. -/
def DNS_Server.fresh (localhostIP : IP_Address) (hosts : StringMap) : DNS_Server :=
  { localhostIP := localhostIP, hosts := hosts, outstandingQueries := 0, dnsQueue := [],
    heap := [], nextAddr := 0, threads := [], callbackCount := 0, finalised := [] }

/-! ## Recording calls and events -/

/-- One call on a Query State that decrements the pending counter. -/
inductive RecordCall where
  | addAnswer (answer : String) (address : IP_Address)
  | addNoAnswer (answer : String)
deriving DecidableEq, Repr

/-- The effect of one recording call: the state afterwards and the returned value. -/
def DNS_State.record (st : DNS_State) : RecordCall → DNS_State × Int
  | RecordCall.addAnswer answer address => st.AddAnswer answer address
  | RecordCall.addNoAnswer answer => st.AddNoAnswer answer

/-- The values returned by a sequence of recording calls, in call order. -/
def recordReturns : DNS_State → List RecordCall → List Int
  | _, [] => []
  | st, c :: rest => (st.record c).2 :: recordReturns (st.record c).1 rest

/-- The Query State after a sequence of recording calls. -/
def recordAll : DNS_State → List RecordCall → DNS_State
  | st, [] => st
  | st, c :: rest => recordAll (st.record c).1 rest

/-- One run of a server path that records the outcome of one question of the
Query State `state`: the override hit of `CheckHostList`, or the completion of
a resolver thread. -/
inductive Recording where
  | hostList (url : String)
  | resolved (url : String) (error : Int) (result : List AddrInfo)
deriving DecidableEq, Repr

/-- The server after one recording path has run on the Query State `state`. -/
def recordOn (GetLength : DNS_Packet → Nat) (s : DNS_Server) (state : Nat) :
    Recording → Option DNS_Server
  | Recording.hostList url => (CheckHostList GetLength s url state).map Prod.snd
  | Recording.resolved url error result => GetAddrInfoThread GetLength s url state error result

/-- The server after a sequence of recording paths has run on `state`. -/
def recordAllOn (GetLength : DNS_Packet → Nat) :
    DNS_Server → Nat → List Recording → Option DNS_Server
  | s, _, [] => some s
  | s, state, r :: rest =>
    match recordOn GetLength s state r with
    | none => none
    | some s => recordAllOn GetLength s state rest

/-- The server together with the call of `Send` that the owning thread is
executing, if any: the Query State of that call and the questions its dispatch
loop has not reached yet. -/
structure Machine where
  server : DNS_Server
  sending : Option (Nat × List String)
deriving DecidableEq, Repr

/-- The atomic steps of the server and of its resolver threads. -/
inductive Event where
  | init (adapterIP : Option IP_Address) (EthHosts : List HostEntry)
  | loadHostList (EthHosts : List HostEntry)
  | recv
  | send (payload : UDP_Packet)
  | dispatch
  | complete (i : Nat) (error : Int) (result : List AddrInfo)
deriving DecidableEq, Repr

/-- One atomic step. `send` enters `Send` and runs it up to the dispatch loop,
`dispatch` runs one iteration of the loop (or leaves `Send` when the loop is
over), `complete i` lets the `i`-th running resolver thread receive the outcome
of `getaddrinfo` and run to its end. `recv` and `send` belong to the owning
thread and are possible only while no `Send` is executing. A step that would
dereference a destroyed Query State is `none`, and so is a `send` that takes
the `else` branch of line 129 (see `Send`). -/
def step (GetLength : DNS_Packet → Nat) (m : Machine) : Event → Option Machine
  | Event.init adapterIP EthHosts => some { m with server := Init m.server adapterIP EthHosts }
  | Event.loadHostList EthHosts => some { m with server := LoadHostList m.server EthHosts }
  | Event.recv =>
    match m.sending with
    | none => some { m with server := (Recv m.server).2 }
    | some _ => none
  | Event.send payload =>
    match m.sending with
    | none =>
      if payload.payload.opCode = DNS_OPCode.Query ∧ payload.payload.questions.length > 0 ∧
          payload.payload.qr = false then
        match sendSetup m.server payload with
        | none => some m
        | some (s, state, reqs) => some { server := s, sending := some (state, reqs) }
      else none
    | some _ => none
  | Event.dispatch =>
    match m.sending with
    | none => none
    | some (_, []) => some { m with sending := none }
    | some (state, url :: rest) =>
      match dispatchQuestion GetLength m.server url state with
      | none => none
      | some s => some { server := s, sending := some (state, rest) }
  | Event.complete i error result =>
    match m.server.threads.get? i with
    | none => none
    | some (state, url) =>
      match GetAddrInfoThread GetLength
          { m.server with threads := m.server.threads.eraseIdx i } url state error result with
      | none => none
      | some s => some { m with server := s }

/-- The machine after a sequence of steps. -/
def run (GetLength : DNS_Packet → Nat) : Machine → List Event → Option Machine
  | m, [] => some m
  | m, e :: rest =>
    match step GetLength m e with
    | none => none
    | some m => run GetLength m rest

/-- The states the server can be in: those a sequence of steps reaches from a
server on which nothing is in flight. -/
def Reachable (GetLength : DNS_Packet → Nat) (m : Machine) : Prop :=
  ∃ (localhostIP : IP_Address) (hosts : StringMap) (events : List Event),
    run GetLength { server := DNS_Server.fresh localhostIP hosts, sending := none } events = some m

/-! ## Vocabulary of the specification -/

/-- The recorded answer of a question: the address held under its name in the
answers map, the "no answer" sentinel when the name is not a key. -/
def recorded (answers : StringMap) (name : String) : IP_Address :=
  (answers.find name).getD IP_Address.zero

/-- A question is supported when its type is A (1) and its class is IN (1). -/
def DNS_QuestionEntry.supported (q : DNS_QuestionEntry) : Bool :=
  q.entryType == 1 && q.entryClass == 1

/-- The names of the supported questions of a question list, in order. -/
def supportedNames (questions : List DNS_QuestionEntry) : List String :=
  (questions.filter DNS_QuestionEntry.supported).map DNS_QuestionEntry.name

/-- The address an answer record carries for a recorded address: the adapter
address in place of 127.0.0.1. -/
def substituteLoopback (localhostIP : IP_Address) (a : IP_Address) : IP_Address :=
  if a = IP_Address.loopback then localhostIP else a

/-- A question is answered when its recorded answer is not the zero address. -/
def answered (answers : StringMap) (name : String) : Bool :=
  decide ((recorded answers name).integer ≠ 0)

/-- The answer record of the specification for an answered question: type A,
class IN, TTL 10800 and the four bytes of the address. -/
def answerRecord (localhostIP : IP_Address) (answers : StringMap) (name : String) :
    DNS_ResponseEntry :=
  { name := name, entryType := 1, entryClass := 1,
    data := (substituteLoopback localhostIP (recorded answers name)).toBytes,
    timeToLive := 10800 }

/-- The response `FinaliseDNS` builds for a Query State. -/
def responseOf (localhostIP : IP_Address) (st : DNS_State) : DNS_Packet :=
  finaliseLoop localhostIP st.questions st.GetAnswers st.dns

/-- A Query State as `Send` leaves it to the recording paths: the template
has no answer record yet and RCODE NoError, and the question names are the
supported names of the question list the template echoes. -/
def SentState (st : DNS_State) : Prop :=
  st.dns.answers = [] ∧ st.dns.rCode = DNS_RCode.NoError ∧
    st.questions = supportedNames st.dns.questions

/-- The invariant of the server used for the responses: every live Query
State is as `Send` left it (up to recorded answers), and every finalisation
consumed such a state and produced the response of `FinaliseDNS` for it. -/
def ServerInv (s : DNS_Server) : Prop :=
  (∀ a st, (a, st) ∈ s.heap → SentState st) ∧
  (∀ f, f ∈ s.finalised →
    SentState f.snapshot ∧ ∃ localhostIP, f.response = responseOf localhostIP f.snapshot)

/-- The answer records of a finalised response are those the specification
asks for: the response echoes the question list of the query, the Query State
was built over the supported questions of that list in their order, the
answer records are, in that order, one for each question whose recorded
answer is non-zero and none for the other questions, and each record has type
1, class 1, TTL 10800 and an address of 4 bytes. -/
def AnswerRecordsInOrder (f : Finalisation) : Prop :=
  f.response.questions = f.snapshot.dns.questions ∧
  f.snapshot.questions = (f.response.questions.filter
      (fun q => q.entryType == 1 && q.entryClass == 1)).map DNS_QuestionEntry.name ∧
  f.response.answers.map DNS_ResponseEntry.name
    = f.snapshot.questions.filter
        (fun q => decide ((recorded f.snapshot.answers q).integer ≠ 0)) ∧
  (∀ r, r ∈ f.response.answers →
    r.entryType = 1 ∧ r.entryClass = 1 ∧ r.timeToLive = 10800 ∧ r.data.length = 4)

/-! ## Concrete inputs -/

/-- A length function for the examples: 12 bytes of header and 32 bytes for
every question and every answer. -/
def exampleLength (p : DNS_Packet) : Nat := 12 + 32 * p.questions.length + 32 * p.answers.length

/-- A server on the adapter 10.0.0.5 whose override table maps `example.com`
to 1.2.3.4, `zero.test` to 0.0.0.0 and `home.test` to 127.0.0.1. -/
def exampleServer : DNS_Server :=
  DNS_Server.fresh ⟨10, 0, 0, 5⟩
    [("example.com", ⟨1, 2, 3, 4⟩), ("zero.test", ⟨0, 0, 0, 0⟩), ("home.test", ⟨127, 0, 0, 1⟩)]

/-- A standard query from port 4000 with transaction ID 7 for the given questions. -/
def exampleQuery (questions : List DNS_QuestionEntry) : UDP_Packet :=
  { sourcePort := 4000, destinationPort := 53,
    payload := { id := 7, rd := true, questions := questions } }

/-- The supported question names of the two-question example query. -/
def exampleQuestions : List String := ["a.test", "home.test"]

/-- The two-question example query: `a.test` and `home.test`, both A/IN. -/
def exampleQuery2 : UDP_Packet :=
  exampleQuery [⟨"a.test", 1, 1⟩, ⟨"home.test", 1, 1⟩]

/-- The Query State `Send` constructs for `exampleQuery2`. -/
def exampleState : DNS_State :=
  DNS_State.new exampleQuestions.length exampleQuestions
    (responseTemplate exampleQuery2.payload) 4000

/-- The example server while the Query State of `exampleQuery2` is alive at
address 0 and nothing has been recorded yet. -/
def exampleLive : DNS_Server :=
  { exampleServer with heap := [(0, exampleState)], nextAddr := 1, outstandingQueries := 1 }

/-- Two recording calls for the example state. -/
def exampleCalls : List RecordCall :=
  [RecordCall.addAnswer "a.test" ⟨9, 9, 9, 9⟩, RecordCall.addNoAnswer "home.test"]

/-- Two recording paths for the example state: a resolver completion for
`a.test` with one IPv4 result, and the override hit for `home.test`. -/
def exampleRecordings : List Recording :=
  [Recording.resolved "a.test" 0 [⟨2, ⟨9, 9, 9, 9⟩⟩], Recording.hostList "home.test"]

/-- A query for the single name `Example.COM` (A/IN). -/
def upperQuery : UDP_Packet := exampleQuery [⟨"Example.COM", 1, 1⟩]

/-- A query for the single name `example.com` (A/IN). -/
def lowerQuery : UDP_Packet := exampleQuery [⟨"example.com", 1, 1⟩]

/-- A query for the single name `zero.test` (A/IN). -/
def zeroQuery : UDP_Packet := exampleQuery [⟨"zero.test", 1, 1⟩]

/-- Recording calls that answer both questions of the example state: `a.test`
with 9.9.9.9 (the resolver) and `home.test` with 127.0.0.1 (the override
table). -/
def exampleAnswers : List RecordCall :=
  [RecordCall.addAnswer "a.test" ⟨9, 9, 9, 9⟩, RecordCall.addAnswer "home.test" ⟨127, 0, 0, 1⟩]

/-- The example server when both questions of the example state have been
answered and `FinaliseDNS` is about to run on it. -/
def exampleAnswered : DNS_Server :=
  { exampleServer with heap := [(0, recordAll exampleState exampleAnswers)], nextAddr := 1,
                       outstandingQueries := 1 }

/-- A length function under which every response is oversized. -/
def oversizedLength (_p : DNS_Packet) : Nat := 513

/-- A query with a repeated name and a question of type AAAA (28) in between. -/
def mixedQuery : UDP_Packet :=
  exampleQuery [⟨"a.test", 1, 1⟩, ⟨"b.test", 28, 1⟩, ⟨"a.test", 1, 1⟩]

/-- A query whose only question has type AAAA (28). -/
def unsupportedQuery : UDP_Packet := exampleQuery [⟨"b.test", 28, 1⟩]

/-- A run of the example server: `Send` is entered with `exampleQuery2`, its
loop dispatches `a.test` to the resolver and finds `home.test` in the
override table, `Send` returns, and the resolver thread completes with
9.9.9.9. -/
def exampleEvents : List Event :=
  [Event.send exampleQuery2, Event.dispatch, Event.dispatch, Event.dispatch,
   Event.complete 0 0 [⟨2, ⟨9, 9, 9, 9⟩⟩]]

/-- The return codes and answer lists of the responses finalised so far. -/
def finalisedResponses (s : DNS_Server) : List (Nat × List DNS_ResponseEntry) :=
  s.finalised.map (fun f => (f.response.rCode, f.response.answers))

/-- A query with the opcode 2 (server status request) and one question of type
1 and class 1, QR and TC clear. -/
def statusQuery : UDP_Packet :=
  ⟨4000, 53, { id := 7, opCode := 2, questions := [⟨"example.com", 1, 1⟩] }⟩

/-! ## The Windows completion callback -/

/-- The constant `WSAHOST_NOT_FOUND` of winerror.h. -/
def WSAHOST_NOT_FOUND : Nat := 11001

/-- The constant `WSATRY_AGAIN` of winerror.h. -/
def WSATRY_AGAIN : Nat := 11002

/-- The recording call made by `GetAddrInfoExCallback` (the `switch (dwError)`),
given the error code and the result list of `GetAddrInfoEx`. -/
def recordOutcomeEx (st : DNS_State) (url : String) (dwError : Nat) (result : List AddrInfo) :
    DNS_State × Int :=
  if dwError = 0 then
    match firstInet result with
    | none => st.AddNoAnswer url
    | some addrInfo => st.AddAnswer url addrInfo.sin_addr
  else if dwError = WSAHOST_NOT_FOUND ∨ dwError = WSATRY_AGAIN then st.AddNoAnswer url
  else st.AddNoAnswer url

/-- The recording call the specification asks of a completion handler:
`AddAnswer` with the address of the first IPv4 result when the resolver
reported success and there is such a result, `AddNoAnswer` otherwise. -/
def expectedCall (url : String) (success : Bool) (result : List AddrInfo) : RecordCall :=
  if success then
    match result.find? (fun r => r.ai_family == AF_INET) with
    | some r => RecordCall.addAnswer url r.sin_addr
    | none => RecordCall.addNoAnswer url
  else RecordCall.addNoAnswer url

/-- A resolver result list with an IPv6 entry (family 10) before the first
IPv4 entry. -/
def exampleResult : List AddrInfo :=
  [⟨10, ⟨0, 0, 0, 1⟩⟩, ⟨2, ⟨9, 9, 9, 9⟩⟩, ⟨2, ⟨8, 8, 8, 8⟩⟩]

/-- Recording calls under which both questions of the example state fail. -/
def exampleFailures : List RecordCall :=
  [RecordCall.addNoAnswer "home.test", RecordCall.addNoAnswer "a.test"]

/-- The example server when both questions of the example state have failed
and `FinaliseDNS` is about to run on it. -/
def exampleFailed : DNS_Server :=
  { exampleServer with
    heap := [(0, recordAll exampleState exampleFailures)]
    nextAddr := 1
    outstandingQueries := 1 }

/-! ## Letter case -/

/-- Two characters are the same letter when letter case is ignored: they are
equal, or one is an upper-case letter `A`..`Z` and the other is the
lower-case letter 32 code points above it. -/
def sameLetter (c d : Char) : Bool :=
  c == d ||
  (decide (65 ≤ c.toNat) && decide (c.toNat ≤ 90) && decide (d.toNat = c.toNat + 32)) ||
  (decide (65 ≤ d.toNat) && decide (d.toNat ≤ 90) && decide (c.toNat = d.toNat + 32))

/-- Two character sequences are equal when letter case is ignored. -/
def sameLetters : List Char → List Char → Bool
  | [], [] => true
  | c :: cs, d :: ds => sameLetter c d && sameLetters cs ds
  | _, _ => false

/-- Two names are equal when letter case is ignored. -/
def EqualIgnoringCase (n1 n2 : String) : Prop := sameLetters n1.data n2.data = true

/-- The configuration with the single enabled entry `Example.COM` at 1.2.3.4. -/
def upperEntries : List HostEntry := [⟨"Example.COM", ⟨1, 2, 3, 4⟩, true⟩]

/-- A configuration with a disabled entry, a hostname configured twice and a
hostname that occurs in a disabled entry only. -/
def exampleEntries : List HostEntry :=
  [⟨"a.test", ⟨1, 1, 1, 1⟩, true⟩, ⟨"b.test", ⟨2, 2, 2, 2⟩, false⟩,
   ⟨"a.test", ⟨3, 3, 3, 3⟩, true⟩, ⟨"c.test", ⟨4, 4, 4, 4⟩, true⟩]

/-! ## Reload of the override table and teardown -/

/-- The address of the last enabled configuration entry with the given
hostname, if there is one. -/
def lastEnabled : List HostEntry → String → Option IP_Address
  | [], _ => none
  | entry :: rest, name =>
    match lastEnabled rest name with
    | some address => some address
    | none => if entry.Enabled = true ∧ entry.Url = name then some entry.Address else none

/-- The completion of one resolver thread while the destructor waits: the
index of the thread and the outcome of `getaddrinfo`. -/
structure Completion where
  i : Nat
  error : Int
  result : List AddrInfo
deriving DecidableEq, Repr

/-- The loop of the destructor `~DNS_Server` (lines 246-258). The schedule
gives, for every evaluation of the loop condition, the resolver threads that
complete before it. The result is the server when the loop exits and the
number of packets deleted, starting from `deleted`; it is `none` when the
schedule ends before the loop exits (or asks for a step that is not
possible). An iteration that finds the queue empty sleeps and continues. -/
def destructorLoop (GetLength : DNS_Packet → Nat) :
    List (List Completion) → DNS_Server → Nat → Option (DNS_Server × Nat)
  | [], _, _ => none
  | batch :: schedule, s, deleted =>
    match run GetLength { server := s, sending := none }
        (batch.map (fun c => Event.complete c.i c.error c.result)) with
    | none => none
    | some m =>
      if m.server.outstandingQueries ≠ 0 then
        match m.server.dnsQueue with
        | [] => destructorLoop GetLength schedule m.server deleted
        | _retPay :: rest =>
          destructorLoop GetLength schedule
            { m.server with
              dnsQueue := rest
              outstandingQueries := m.server.outstandingQueries - 1 }
            (deleted + 1)
      else some (m.server, deleted)

/-- The example server with two responses on the output queue and no query in
flight. -/
def exampleQueued : DNS_Server :=
  { exampleServer with
    dnsQueue := [⟨53, 4000, responseTemplate lowerQuery.payload⟩,
                 ⟨53, 4001, responseTemplate zeroQuery.payload⟩]
    outstandingQueries := 2 }

/-! ## Counting invariant -/

/-- The recordings a Query State is still owed: the resolver threads started
for it that have not completed, plus, while the `Send` that created it is
executing, the questions its dispatch loop has not reached yet. -/
def pendingOf (m : Machine) (a : Nat) : Nat :=
  (m.server.threads.filter (fun t => t.1 == a)).length +
  (match m.sending with
   | some (state, rest) => if state = a then rest.length else 0
   | none => 0)

/-- The counting invariant over the parts of the machine it speaks about: the
live Query States, the number of recordings owed to each address, the next
address, the outstanding-operations counter, the length of the output queue
and the addresses of the finalised states. -/
def CountInvOn (heap : List (Nat × DNS_State)) (pending : Nat → Nat) (nextAddr : Nat)
    (outstanding : Int) (queued : Nat) (log : List Nat) : Prop :=
  (heap.map Prod.fst).Nodup ∧
  (∀ a, a ∈ heap.map Prod.fst → a < nextAddr) ∧
  (∀ a st, heapGet heap a = some st → st.counter = pending a ∧ 1 ≤ pending a) ∧
  (∀ a, heapGet heap a = none → pending a = 0) ∧
  outstanding = heap.length + queued ∧
  log.Nodup ∧
  (∀ a, a ∈ log → a < nextAddr ∧ heapGet heap a = none) ∧
  log.length + heap.length = nextAddr

/-- The counting invariant of the machine: live Query States have distinct
addresses below the next one; the pending counter of a live state is the
number of recordings it is still owed and is at least 1; nothing is owed to a
state that is not alive; the outstanding-operations counter is the number of
live states plus the length of the output queue; no state was finalised
twice, finalised states are not alive, and every state created is alive or
finalised. -/
def CountInv (m : Machine) : Prop :=
  CountInvOn m.server.heap (pendingOf m) m.server.nextAddr m.server.outstandingQueries
    m.server.dnsQueue.length (m.server.finalised.map Finalisation.state)

/-- While `Send` is in its dispatch loop with a question left to dispatch, its
Query State is alive and the questions left are a final segment of the
question list of that state. -/
def SendingInv (m : Machine) : Prop :=
  ∀ state url rest, m.sending = some (state, url :: rest) →
    ∃ st, heapGet m.server.heap state = some st ∧ List.IsSuffix (url :: rest) st.questions

/-- The example run up to the moment `Send` is about to dispatch its second
question, after the resolver thread started for the first question has
already completed. -/
def exampleEarlyCompletion : List Event :=
  [Event.send exampleQuery2, Event.dispatch, Event.complete 0 0 [⟨2, ⟨9, 9, 9, 9⟩⟩]]

/-- A query whose two supported names are both in the override table of the
example server, with a question of type AAAA (28) between them. -/
def allFoundQuery : UDP_Packet :=
  exampleQuery [⟨"example.com", 1, 1⟩, ⟨"example.com", 28, 1⟩, ⟨"home.test", 1, 1⟩]

/-! ## Provenance of the responses -/

/-- The queries with which `Send` is entered in a sequence of steps, in order. -/
def sentQueries : List Event → List UDP_Packet
  | [] => []
  | Event.send payload :: rest => payload :: sentQueries rest
  | Event.init _ _ :: rest => sentQueries rest
  | Event.loadHostList _ :: rest => sentQueries rest
  | Event.recv :: rest => sentQueries rest
  | Event.dispatch :: rest => sentQueries rest
  | Event.complete _ _ _ :: rest => sentQueries rest

/-- The header of a response to the query: the transaction ID and the complete
question list of the query, QR=1, opcode Query, AA=0, TC=0, RD=1, RA=1, AD=0
and CD=0. -/
def EchoesQuery (dns : DNS_Packet) (query : UDP_Packet) : Prop :=
  dns.id = query.payload.id ∧ dns.questions = query.payload.questions ∧
  dns.qr = true ∧ dns.opCode = DNS_OPCode.Query ∧ dns.aa = false ∧ dns.tc = false ∧
  dns.rd = true ∧ dns.ra = true ∧ dns.ad = false ∧ dns.cd = false

/-- The query is one `Send` accepts: opcode Query, QR clear, TC clear and at
least one question of type 1 and class 1. -/
def Accepted (query : UDP_Packet) : Prop :=
  query.payload.opCode = DNS_OPCode.Query ∧ query.payload.qr = false ∧
  query.payload.tc = false ∧
  ∃ q, q ∈ query.payload.questions ∧ q.entryType = 1 ∧ q.entryClass = 1

/-- The packet is a response to the query: the query is one `Send` accepts,
and the packet is a UDP packet from port 53 to the source port of the query
whose DNS payload echoes the query. -/
def AnswersQuery (pkt : UDP_Packet) (query : UDP_Packet) : Prop :=
  Accepted query ∧ pkt.sourcePort = 53 ∧ pkt.destinationPort = query.sourcePort ∧
  EchoesQuery pkt.payload query

/-- The Query State belongs to the query: the query is one `Send` accepts, and
the state keeps the source port of the query and a template that echoes the
query. -/
def FromQuery (st : DNS_State) (query : UDP_Packet) : Prop :=
  Accepted query ∧ st.clientPort = query.sourcePort ∧ EchoesQuery st.dns query

/-- The call of `Send` with this query reaches `new DNS_State` (line 163): the
conditions of lines 129, 141 and 143. -/
def createsState (payload : UDP_Packet) : Bool :=
  let dns := payload.payload
  decide (dns.opCode = DNS_OPCode.Query ∧ dns.questions.length > 0 ∧ dns.qr = false) &&
  decide ((collectQuestions dns.questions []).length ≠ 0) && decide (dns.tc ≠ true)

/-- The queries for which `Send` has constructed a Query State in a sequence of
steps, in the order of construction. The server allocates the addresses 0, 1,
2, ... in that order, so the query at position `a` is the query whose `Send`
constructed the Query State at the address `a`: the query that causes the
response `FinaliseDNS` builds from that Query State. -/
def createdQueries (events : List Event) : List UDP_Packet :=
  (sentQueries events).filter createsState

/-- The UDP packet `FinaliseDNS` builds around the response (lines 234-236):
from port 53 to the client port of the Query State. -/
def Finalisation.packet (f : Finalisation) : UDP_Packet :=
  ⟨53, f.snapshot.clientPort, f.response⟩

/-- The packets `FinaliseDNS` has placed on the output queue, oldest first:
those of the finalisations whose response has a length of at most 512. -/
def enqueuedPackets (GetLength : DNS_Packet → Nat) (log : List Finalisation) :
    List UDP_Packet :=
  (log.filter (fun f => decide (GetLength f.response ≤ 512))).map Finalisation.packet

/-- With `created` the queries for which a Query State has been constructed, in
order: the next address is their number; the live Query State at the address
`a` belongs to the query at position `a`; the packet of every finalisation is
a response to the query at the position of the Query State it consumed; and
the output queue is what `Recv` has left of the enqueued packets. -/
def ProvInv (GetLength : DNS_Packet → Nat) (created : List UDP_Packet) (s : DNS_Server) :
    Prop :=
  s.nextAddr = created.length ∧
  (∀ a st, (a, st) ∈ s.heap → ∃ query, created.get? a = some query ∧ FromQuery st query) ∧
  (∀ f, f ∈ s.finalised →
    ∃ query, created.get? f.state = some query ∧ AnswersQuery f.packet query) ∧
  List.IsSuffix s.dnsQueue (enqueuedPackets GetLength s.finalised)

/-- A first query, for a name the resolver has to look up. -/
def firstQuery : UDP_Packet :=
  ⟨1111, 53, { id := 1, questions := [⟨"slow.test", 1, 1⟩] }⟩

/-- A second query, from another port and with another transaction ID. -/
def secondQuery : UDP_Packet :=
  ⟨2222, 53, { id := 2, questions := [⟨"fast.test", 1, 1⟩] }⟩

/-- A run in which the second query is answered before the first: both are
handed to the resolver, and the thread of the second completes first. -/
def overtakingEvents : List Event :=
  [Event.send firstQuery, Event.dispatch, Event.dispatch,
   Event.send secondQuery, Event.dispatch, Event.dispatch,
   Event.complete 1 0 [⟨2, ⟨8, 8, 8, 8⟩⟩], Event.complete 0 0 [⟨2, ⟨9, 9, 9, 9⟩⟩]]

/-! ## The resolver threads of one Query State, statement by statement -/

/-- The place of a resolver thread in `GetAddrInfoThread` after `getaddrinfo`
has returned: before its recording call; inside `AddAnswer`, after
`answers[answer] = address` and before `--counter`; after the recording call
has returned `remaining`; and past `if (remaining == 0) FinaliseDNS(state)`,
where the thread no longer uses the Query State. -/
inductive Pc where
  | resolved
  | stored
  | decremented (remaining : Int)
  | finished
deriving DecidableEq, Repr

/-- The thread has not executed `--counter` yet. -/
def Pc.undecremented : Pc → Bool
  | Pc.resolved => true
  | Pc.stored => true
  | Pc.decremented _ => false
  | Pc.finished => false

/-- The thread holds the value 0 returned by its decrement and has not called
`FinaliseDNS` yet. -/
def Pc.holdsZero : Pc → Bool
  | Pc.decremented remaining => decide (remaining = 0)
  | _ => false

/-- One resolver thread: its question, the outcome of `getaddrinfo` and its
place in `GetAddrInfoThread`. -/
structure Worker where
  url : String
  error : Int
  result : List AddrInfo
  pc : Pc
deriving DecidableEq, Repr

/-- The Query State the threads share (`none` once `delete state` has run),
the threads, the threads that obtained 0 from `--counter`, and the threads
that called `FinaliseDNS`, both in the order in which it happened. -/
structure Shared where
  state : Option DNS_State
  workers : List Worker
  zeros : List Nat
  finalisers : List Nat
deriving DecidableEq, Repr

/-- The atomic `--counter` of thread `i`; `none` when the Query State has been
destroyed. -/
def decrementStep (sh : Shared) (i : Nat) (w : Worker) : Option Shared :=
  match sh.state with
  | none => none
  | some st =>
    some { state := some { st with counter := st.counter - 1 }
           workers := sh.workers.set i { w with pc := Pc.decremented (st.counter - 1) }
           zeros := if st.counter - 1 = 0 then sh.zeros ++ [i] else sh.zeros
           finalisers := sh.finalisers }

/-- The next statement of thread `i` that uses the Query State. The recording
call is `AddAnswer` (a store into `answers`, then the decrement) when the
error code is 0 and there is an IPv4 result, and `AddNoAnswer` (the decrement)
otherwise; a thread whose decrement returned 0 then calls `FinaliseDNS`, which
destroys the state. The result is `none` when the statement uses a destroyed
Query State; a thread that has finished, or an index that is no thread, does
nothing. -/
def workerStep (sh : Shared) (i : Nat) : Option Shared :=
  match sh.workers.get? i with
  | none => some sh
  | some w =>
    match w.pc with
    | Pc.resolved =>
      if w.error = 0 then
        match firstInet w.result with
        | none => decrementStep sh i w
        | some retInfo =>
          match sh.state with
          | none => none
          | some st =>
            some { sh with
                   state := some { st with answers := st.answers.assign w.url retInfo.sin_addr }
                   workers := sh.workers.set i { w with pc := Pc.stored } }
      else decrementStep sh i w
    | Pc.stored => decrementStep sh i w
    | Pc.decremented remaining =>
      if remaining = 0 then
        match sh.state with
        | none => none
        | some _ =>
          some { sh with
                 state := none
                 workers := sh.workers.set i { w with pc := Pc.finished }
                 finalisers := sh.finalisers ++ [i] }
      else some { sh with workers := sh.workers.set i { w with pc := Pc.finished } }
    | Pc.finished => some sh

/-- The threads run under a schedule: the list of the threads that execute
their next statement, in order. -/
def runWorkers : Shared → List Nat → Option Shared
  | sh, [] => some sh
  | sh, i :: schedule =>
    match workerStep sh i with
    | none => none
    | some sh => runWorkers sh schedule

/-- The invariant of the threads of one Query State: a thread that holds 0 is
among `zeros`; while the state is alive its counter is the number of threads
that have not decremented yet, nobody has called `FinaliseDNS`, and a thread
holds 0 exactly when every thread has decremented; once the state is
destroyed every thread has decremented, none holds 0, and the one thread that
obtained 0 is the one that called `FinaliseDNS`. -/
def WorkersInv (sh : Shared) : Prop :=
  (∀ i w, sh.workers.get? i = some w → w.pc.holdsZero = true → i ∈ sh.zeros) ∧
  match sh.state with
  | some st =>
    st.counter = (sh.workers.countP (fun w => w.pc.undecremented) : Nat) ∧
    sh.finalisers = [] ∧
    sh.zeros.length = sh.workers.countP (fun w => w.pc.holdsZero) ∧
    sh.workers.countP (fun w => w.pc.holdsZero)
      = (if sh.workers.countP (fun w => w.pc.undecremented) = 0 then 1 else 0)
  | none =>
    sh.workers.countP (fun w => w.pc.undecremented) = 0 ∧
    sh.workers.countP (fun w => w.pc.holdsZero) = 0 ∧
    sh.zeros.length = 1 ∧ sh.finalisers = sh.zeros

/-- Three resolver threads for the questions of one Query State: two with an
IPv4 result and one that failed. -/
def exampleWorkers : List Worker :=
  [⟨"a.test", 0, [⟨2, ⟨9, 9, 9, 9⟩⟩], Pc.resolved⟩,
   ⟨"b.test", -2, [], Pc.resolved⟩,
   ⟨"c.test", 0, [⟨10, ⟨0, 0, 0, 1⟩⟩, ⟨2, ⟨8, 8, 8, 8⟩⟩], Pc.resolved⟩]

/-- The Query State of the three example threads. -/
def exampleShared : Shared :=
  { state := some (DNS_State.new 3 ["a.test", "b.test", "c.test"] (responseTemplate {}) 4000)
    workers := exampleWorkers
    zeros := []
    finalisers := [] }

end InternalServers

/-! ## Super-sampling options of the parallel-gs renderer
(`pcsx2/GS/Renderers/parallel-gs/GSRendererPGS.cpp`) -/

namespace GSRendererPGS

/-- The `struct ParsedSuperSampling`. The enumeration `SuperSampling` is
declared outside this file; the field `super_sampling` holds the integer the
code converts to it, the value of `1u << super_sampling`. -/
structure ParsedSuperSampling where
  super_sampling : Nat
  ordered : Bool
  deriving DecidableEq, Repr

/-- The function `parse_super_sampling_options(u8 super_sampling)`. The
argument is the value of the `u8`; `super_sampling--` is the decrement of a
`u8` (modulo 256) and `1u << super_sampling` a shift of a 32-bit unsigned
integer (modulo `2 ^ 32`). -/
def parse_super_sampling_options (super_sampling : Nat) : ParsedSuperSampling :=
  let super_sampling := if super_sampling > 5 then 5 else super_sampling
  let ordered := super_sampling == 3
  let super_sampling :=
    if super_sampling ≥ 3 then (super_sampling + 255) % 256 else super_sampling
  ⟨(1 <<< super_sampling) % 2 ^ 32, ordered⟩

end GSRendererPGS

namespace InternalServers

/-! ## Lemmas on the containers -/

theorem StringMap.find_assign_same (m : StringMap) (k : String) (v : IP_Address) :
    StringMap.find (StringMap.assign m k v) k = some v := by
  induction m with
  | nil => simp [StringMap.assign, StringMap.find]
  | cons hd tl ih =>
    obtain ⟨k', v'⟩ := hd
    by_cases h : k' = k
    · simp [StringMap.assign, StringMap.find, h]
    · simp [StringMap.assign, StringMap.find, h, ih]

theorem StringMap.find_assign_ne (m : StringMap) (k k' : String) (v : IP_Address)
    (hne : k ≠ k') : StringMap.find (StringMap.assign m k v) k' = StringMap.find m k' := by
  induction m with
  | nil => simp [StringMap.assign, StringMap.find, hne]
  | cons hd tl ih =>
    obtain ⟨k0, v0⟩ := hd
    by_cases h : k0 = k
    · subst h
      simp [StringMap.assign, StringMap.find, hne]
    · by_cases h2 : k0 = k'
      · subst h2
        simp [StringMap.assign, StringMap.find, h]
      · simp [StringMap.assign, StringMap.find, h, h2, ih]

theorem StringMap.mem_keys_assign (m : StringMap) (k k' : String) (v : IP_Address) :
    k' ∈ StringMap.keys (StringMap.assign m k v) ↔ k' = k ∨ k' ∈ StringMap.keys m := by
  induction m with
  | nil => simp [StringMap.assign, StringMap.keys]
  | cons hd tl ih =>
    obtain ⟨k0, v0⟩ := hd
    by_cases h : k0 = k
    · subst h
      simp [StringMap.assign, StringMap.keys]
    · simp only [StringMap.keys] at ih
      simp only [StringMap.assign, h, if_false, StringMap.keys, List.map_cons, List.mem_cons, ih]
      tauto

theorem StringMap.find_isSome_iff (m : StringMap) (k : String) :
    (StringMap.find m k).isSome ↔ k ∈ StringMap.keys m := by
  induction m with
  | nil => simp [StringMap.find, StringMap.keys]
  | cons hd tl ih =>
    obtain ⟨k0, v0⟩ := hd
    by_cases h : k0 = k
    · simp [StringMap.find, StringMap.keys, h]
    · simp only [StringMap.keys] at ih
      have h' : ¬ k = k0 := fun e => h e.symm
      simp [StringMap.find, StringMap.keys, h, h', ih]

theorem StringMap.index_fst (m : StringMap) (k : String) :
    (StringMap.index m k).1 = recorded m k := by
  unfold StringMap.index recorded
  cases h : StringMap.find m k <;> simp

theorem StringMap.recorded_index_snd (m : StringMap) (k k' : String) :
    recorded (StringMap.index m k).2 k' = recorded m k' := by
  unfold StringMap.index recorded
  cases h : StringMap.find m k with
  | some v => simp
  | none =>
    by_cases hk : k = k'
    · subst hk
      simp [StringMap.find_assign_same, h, IP_Address.zero]
    · simp [StringMap.find_assign_ne _ _ _ _ hk]

theorem recorded_assign_same (m : StringMap) (k : String) (v : IP_Address) :
    recorded (StringMap.assign m k v) k = v := by
  simp [recorded, StringMap.find_assign_same]

theorem recorded_assign_ne (m : StringMap) (k k' : String) (v : IP_Address) (hne : k ≠ k') :
    recorded (StringMap.assign m k v) k' = recorded m k' := by
  simp [recorded, StringMap.find_assign_ne _ _ _ _ hne]

theorem heapGet_heapSet_same (h : List (Nat × DNS_State)) (p : Nat) (st st' : DNS_State)
    (hlive : heapGet h p = some st) : heapGet (heapSet h p st') p = some st' := by
  induction h with
  | nil => simp [heapGet] at hlive
  | cons hd tl ih =>
    obtain ⟨a, s0⟩ := hd
    by_cases ha : a = p
    · simp [heapSet, heapGet, ha]
    · simp only [heapGet, ha, if_false] at hlive
      simp [heapSet, heapGet, ha, ih hlive]

theorem IP_Address.integer_eq_zero_iff (a : IP_Address) :
    a.integer = 0 ↔ a = IP_Address.zero := by
  obtain ⟨b0, b1, b2, b3⟩ := a
  simp only [IP_Address.integer, IP_Address.zero, IP_Address.mk.injEq]
  constructor
  · intro h
    refine ⟨?_, ?_, ?_, ?_⟩ <;> apply Fin.ext <;> simp <;> omega
  · rintro ⟨rfl, rfl, rfl, rfl⟩
    simp

/-! ## The pending counter -/

theorem record_counter (st : DNS_State) (c : RecordCall) :
    (st.record c).1.counter = st.counter - 1 ∧ (st.record c).2 = st.counter - 1 := by
  cases c <;> simp [DNS_State.record, DNS_State.AddAnswer, DNS_State.AddNoAnswer]

theorem recordReturns_length (calls : List RecordCall) (st : DNS_State) :
    (recordReturns st calls).length = calls.length := by
  induction calls generalizing st with
  | nil => simp [recordReturns]
  | cons c rest ih => simp [recordReturns, ih]

theorem recordReturns_get (calls : List RecordCall) (st : DNS_State) (k : Nat)
    (hk : k < calls.length) :
    (recordReturns st calls).get? k = some (st.counter - (k + 1)) := by
  induction calls generalizing st k with
  | nil => simp at hk
  | cons c rest ih =>
    cases k with
    | zero => simp [recordReturns, (record_counter st c).2]
    | succ k =>
      simp only [List.length_cons, Nat.add_lt_add_iff_right] at hk
      simp only [recordReturns, List.get?_cons_succ, ih _ k hk, (record_counter st c).1]
      congr 1
      push_cast
      ring

theorem recordReturns_eq (calls : List RecordCall) (st : DNS_State) :
    recordReturns st calls
      = (List.range calls.length).map (fun (k : Nat) => st.counter - ((k : Int) + 1)) := by
  apply List.ext_get?
  intro k
  by_cases hk : k < calls.length
  · rw [recordReturns_get calls st k hk, List.get?_eq_getElem?, List.getElem?_map,
      List.getElem?_range hk]
    rfl
  · have h1 : (recordReturns st calls).length ≤ k := by
      rw [recordReturns_length]; omega
    have h2 : ((List.range calls.length).map (fun (k : Nat) => st.counter - ((k : Int) + 1))).length ≤ k := by
      rw [List.length_map, List.length_range]; omega
    rw [List.get?_eq_none.mpr h1, List.get?_eq_none.mpr h2]

/-! ## Finalisation -/

theorem FinaliseDNS_eq (GetLength : DNS_Packet → Nat) (s : DNS_Server) (state : Nat)
    (st : DNS_State) (hlive : heapGet s.heap state = some st) :
    FinaliseDNS GetLength s state
      = some (if GetLength (responseOf s.localhostIP st) > 512 then
          { s with heap := heapDelete s.heap state,
                   finalised := s.finalised ++ [Finalisation.mk state st (responseOf s.localhostIP st)],
                   outstandingQueries := s.outstandingQueries - 1 }
        else
          { s with heap := heapDelete s.heap state,
                   finalised := s.finalised ++ [Finalisation.mk state st (responseOf s.localhostIP st)],
                   dnsQueue := s.dnsQueue ++ [UDP_Packet.mk 53 st.clientPort (responseOf s.localhostIP st)],
                   callbackCount := s.callbackCount + 1 }) := by
  unfold FinaliseDNS
  rw [hlive]
  simp only [responseOf]
  split <;> rfl

theorem FinaliseDNS_log (GetLength : DNS_Packet → Nat) (s : DNS_Server) (state : Nat)
    (st : DNS_State) (hlive : heapGet s.heap state = some st) :
    ∃ s', FinaliseDNS GetLength s state = some s' ∧ s'.hosts = s.hosts ∧
      s'.localhostIP = s.localhostIP ∧
      s'.finalised = s.finalised ++ [Finalisation.mk state st (responseOf s.localhostIP st)] := by
  rw [FinaliseDNS_eq GetLength s state st hlive]
  split <;> exact ⟨_, rfl, rfl, rfl, rfl⟩

theorem recordOutcome_counter (st : DNS_State) (url : String) (error : Int)
    (result : List AddrInfo) :
    (recordOutcome st url error result).1.counter = st.counter - 1 ∧
      (recordOutcome st url error result).2 = st.counter - 1 := by
  unfold recordOutcome
  split
  · split <;> simp [DNS_State.AddAnswer, DNS_State.AddNoAnswer]
  · split <;> simp [DNS_State.AddNoAnswer]

theorem StringMap.index_of_find (m : StringMap) (k : String) (v : IP_Address)
    (h : StringMap.find m k = some v) : StringMap.index m k = (v, m) := by
  simp [StringMap.index, h]

theorem recordOn_step (GetLength : DNS_Packet → Nat) (s : DNS_Server) (state : Nat)
    (st : DNS_State) (r : Recording) (hlive : heapGet s.heap state = some st)
    (hhit : ∀ url, r = Recording.hostList url → (s.hosts.find (toLowerUrl url)).isSome) :
    ∃ s', recordOn GetLength s state r = some s' ∧ s'.hosts = s.hosts ∧
      ((st.counter - 1 = 0 ∧ ∃ f, s'.finalised = s.finalised ++ [f] ∧ f.state = state) ∨
       (st.counter - 1 ≠ 0 ∧ s'.finalised = s.finalised ∧
          ∃ st', heapGet s'.heap state = some st' ∧ st'.counter = st.counter - 1)) := by
  cases r with
  | hostList url =>
    obtain ⟨v, hv⟩ := Option.isSome_iff_exists.mp (hhit url rfl)
    have hl := heapGet_heapSet_same s.heap state st (st.AddAnswer (toLowerUrl url) v).1 hlive
    have hr : (st.AddAnswer (toLowerUrl url) v).2 = st.counter - 1 := rfl
    have hc : (st.AddAnswer (toLowerUrl url) v).1.counter = st.counter - 1 := rfl
    simp only [recordOn, CheckHostList, hv, hlive, StringMap.index_of_find _ _ _ hv, hr]
    by_cases h0 : st.counter - 1 = 0
    · simp only [h0, if_true]
      obtain ⟨s', hs', hh, _, hf⟩ := FinaliseDNS_log GetLength
        { s with hosts := s.hosts, heap := heapSet s.heap state (st.AddAnswer (toLowerUrl url) v).1 }
        state _ hl
      refine ⟨s', ?_, hh, Or.inl ⟨trivial, _, hf, rfl⟩⟩
      simp [hs']
    · simp only [h0, if_false]
      exact ⟨_, rfl, rfl, Or.inr ⟨h0, rfl, _, hl, hc⟩⟩
  | resolved url error result =>
    simp only [recordOn, GetAddrInfoThread, hlive, (recordOutcome_counter st url error result).2]
    by_cases h0 : st.counter - 1 = 0
    · simp only [h0, if_true]
      obtain ⟨s', hs', hh, _, hf⟩ := FinaliseDNS_log GetLength
        { s with heap := heapSet s.heap state (recordOutcome st url error result).1 }
        state _ (heapGet_heapSet_same _ _ _ _ hlive)
      exact ⟨s', hs', hh, Or.inl ⟨trivial, _, hf, rfl⟩⟩
    · simp only [h0, if_false]
      exact ⟨_, rfl, rfl, Or.inr ⟨h0, rfl, _, heapGet_heapSet_same _ _ _ _ hlive,
        (recordOutcome_counter st url error result).1⟩⟩

theorem recordAllOn_pending (GetLength : DNS_Packet → Nat) (state : Nat)
    (events : List Recording) (s : DNS_Server) (st : DNS_State)
    (hlive : heapGet s.heap state = some st) (hlt : (events.length : Int) < st.counter)
    (hhit : ∀ url, Recording.hostList url ∈ events → (s.hosts.find (toLowerUrl url)).isSome) :
    ∃ s' st', recordAllOn GetLength s state events = some s' ∧ s'.finalised = s.finalised ∧
      s'.hosts = s.hosts ∧ heapGet s'.heap state = some st' ∧
      st'.counter = st.counter - events.length := by
  induction events generalizing s st with
  | nil => exact ⟨s, st, rfl, rfl, rfl, hlive, by simp⟩
  | cons r rest ih =>
    simp only [List.length_cons, Nat.cast_add, Nat.cast_one] at hlt
    obtain ⟨s1, hs1, hh1, hcase⟩ := recordOn_step GetLength s state st r hlive
      (fun url hr => hhit url (by rw [hr]; exact List.mem_cons_self _ _))
    rcases hcase with ⟨h0, _⟩ | ⟨_, hf1, st1, hl1, hc1⟩
    · omega
    · obtain ⟨s2, st2, hs2, hf2, hh2, hl2, hc2⟩ := ih s1 st1 hl1 (by rw [hc1]; omega)
        (fun url hr => by rw [hh1]; exact hhit url (List.mem_cons_of_mem _ hr))
      refine ⟨s2, st2, ?_, by rw [hf2, hf1], by rw [hh2, hh1], hl2, ?_⟩
      · simp only [recordAllOn, hs1, hs2]
      · rw [hc2, hc1]
        simp only [List.length_cons, Nat.cast_add, Nat.cast_one]
        ring

theorem recordAllOn_finalises (GetLength : DNS_Packet → Nat) (state : Nat)
    (events : List Recording) (s : DNS_Server) (st : DNS_State)
    (hlive : heapGet s.heap state = some st) (hlen : (events.length : Int) = st.counter)
    (hpos : 1 ≤ events.length)
    (hhit : ∀ url, Recording.hostList url ∈ events → (s.hosts.find (toLowerUrl url)).isSome) :
    ∃ s' f, recordAllOn GetLength s state events = some s' ∧
      s'.finalised = s.finalised ++ [f] ∧ f.state = state := by
  induction events generalizing s st with
  | nil => simp at hpos
  | cons r rest ih =>
    simp only [List.length_cons, Nat.cast_add, Nat.cast_one] at hlen
    obtain ⟨s1, hs1, hh1, hcase⟩ := recordOn_step GetLength s state st r hlive
      (fun url hr => hhit url (by rw [hr]; exact List.mem_cons_self _ _))
    rcases hcase with ⟨h0, f, hf, hfs⟩ | ⟨hne, hf1, st1, hl1, hc1⟩
    · have hrest : rest = [] := by
        apply List.eq_nil_of_length_eq_zero
        omega
      subst hrest
      exact ⟨s1, f, by simp only [recordAllOn, hs1], hf, hfs⟩
    · have hpos1 : 1 ≤ rest.length := by omega
      obtain ⟨s2, f, hs2, hf2, hfs⟩ := ih s1 st1 hl1 (by rw [hc1]; omega) hpos1
        (fun url hr => by rw [hh1]; exact hhit url (List.mem_cons_of_mem _ hr))
      exact ⟨s2, f, by simp only [recordAllOn, hs1, hs2], by rw [hf2, hf1], hfs⟩

theorem recordReturns_zero_once (calls : List RecordCall) (st : DNS_State)
    (hlen : (calls.length : Int) = st.counter) (hpos : 1 ≤ calls.length) :
    (recordReturns st calls).count 0 = 1 ∧ (recordReturns st calls).getLast? = some 0 := by
  induction calls generalizing st with
  | nil => simp at hpos
  | cons c rest ih =>
    simp only [List.length_cons, Nat.cast_add, Nat.cast_one] at hlen
    obtain ⟨hc1, hc2⟩ := record_counter st c
    cases rest with
    | nil =>
      have h0 : (st.record c).2 = 0 := by
        rw [hc2]; simp only [List.length_nil, Nat.cast_zero] at hlen; omega
      simp [recordReturns, h0]
    | cons c' rest' =>
      have hne : (st.record c).2 ≠ 0 := by
        rw [hc2]; simp only [List.length_cons, Nat.cast_add, Nat.cast_one] at hlen; omega
      obtain ⟨ih1, ih2⟩ := ih (st.record c).1 (by rw [hc1]; omega) (by simp)
      constructor
      · rw [recordReturns, List.count_cons, ih1]
        simp [hne]
      · rw [recordReturns]
        rw [recordReturns] at ih2 ⊢
        rw [List.getLast?_cons_cons]
        exact ih2

/-- C1. A Query State constructed with N >= 1 questions receives N recording
calls (`AddAnswer` and `AddNoAnswer` in any mix and order): the call at
position k (counted from 0) returns N-(k+1), the counter after its decrement;
the value 0 is returned exactly once, by the last call, and every earlier call
returns a positive value. On the server, where the recording paths
(`CheckHostList` on an override hit, the completion of a resolver thread) call
`FinaliseDNS` when they obtain 0: after fewer than N recordings no
finalisation of the state has happened, and after all N exactly one has. -/
theorem C1_recording_returns_and_single_finalisation (GetLength : DNS_Packet → Nat)
    (s : DNS_Server) (state : Nat) (dnsQuestions : List String) (dnsPacket : DNS_Packet)
    (port : Nat) (calls : List RecordCall) (events : List Recording)
    (hN : 1 ≤ dnsQuestions.length)
    (hcalls : calls.length = dnsQuestions.length)
    (hevents : events.length = dnsQuestions.length)
    (hlive : heapGet s.heap state
      = some (DNS_State.new dnsQuestions.length dnsQuestions dnsPacket port))
    (hhit : ∀ url, Recording.hostList url ∈ events → (s.hosts.find (toLowerUrl url)).isSome) :
    (∀ k, k < dnsQuestions.length →
      (recordReturns (DNS_State.new dnsQuestions.length dnsQuestions dnsPacket port) calls).get? k
        = some ((dnsQuestions.length : Int) - (k + 1))) ∧
    (recordReturns (DNS_State.new dnsQuestions.length dnsQuestions dnsPacket port) calls).length
      = dnsQuestions.length ∧
    (recordReturns (DNS_State.new dnsQuestions.length dnsQuestions dnsPacket port) calls).count 0
      = 1 ∧
    (recordReturns (DNS_State.new dnsQuestions.length dnsQuestions dnsPacket port) calls).getLast?
      = some 0 ∧
    (∀ k r, k + 1 < dnsQuestions.length →
      (recordReturns (DNS_State.new dnsQuestions.length dnsQuestions dnsPacket port) calls).get? k
        = some r → 0 < r) ∧
    (∀ k, k < dnsQuestions.length →
      ∃ sk, recordAllOn GetLength s state (events.take k) = some sk ∧
        sk.finalised = s.finalised) ∧
    (∃ s' f, recordAllOn GetLength s state events = some s' ∧
      s'.finalised = s.finalised ++ [f] ∧ f.state = state) := by
  have hget : ∀ k, k < dnsQuestions.length →
      (recordReturns (DNS_State.new dnsQuestions.length dnsQuestions dnsPacket port) calls).get? k
        = some ((dnsQuestions.length : Int) - (k + 1)) := by
    intro k hk
    rw [recordReturns_get calls _ k (by omega)]
    rfl
  refine ⟨hget, ?_, ?_, ?_, ?_, ?_, ?_⟩
  · rw [recordReturns_length, hcalls]
  · exact (recordReturns_zero_once calls _ (by simp only [DNS_State.new, hcalls]) (by omega)).1
  · exact (recordReturns_zero_once calls _ (by simp only [DNS_State.new, hcalls]) (by omega)).2
  · intro k r hk hr
    rw [hget k (by omega)] at hr
    injection hr with hr
    omega
  · intro k hk
    obtain ⟨sk, _, hs, hf, _⟩ := recordAllOn_pending GetLength state (events.take k) s _ hlive
      (by simp only [List.length_take, DNS_State.new]; omega)
      (fun url hr => hhit url (List.mem_of_mem_take hr))
    exact ⟨sk, hs, hf⟩
  · exact recordAllOn_finalises GetLength state events s _ hlive
      (by simp only [DNS_State.new, hevents]) (by omega) hhit

/-! ## The response built by `FinaliseDNS` -/

theorem answered_index_snd (answers : StringMap) (req : String) :
    answered (StringMap.index answers req).2 = answered answers := by
  funext q
  simp only [answered, StringMap.recorded_index_snd]

theorem answerRecord_index_snd (localhostIP : IP_Address) (answers : StringMap) (req : String) :
    answerRecord localhostIP (StringMap.index answers req).2 = answerRecord localhostIP answers := by
  funext q
  simp only [answerRecord, StringMap.recorded_index_snd]

theorem finaliseLoop_answers (localhostIP : IP_Address) (reqs : List String)
    (answers : StringMap) (retPay : DNS_Packet) :
    (finaliseLoop localhostIP reqs answers retPay).answers
      = retPay.answers ++ (reqs.filter (answered answers)).map (answerRecord localhostIP answers) := by
  induction reqs generalizing answers retPay with
  | nil => simp [finaliseLoop]
  | cons req rest ih =>
    simp only [finaliseLoop, StringMap.index_fst]
    by_cases h : (recorded answers req).integer ≠ 0
    · have ha : answered answers req = true := by simp [answered, h]
      rw [if_pos h, ih, answered_index_snd, answerRecord_index_snd, List.filter_cons_of_pos ha]
      simp [answerRecord, substituteLoopback]
    · have ha : ¬ (answered answers req = true) := by simp [answered, h]
      rw [if_neg h, ih, answered_index_snd, answerRecord_index_snd, List.filter_cons_of_neg ha]

theorem finaliseLoop_rCode (localhostIP : IP_Address) (reqs : List String)
    (answers : StringMap) (retPay : DNS_Packet) :
    (finaliseLoop localhostIP reqs answers retPay).rCode
      = if reqs.all (answered answers) then retPay.rCode else 2 := by
  induction reqs generalizing answers retPay with
  | nil => simp [finaliseLoop]
  | cons req rest ih =>
    simp only [finaliseLoop, StringMap.index_fst]
    by_cases h : (recorded answers req).integer ≠ 0
    · have ha : answered answers req = true := by simp [answered, h]
      rw [if_pos h, ih, answered_index_snd]
      simp [ha]
    · have ha : answered answers req = false := by simpa [answered] using h
      rw [if_neg h, ih, answered_index_snd]
      simp [ha]

theorem finaliseLoop_header (localhostIP : IP_Address) (reqs : List String)
    (answers : StringMap) (retPay : DNS_Packet) :
    (finaliseLoop localhostIP reqs answers retPay).id = retPay.id ∧
    (finaliseLoop localhostIP reqs answers retPay).qr = retPay.qr ∧
    (finaliseLoop localhostIP reqs answers retPay).opCode = retPay.opCode ∧
    (finaliseLoop localhostIP reqs answers retPay).aa = retPay.aa ∧
    (finaliseLoop localhostIP reqs answers retPay).tc = retPay.tc ∧
    (finaliseLoop localhostIP reqs answers retPay).rd = retPay.rd ∧
    (finaliseLoop localhostIP reqs answers retPay).ra = retPay.ra ∧
    (finaliseLoop localhostIP reqs answers retPay).ad = retPay.ad ∧
    (finaliseLoop localhostIP reqs answers retPay).cd = retPay.cd ∧
    (finaliseLoop localhostIP reqs answers retPay).questions = retPay.questions := by
  induction reqs generalizing answers retPay with
  | nil => simp [finaliseLoop]
  | cons req rest ih =>
    simp only [finaliseLoop]
    split
    · exact ih _ _
    · exact ih _ _

/-! ## Effect of recording calls on the answers -/

theorem record_frame (st : DNS_State) (c : RecordCall) :
    (st.record c).1.dns = st.dns ∧ (st.record c).1.questions = st.questions ∧
      (st.record c).1.clientPort = st.clientPort := by
  cases c <;> simp [DNS_State.record, DNS_State.AddAnswer, DNS_State.AddNoAnswer]

theorem recordAll_frame (calls : List RecordCall) (st : DNS_State) :
    (recordAll st calls).dns = st.dns ∧ (recordAll st calls).questions = st.questions ∧
      (recordAll st calls).clientPort = st.clientPort := by
  induction calls generalizing st with
  | nil => simp [recordAll]
  | cons c rest ih =>
    obtain ⟨h1, h2, h3⟩ := ih (st.record c).1
    obtain ⟨g1, g2, g3⟩ := record_frame st c
    simp only [recordAll]
    exact ⟨h1.trans g1, h2.trans g2, h3.trans g3⟩

theorem recordAll_answered (calls : List RecordCall) (st : DNS_State) (q : String)
    (hnz : ∀ a, RecordCall.addAnswer q a ∈ calls → a.integer ≠ 0)
    (hsome : (∃ a, RecordCall.addAnswer q a ∈ calls) ∨ (recorded st.answers q).integer ≠ 0) :
    (recorded (recordAll st calls).answers q).integer ≠ 0 := by
  induction calls generalizing st with
  | nil =>
    rcases hsome with ⟨a, ha⟩ | h
    · simp at ha
    · exact h
  | cons c rest ih =>
    simp only [recordAll]
    apply ih
    · intro a ha
      exact hnz a (List.mem_cons_of_mem _ ha)
    · cases c with
      | addAnswer k a =>
        by_cases hk : k = q
        · subst hk
          right
          simp only [DNS_State.record, DNS_State.AddAnswer, recorded_assign_same]
          exact hnz a (List.mem_cons_self _ _)
        · rcases hsome with ⟨b, hb⟩ | h
          · left
            refine ⟨b, ?_⟩
            rcases List.mem_cons.mp hb with heq | hmem
            · injection heq with h1 h2
              exact absurd h1.symm hk
            · exact hmem
          · right
            simp only [DNS_State.record, DNS_State.AddAnswer, recorded_assign_ne _ _ _ _ hk]
            exact h
      | addNoAnswer k =>
        rcases hsome with ⟨b, hb⟩ | h
        · left
          refine ⟨b, ?_⟩
          rcases List.mem_cons.mp hb with heq | hmem
          · cases heq
          · exact hmem
        · right
          simpa only [DNS_State.record, DNS_State.AddNoAnswer] using h

/-! ## The filter loop of `Send` -/

theorem collectQuestions_eq (questions : List DNS_QuestionEntry) (reqs : List String) :
    collectQuestions questions reqs = reqs ++ supportedNames questions := by
  induction questions generalizing reqs with
  | nil => simp [collectQuestions, supportedNames]
  | cons q rest ih =>
    by_cases h : q.entryType = 1 ∧ q.entryClass = 1
    · have hs : q.supported = true := by
        simp [DNS_QuestionEntry.supported, h.1, h.2]
      simp only [collectQuestions, if_pos h, ih, supportedNames, List.filter_cons_of_pos hs,
        List.map_cons, List.append_assoc, List.singleton_append]
    · have hs : ¬ (q.supported = true) := by
        simpa [DNS_QuestionEntry.supported] using h
      simp only [collectQuestions, if_neg h, ih, supportedNames, List.filter_cons_of_neg hs]

/-! ## Invariant of the reachable states -/

theorem mem_of_heapGet (h : List (Nat × DNS_State)) (p : Nat) (st : DNS_State)
    (hget : heapGet h p = some st) : (p, st) ∈ h := by
  induction h with
  | nil => simp [heapGet] at hget
  | cons hd tl ih =>
    obtain ⟨a, s0⟩ := hd
    by_cases ha : a = p
    · simp only [heapGet, ha, if_true, Option.some.injEq] at hget
      simp [ha, hget]
    · simp only [heapGet, ha, if_false] at hget
      exact List.mem_cons_of_mem _ (ih hget)

theorem mem_heapSet (h : List (Nat × DNS_State)) (p : Nat) (st' : DNS_State) (a : Nat)
    (x : DNS_State) (hmem : (a, x) ∈ heapSet h p st') : (a, x) ∈ h ∨ x = st' := by
  induction h with
  | nil => simp [heapSet] at hmem
  | cons hd tl ih =>
    obtain ⟨a0, s0⟩ := hd
    by_cases ha : a0 = p
    · simp only [heapSet, ha, if_true, List.mem_cons, Prod.mk.injEq] at hmem
      rcases hmem with ⟨_, hx⟩ | hmem
      · exact Or.inr hx
      · exact Or.inl (List.mem_cons_of_mem _ hmem)
    · simp only [heapSet, ha, if_false, List.mem_cons] at hmem
      rcases hmem with hx | hmem
      · exact Or.inl (by rw [hx]; exact List.mem_cons_self _ _)
      · rcases ih hmem with h1 | h1
        · exact Or.inl (List.mem_cons_of_mem _ h1)
        · exact Or.inr h1

theorem mem_heapDelete (h : List (Nat × DNS_State)) (p : Nat) (a : Nat) (x : DNS_State)
    (hmem : (a, x) ∈ heapDelete h p) : (a, x) ∈ h := by
  induction h with
  | nil => simp [heapDelete] at hmem
  | cons hd tl ih =>
    obtain ⟨a0, s0⟩ := hd
    by_cases ha : a0 = p
    · simp only [heapDelete, ha, if_true] at hmem
      exact List.mem_cons_of_mem _ hmem
    · simp only [heapDelete, ha, if_false, List.mem_cons] at hmem
      rcases hmem with hx | hmem
      · rw [hx]; exact List.mem_cons_self _ _
      · exact List.mem_cons_of_mem _ (ih hmem)

theorem FinaliseDNS_inv (GetLength : DNS_Packet → Nat) (s s' : DNS_Server) (state : Nat)
    (hinv : ServerInv s) (hs : FinaliseDNS GetLength s state = some s') : ServerInv s' := by
  cases hget : heapGet s.heap state with
  | none => simp [FinaliseDNS, hget] at hs
  | some st =>
    have hst : SentState st := hinv.1 state st (mem_of_heapGet _ _ _ hget)
    rw [FinaliseDNS_eq GetLength s state st hget] at hs
    have hheap : s'.heap = heapDelete s.heap state := by
      injection hs with hs
      rw [← hs]
      split <;> rfl
    have hlog : s'.finalised
        = s.finalised ++ [Finalisation.mk state st (responseOf s.localhostIP st)] := by
      injection hs with hs
      rw [← hs]
      split <;> rfl
    constructor
    · intro a x hx
      rw [hheap] at hx
      exact hinv.1 a x (mem_heapDelete _ _ _ _ hx)
    · intro f hf
      rw [hlog, List.mem_append, List.mem_singleton] at hf
      rcases hf with hf | hf
      · exact hinv.2 f hf
      · rw [hf]
        exact ⟨hst, s.localhostIP, rfl⟩

theorem ServerInv_heapSet (s : DNS_Server) (state : Nat) (st st' : DNS_State)
    (hinv : ServerInv s) (hget : heapGet s.heap state = some st)
    (hdns : st'.dns = st.dns) (hqs : st'.questions = st.questions) (hosts : StringMap)
    (threads : List (Nat × String)) :
    ServerInv { s with hosts := hosts, threads := threads, heap := heapSet s.heap state st' } := by
  have hst : SentState st := hinv.1 state st (mem_of_heapGet _ _ _ hget)
  constructor
  · intro a x hx
    rcases mem_heapSet _ _ _ _ _ hx with h1 | h1
    · exact hinv.1 a x h1
    · rw [h1]
      unfold SentState at hst ⊢
      rw [hdns, hqs]
      exact hst
  · exact hinv.2

theorem recordOutcome_frame (st : DNS_State) (url : String) (error : Int)
    (result : List AddrInfo) :
    (recordOutcome st url error result).1.dns = st.dns ∧
      (recordOutcome st url error result).1.questions = st.questions := by
  unfold recordOutcome
  split
  · split <;> simp [DNS_State.AddAnswer, DNS_State.AddNoAnswer]
  · split <;> simp [DNS_State.AddNoAnswer]

theorem CheckHostList_inv (GetLength : DNS_Packet → Nat) (s s' : DNS_Server) (url : String)
    (state : Nat) (b : Bool) (hinv : ServerInv s)
    (hs : CheckHostList GetLength s url state = some (b, s')) : ServerInv s' := by
  unfold CheckHostList at hs
  cases hfind : StringMap.find s.hosts (toLowerUrl url) with
  | none =>
    simp only [hfind, Option.some.injEq, Prod.mk.injEq] at hs
    rw [← hs.2]
    exact hinv
  | some v =>
    cases hget : heapGet s.heap state with
    | none => simp [hfind, hget] at hs
    | some st =>
      have h1 : ServerInv
          { s with
            hosts := s.hosts
            threads := s.threads
            heap := heapSet s.heap state (st.AddAnswer (toLowerUrl url) v).1 } :=
        ServerInv_heapSet s state st (st.AddAnswer (toLowerUrl url) v).1 hinv hget rfl rfl
          s.hosts s.threads
      simp only [hfind, hget, StringMap.index_of_find _ _ _ hfind] at hs
      split at hs
      · cases hfin : FinaliseDNS GetLength
            { s with
              hosts := s.hosts
              heap := heapSet s.heap state (st.AddAnswer (toLowerUrl url) v).1 } state with
        | none => simp [hfin] at hs
        | some s2 =>
          simp only [hfin, Option.map_some', Option.some.injEq, Prod.mk.injEq] at hs
          rw [← hs.2]
          exact FinaliseDNS_inv GetLength _ s2 state h1 hfin
      · simp only [Option.some.injEq, Prod.mk.injEq] at hs
        rw [← hs.2]
        exact h1

theorem GetAddrInfoThread_inv (GetLength : DNS_Packet → Nat) (s s' : DNS_Server) (url : String)
    (state : Nat) (error : Int) (result : List AddrInfo) (hinv : ServerInv s)
    (hs : GetAddrInfoThread GetLength s url state error result = some s') : ServerInv s' := by
  unfold GetAddrInfoThread at hs
  cases hget : heapGet s.heap state with
  | none => simp [hget] at hs
  | some st =>
    have h1 : ServerInv
        { s with
          hosts := s.hosts
          threads := s.threads
          heap := heapSet s.heap state (recordOutcome st url error result).1 } :=
      ServerInv_heapSet s state st _ hinv hget (recordOutcome_frame st url error result).1
        (recordOutcome_frame st url error result).2 s.hosts s.threads
    simp only [hget] at hs
    split at hs
    · exact FinaliseDNS_inv GetLength _ s' state h1 hs
    · simp only [Option.some.injEq] at hs
      rw [← hs]
      exact h1

theorem sendSetup_inv (s s' : DNS_Server) (payload : UDP_Packet) (state : Nat)
    (reqs : List String) (hinv : ServerInv s)
    (hs : sendSetup s payload = some (s', state, reqs)) : ServerInv s' := by
  unfold sendSetup at hs
  simp only [collectQuestions_eq, List.nil_append] at hs
  split at hs
  · split at hs
    · simp at hs
    · split at hs
      · simp at hs
      · simp only [Option.some.injEq, Prod.mk.injEq] at hs
        rw [← hs.1]
        constructor
        · intro a x hx
          simp only [List.mem_append, List.mem_singleton, Prod.mk.injEq] at hx
          rcases hx with hx | ⟨_, hx⟩
          · exact hinv.1 a x hx
          · rw [hx]
            exact ⟨rfl, rfl, rfl⟩
        · exact hinv.2
  · simp at hs

theorem dispatchQuestion_inv (GetLength : DNS_Packet → Nat) (s s' : DNS_Server) (url : String)
    (state : Nat) (hinv : ServerInv s)
    (hs : dispatchQuestion GetLength s url state = some s') : ServerInv s' := by
  unfold dispatchQuestion at hs
  cases hc : CheckHostList GetLength s url state with
  | none => simp [hc] at hs
  | some r =>
    obtain ⟨b, s1⟩ := r
    have h1 := CheckHostList_inv GetLength s s1 url state b hinv hc
    cases b with
    | true =>
      simp only [hc, Option.some.injEq] at hs
      rw [← hs]
      exact h1
    | false =>
      simp only [hc, Option.some.injEq] at hs
      rw [← hs]
      exact h1

theorem step_inv (GetLength : DNS_Packet → Nat) (m m' : Machine) (e : Event)
    (hinv : ServerInv m.server) (hs : step GetLength m e = some m') : ServerInv m'.server := by
  cases e with
  | init adapterIP EthHosts =>
    simp only [step, Option.some.injEq] at hs
    rw [← hs]
    exact hinv
  | loadHostList EthHosts =>
    simp only [step, Option.some.injEq] at hs
    rw [← hs]
    exact hinv
  | recv =>
    simp only [step] at hs
    split at hs
    · simp only [Option.some.injEq] at hs
      rw [← hs]
      simp only [Recv]
      split
      · exact hinv
      · exact hinv
    · simp at hs
  | send payload =>
    simp only [step] at hs
    split at hs
    · have hc : payload.payload.opCode = DNS_OPCode.Query ∧
          payload.payload.questions.length > 0 ∧ payload.payload.qr = false := by
        by_contra hc
        rw [if_neg hc] at hs
        simp at hs
      rw [if_pos hc] at hs
      split at hs
      · simp only [Option.some.injEq] at hs
        rw [← hs]
        exact hinv
      · rename_i s1 state reqs hsetup
        simp only [Option.some.injEq] at hs
        rw [← hs]
        exact sendSetup_inv m.server s1 payload state reqs hinv hsetup
    · simp at hs
  | dispatch =>
    simp only [step] at hs
    split at hs
    · simp at hs
    · simp only [Option.some.injEq] at hs
      rw [← hs]
      exact hinv
    · rename_i state url rest hsend
      split at hs
      · simp at hs
      · rename_i s1 hd
        simp only [Option.some.injEq] at hs
        rw [← hs]
        exact dispatchQuestion_inv GetLength m.server s1 url state hinv hd
  | complete i error result =>
    simp only [step] at hs
    split at hs
    · simp at hs
    · rename_i state url hth
      split at hs
      · simp at hs
      · rename_i s1 hg
        simp only [Option.some.injEq] at hs
        rw [← hs]
        exact GetAddrInfoThread_inv GetLength
          { m.server with threads := m.server.threads.eraseIdx i } s1 url state error result
          hinv hg

theorem run_inv (GetLength : DNS_Packet → Nat) (events : List Event) (m m' : Machine)
    (hinv : ServerInv m.server) (hs : run GetLength m events = some m') :
    ServerInv m'.server := by
  induction events generalizing m with
  | nil =>
    simp only [run, Option.some.injEq] at hs
    rw [← hs]
    exact hinv
  | cons e rest ih =>
    simp only [run] at hs
    cases hstep : step GetLength m e with
    | none => simp [hstep] at hs
    | some m1 =>
      simp only [hstep] at hs
      exact ih m1 (step_inv GetLength m m1 e hinv hstep) hs

theorem reachable_inv (GetLength : DNS_Packet → Nat) (m : Machine)
    (hreach : Reachable GetLength m) : ServerInv m.server := by
  obtain ⟨localhostIP, hosts, events, hrun⟩ := hreach
  apply run_inv GetLength events _ m _ hrun
  constructor
  · intro a st h
    simp [DNS_Server.fresh] at h
  · intro f h
    simp [DNS_Server.fresh] at h

theorem answerRecords_of_sent (f : Finalisation) (localhostIP : IP_Address)
    (hst : SentState f.snapshot) (hresp : f.response = responseOf localhostIP f.snapshot) :
    AnswerRecordsInOrder f := by
  obtain ⟨hans, _, hqs⟩ := hst
  have hquestions : f.response.questions = f.snapshot.dns.questions := by
    rw [hresp, responseOf]
    exact (finaliseLoop_header localhostIP _ _ _).2.2.2.2.2.2.2.2.2
  have hanswers : f.response.answers
      = (f.snapshot.questions.filter (answered f.snapshot.answers)).map
          (answerRecord localhostIP f.snapshot.answers) := by
    rw [hresp, responseOf, finaliseLoop_answers, hans, List.nil_append]
    rfl
  refine ⟨hquestions, ?_, ?_, ?_⟩
  · rw [hquestions, hqs]
    rfl
  · rw [hanswers, List.map_map]
    have hname : DNS_ResponseEntry.name ∘ answerRecord localhostIP f.snapshot.answers = id := by
      funext q
      rfl
    rw [hname, List.map_id]
    rfl
  · intro r hr
    rw [hanswers, List.mem_map] at hr
    obtain ⟨q, _, hq⟩ := hr
    rw [← hq]
    exact ⟨rfl, rfl, rfl, rfl⟩

/-! ## Keys of the answers map -/

theorem prefill_keys (dnsQuestions : List String) (answers : StringMap) (k : String) :
    k ∈ StringMap.keys (prefill dnsQuestions answers)
      ↔ k ∈ dnsQuestions ∨ k ∈ StringMap.keys answers := by
  induction dnsQuestions generalizing answers with
  | nil => simp [prefill]
  | cons q rest ih =>
    simp only [prefill, ih, StringMap.mem_keys_assign, List.mem_cons]
    tauto

theorem prefill_recorded (dnsQuestions : List String) (answers : StringMap) (k : String)
    (hzero : recorded answers k = IP_Address.zero) :
    recorded (prefill dnsQuestions answers) k = IP_Address.zero := by
  induction dnsQuestions generalizing answers with
  | nil => simpa [prefill] using hzero
  | cons q rest ih =>
    simp only [prefill]
    apply ih
    by_cases hq : q = k
    · rw [hq, recorded_assign_same]
    · rw [recorded_assign_ne _ _ _ _ hq, hzero]

theorem DNS_State.new_keys (count : Int) (dnsQuestions : List String) (dnsPacket : DNS_Packet)
    (port : Nat) (k : String) :
    (k ∈ StringMap.keys (DNS_State.new count dnsQuestions dnsPacket port).answers
      ↔ k ∈ dnsQuestions) ∧
    recorded (DNS_State.new count dnsQuestions dnsPacket port).answers k = IP_Address.zero := by
  constructor
  · have h := prefill_keys dnsQuestions [] k
    simp only [StringMap.keys, List.map_nil, List.not_mem_nil, or_false] at h
    exact h
  · exact prefill_recorded dnsQuestions [] k rfl

theorem StringMap.keys_assign_of_mem (m : StringMap) (k : String) (v : IP_Address)
    (hk : k ∈ StringMap.keys m) : StringMap.keys (StringMap.assign m k v) = StringMap.keys m := by
  induction m with
  | nil => simp [StringMap.keys] at hk
  | cons hd tl ih =>
    obtain ⟨k0, v0⟩ := hd
    by_cases h : k0 = k
    · simp [StringMap.assign, StringMap.keys, h]
    · have hk' : k ∈ StringMap.keys tl := by
        simp only [StringMap.keys, List.map_cons, List.mem_cons] at hk
        rcases hk with hk | hk
        · exact absurd hk.symm h
        · exact hk
      simp only [StringMap.keys] at ih
      simp [StringMap.assign, StringMap.keys, h, ih hk']

theorem AddAnswer_keys_of_mem (st : DNS_State) (answer : String) (address : IP_Address)
    (hk : answer ∈ StringMap.keys st.answers) :
    StringMap.keys (st.AddAnswer answer address).1.answers = StringMap.keys st.answers := by
  simp only [DNS_State.AddAnswer]
  exact StringMap.keys_assign_of_mem st.answers answer address hk

theorem CheckHostList_records_lowercased (GetLength : DNS_Packet → Nat) (s : DNS_Server)
    (url : String) (state : Nat) (st : DNS_State) (a : IP_Address)
    (hlive : heapGet s.heap state = some st)
    (hfind : StringMap.find s.hosts (toLowerUrl url) = some a) :
    ∃ s', CheckHostList GetLength s url state = some (true, s') ∧
      ((st.counter - 1 ≠ 0 ∧ s'.finalised = s.finalised ∧
          heapGet s'.heap state = some (st.AddAnswer (toLowerUrl url) a).1) ∨
       (st.counter - 1 = 0 ∧
          s'.finalised = s.finalised ++ [Finalisation.mk state (st.AddAnswer (toLowerUrl url) a).1
            (responseOf s.localhostIP (st.AddAnswer (toLowerUrl url) a).1)])) := by
  have hl := heapGet_heapSet_same s.heap state st (st.AddAnswer (toLowerUrl url) a).1 hlive
  have hr : (st.AddAnswer (toLowerUrl url) a).2 = st.counter - 1 := rfl
  simp only [CheckHostList, hfind, hlive, StringMap.index_of_find _ _ _ hfind, hr]
  by_cases h0 : st.counter - 1 = 0
  · simp only [h0, if_true]
    obtain ⟨s', hs', _, _, hf⟩ := FinaliseDNS_log GetLength
      { s with
        hosts := s.hosts
        heap := heapSet s.heap state (st.AddAnswer (toLowerUrl url) a).1 }
      state _ hl
    refine ⟨s', ?_, Or.inr ⟨trivial, hf⟩⟩
    simp [hs']
  · simp only [h0, if_false]
    exact ⟨_, rfl, Or.inl ⟨h0, rfl, hl⟩⟩

/-! ## Claims -/

theorem C1_witness :
    exampleCalls.length = exampleQuestions.length ∧
    exampleRecordings.length = exampleQuestions.length ∧
    (recordReturns exampleState exampleCalls).count 0 = 1 ∧
    (∃ s' f, recordAllOn exampleLength exampleLive 0 exampleRecordings = some s' ∧
      s'.finalised = exampleLive.finalised ++ [f] ∧ f.state = 0) :=
  have h := C1_recording_returns_and_single_finalisation exampleLength exampleLive 0
    exampleQuestions (responseTemplate exampleQuery2.payload) 4000 exampleCalls
    exampleRecordings (by decide) (by decide) (by decide) (by rfl)
    (by
      intro url hurl
      simp only [exampleRecordings, List.mem_cons, List.mem_singleton, Recording.hostList.injEq,
        List.mem_nil_iff, or_false, false_or, reduceCtorEq] at hurl
      subst hurl
      decide)
  ⟨by decide, by decide, h.2.2.1, h.2.2.2.2.2.2⟩

/-- C2 (evaluation at the failing input). The override table maps
`example.com` to 1.2.3.4. For the query that spells the name `Example.COM`
the lookup of `CheckHostList` hits (it returns true and no resolver thread is
started), yet the finalised response has no answer record and RCODE
ServerFailure: the answer was stored under the lower-cased key while
`FinaliseDNS` reads the key as spelled in the query. The query that spells the
name `example.com` gets the answer record and RCODE NoError. -/
theorem C2_uppercase_override_answer_lost :
    StringMap.find exampleServer.hosts (toLowerUrl "Example.COM") = some ⟨1, 2, 3, 4⟩ ∧
    (Send exampleLength exampleServer upperQuery).map (fun r => (r.1, r.2.threads))
      = some (true, []) ∧
    (Send exampleLength exampleServer upperQuery).map (fun r => finalisedResponses r.2)
      = some [(DNS_RCode.ServerFailure, [])] ∧
    (Send exampleLength exampleServer lowerQuery).map (fun r => finalisedResponses r.2)
      = some [(DNS_RCode.NoError, [⟨"example.com", 1, 1, [1, 2, 3, 4], 10800⟩])] := by
  decide

/-- C3 (evaluation at the failing input). For the query that spells the name
`Example.COM`, the answers map holds the single key `Example.COM` right after
construction, and at finalisation it holds the two keys `Example.COM` and
`example.com`: the `AddAnswer` call of `CheckHostList` inserted a key. -/
theorem C3_uppercase_override_inserts_key :
    (sendSetup exampleServer upperQuery).map
        (fun r => (heapGet r.1.heap r.2.1).map (fun st => st.answers))
      = some (some [("Example.COM", IP_Address.zero)]) ∧
    (Send exampleLength exampleServer upperQuery).map
        (fun r => r.2.finalised.map (fun f => StringMap.keys f.snapshot.answers))
      = some [["Example.COM", "example.com"]] := by
  decide

/-- C4 (counterexample). The single question `zero.test` is recorded with
`AddAnswer` (the override table maps the name to 0.0.0.0, so `CheckHostList`
hits), no question is recorded with `AddNoAnswer`, and yet the finalised
response has RCODE ServerFailure. -/
theorem C4_counterexample_zero_address_recorded :
    (responseOf exampleServer.localhostIP
        (recordAll (DNS_State.new 1 ["zero.test"] (responseTemplate zeroQuery.payload) 4000)
          [RecordCall.addAnswer "zero.test" IP_Address.zero])).rCode
      = DNS_RCode.ServerFailure ∧
    StringMap.find exampleServer.hosts (toLowerUrl "zero.test") = some IP_Address.zero ∧
    (Send exampleLength exampleServer zeroQuery).map (fun r => (r.2.threads, finalisedResponses r.2))
      = some ([], [(DNS_RCode.ServerFailure, [])]) := by
  decide

/-- C4 (amended). `FinaliseDNS` runs on a Query State that was constructed
over a template with RCODE NoError and has received any sequence of recording
calls. The response has RCODE NoError or ServerFailure, and it has
ServerFailure exactly when some question name holds the zero address in the
answers map at that point. If for every question the calls contain an
`AddAnswer` keyed by the question name as spelled in the query, and every
`AddAnswer` under that key carries a non-zero address, the RCODE is NoError. -/
theorem C4_rcode_server_failure_only_on_zero_answer (GetLength : DNS_Packet → Nat)
    (s : DNS_Server) (state : Nat) (dnsQuestions : List String) (dnsPacket : DNS_Packet)
    (port : Nat) (calls : List RecordCall)
    (htemplate : dnsPacket.rCode = DNS_RCode.NoError)
    (hlive : heapGet s.heap state
      = some (recordAll (DNS_State.new dnsQuestions.length dnsQuestions dnsPacket port) calls)) :
    ∃ s' f, FinaliseDNS GetLength s state = some s' ∧ s'.finalised = s.finalised ++ [f] ∧
      f.snapshot = recordAll (DNS_State.new dnsQuestions.length dnsQuestions dnsPacket port) calls ∧
      (f.response.rCode = DNS_RCode.NoError ∨ f.response.rCode = DNS_RCode.ServerFailure) ∧
      (f.response.rCode = DNS_RCode.ServerFailure ↔
        ∃ q, q ∈ dnsQuestions ∧ (recorded f.snapshot.answers q).integer = 0) ∧
      ((∀ q, q ∈ dnsQuestions →
          (∃ a, RecordCall.addAnswer q a ∈ calls) ∧
          (∀ a, RecordCall.addAnswer q a ∈ calls → a.integer ≠ 0)) →
        f.response.rCode = DNS_RCode.NoError) := by
  obtain ⟨s', hs', _, _, hf⟩ := FinaliseDNS_log GetLength s state _ hlive
  obtain ⟨hdns, hqs, _⟩ :=
    recordAll_frame calls (DNS_State.new dnsQuestions.length dnsQuestions dnsPacket port)
  have hrc : (responseOf s.localhostIP
      (recordAll (DNS_State.new dnsQuestions.length dnsQuestions dnsPacket port) calls)).rCode
      = if dnsQuestions.all (answered
          (recordAll (DNS_State.new dnsQuestions.length dnsQuestions dnsPacket port) calls).answers)
        then DNS_RCode.NoError else 2 := by
    rw [responseOf, finaliseLoop_rCode, hdns, hqs]
    simp only [DNS_State.new, DNS_State.GetAnswers, htemplate]
  refine ⟨s', _, hs', hf, rfl, ?_, ?_, ?_⟩
  · simp only [hrc]
    split
    · exact Or.inl rfl
    · exact Or.inr rfl
  · simp only [hrc]
    constructor
    · intro h
      by_contra hno
      apply absurd h
      rw [if_pos]
      · decide
      · rw [List.all_eq_true]
        intro q hq
        simp only [answered, decide_eq_true_eq]
        intro h0
        exact hno ⟨q, hq, h0⟩
    · rintro ⟨q, hq, h0⟩
      rw [if_neg]
      · rfl
      · rw [List.all_eq_true]
        intro hall
        have := hall q hq
        simp only [answered, decide_eq_true_eq] at this
        exact this h0
  · intro hall
    simp only [hrc]
    rw [if_pos]
    rw [List.all_eq_true]
    intro q hq
    simp only [answered, decide_eq_true_eq]
    exact recordAll_answered calls _ q (hall q hq).2 (Or.inl (hall q hq).1)

theorem C4_witness :
    (responseTemplate exampleQuery2.payload).rCode = DNS_RCode.NoError ∧
    ∃ s' f, FinaliseDNS exampleLength exampleAnswered 0 = some s' ∧
      s'.finalised = exampleAnswered.finalised ++ [f] ∧
      f.response.rCode = DNS_RCode.NoError :=
  have ⟨s', f, h1, h2, _, _, _, h6⟩ :=
    C4_rcode_server_failure_only_on_zero_answer exampleLength exampleAnswered 0
      exampleQuestions (responseTemplate exampleQuery2.payload) 4000 exampleAnswers
      (by decide) (by rfl)
  ⟨by decide, s', f, h1, h2, h6 (by
    intro q hq
    simp only [exampleQuestions, List.mem_cons, List.mem_singleton, List.mem_nil_iff,
      or_false] at hq
    rcases hq with rfl | rfl
    · refine ⟨⟨⟨9, 9, 9, 9⟩, by decide⟩, ?_⟩
      intro a ha
      simp only [exampleAnswers, List.mem_cons, List.mem_singleton, RecordCall.addAnswer.injEq,
        List.mem_nil_iff, or_false] at ha
      rcases ha with ⟨_, rfl⟩ | ⟨h, _⟩
      · decide
      · exact absurd h (by decide)
    · refine ⟨⟨⟨127, 0, 0, 1⟩, by decide⟩, ?_⟩
      intro a ha
      simp only [exampleAnswers, List.mem_cons, List.mem_singleton, RecordCall.addAnswer.injEq,
        List.mem_nil_iff, or_false] at ha
      rcases ha with ⟨h, _⟩ | ⟨_, rfl⟩
      · exact absurd h (by decide)
      · decide)⟩

/-- C5 (counterexample). `FinaliseDNS` runs on the answered example state, the
response fits in 512 bytes and is enqueued, and the outstanding-operations
counter is 1 before the call and 1 after it. The same in the run
`exampleEvents`: the counter is 1 before the last step, and 1 after it, when
`FinaliseDNS` has run and the response is on the queue. -/
theorem C5_counterexample_enqueue_keeps_counter :
    exampleAnswered.outstandingQueries = 1 ∧
    (FinaliseDNS exampleLength exampleAnswered 0).map
        (fun s => (s.outstandingQueries, s.dnsQueue.length)) = some (1, 1) ∧
    (run exampleLength { server := exampleServer, sending := none } (exampleEvents.take 4)).map
        (fun m => (m.server.outstandingQueries, m.server.finalised.length, m.server.dnsQueue.length))
      = some (1, 0, 0) ∧
    (run exampleLength { server := exampleServer, sending := none } exampleEvents).map
        (fun m => (m.server.outstandingQueries, m.server.finalised.length, m.server.dnsQueue.length))
      = some (1, 1, 1) := by
  decide

/-- C5 (amended). A call of `FinaliseDNS` on a live Query State decrements
the outstanding-operations counter by exactly one on the path that drops the
response as oversized. On the path that enqueues the response it leaves the
counter unchanged; the `Recv` that follows dequeues a packet and makes the
decrement. -/
theorem C5_finalise_decrements_only_on_drop (GetLength : DNS_Packet → Nat) (s : DNS_Server)
    (state : Nat) (st : DNS_State) (hlive : heapGet s.heap state = some st) :
    ∃ s', FinaliseDNS GetLength s state = some s' ∧
      (GetLength (responseOf s.localhostIP st) > 512 →
        s'.outstandingQueries = s.outstandingQueries - 1 ∧ s'.dnsQueue = s.dnsQueue) ∧
      (GetLength (responseOf s.localhostIP st) ≤ 512 →
        s'.outstandingQueries = s.outstandingQueries ∧
        s'.dnsQueue = s.dnsQueue ++ [UDP_Packet.mk 53 st.clientPort (responseOf s.localhostIP st)] ∧
        (Recv s').1.isSome = true ∧
        (Recv s').2.outstandingQueries = s.outstandingQueries - 1) := by
  rw [FinaliseDNS_eq GetLength s state st hlive]
  by_cases hlen : GetLength (responseOf s.localhostIP st) > 512
  · rw [if_pos hlen]
    refine ⟨_, rfl, fun _ => ⟨rfl, rfl⟩, fun h => ?_⟩
    omega
  · rw [if_neg hlen]
    refine ⟨_, rfl, fun h => absurd h hlen, fun _ => ⟨rfl, rfl, ?_, ?_⟩⟩
    · cases hq : s.dnsQueue <;> simp [Recv, hq]
    · cases hq : s.dnsQueue <;> simp [Recv, hq]

theorem C5_witness :
    heapGet exampleAnswered.heap 0 = some (recordAll exampleState exampleAnswers) ∧
    ∃ s', FinaliseDNS oversizedLength exampleAnswered 0 = some s' ∧
      s'.outstandingQueries = 1 - 1 ∧ s'.dnsQueue = [] :=
  have ⟨s', h1, h2, _⟩ := C5_finalise_decrements_only_on_drop oversizedLength exampleAnswered 0
    (recordAll exampleState exampleAnswers) (by rfl)
  ⟨by rfl, s', h1, h2 (by decide)⟩

/-- C8. A call of `FinaliseDNS` on a live Query State appends the response,
wrapped as a UDP packet, to the output queue and invokes the notification
callback once if and only if the serialized length of the response is at most
512. When the length is greater than 512 the queue is unchanged and the
callback is not invoked, and a `Recv` that follows on an otherwise empty queue
returns none. -/
theorem C8_enqueue_and_notify_iff_fits (GetLength : DNS_Packet → Nat) (s : DNS_Server)
    (state : Nat) (st : DNS_State) (hlive : heapGet s.heap state = some st) :
    ∃ s', FinaliseDNS GetLength s state = some s' ∧
      ((s'.dnsQueue = s.dnsQueue ++ [UDP_Packet.mk 53 st.clientPort (responseOf s.localhostIP st)] ∧
          s'.callbackCount = s.callbackCount + 1) ↔
        GetLength (responseOf s.localhostIP st) ≤ 512) ∧
      (GetLength (responseOf s.localhostIP st) > 512 →
        s'.dnsQueue = s.dnsQueue ∧ s'.callbackCount = s.callbackCount ∧
        (s.dnsQueue = [] → (Recv s').1 = none)) := by
  rw [FinaliseDNS_eq GetLength s state st hlive]
  by_cases hlen : GetLength (responseOf s.localhostIP st) > 512
  · rw [if_pos hlen]
    refine ⟨_, rfl, ⟨fun h => ?_, fun h => ?_⟩, fun _ => ⟨rfl, rfl, fun hq => ?_⟩⟩
    · have := h.2
      simp at this
    · omega
    · simp [Recv, hq]
  · rw [if_neg hlen]
    refine ⟨_, rfl, ⟨fun _ => by omega, fun _ => ⟨rfl, rfl⟩⟩, fun h => absurd h hlen⟩

theorem C8_witness :
    heapGet exampleAnswered.heap 0 = some (recordAll exampleState exampleAnswers) ∧
    ∃ s', FinaliseDNS oversizedLength exampleAnswered 0 = some s' ∧
      s'.dnsQueue = [] ∧ s'.callbackCount = 0 ∧ (Recv s').1 = none :=
  have ⟨s', h1, _, h3⟩ := C8_enqueue_and_notify_iff_fits oversizedLength exampleAnswered 0
    (recordAll exampleState exampleAnswers) (by rfl)
  ⟨by rfl, s', h1, (h3 (by decide)).1, (h3 (by decide)).2.1, (h3 (by decide)).2.2 rfl⟩

/-- C7. `Init` stores in `localhostIP` the adapter address when one was found
and 127.0.0.1 otherwise. `FinaliseDNS`, run on a live Query State, appends to
the answers of the template one record per answered question, and the address
bytes of the record are those of `localhostIP` when the recorded answer of
the question is 127.0.0.1 and those of the recorded answer otherwise. -/
theorem C7_loopback_replaced_by_adapter_address (GetLength : DNS_Packet → Nat)
    (s : DNS_Server) (adapterIP : Option IP_Address) (EthHosts : List HostEntry)
    (state : Nat) (st : DNS_State) (hlive : heapGet s.heap state = some st) :
    (Init s adapterIP EthHosts).localhostIP = adapterIP.getD IP_Address.loopback ∧
    (∃ s' f, FinaliseDNS GetLength s state = some s' ∧ s'.finalised = s.finalised ++ [f] ∧
      f.response.answers = st.dns.answers ++
        (st.questions.filter (fun q => decide ((recorded st.answers q).integer ≠ 0))).map
          (fun q => DNS_ResponseEntry.mk q 1 1
            (if recorded st.answers q = IP_Address.loopback then s.localhostIP.toBytes
             else (recorded st.answers q).toBytes) 10800)) ∧
    (∃ s' f, FinaliseDNS GetLength (Init s adapterIP EthHosts) state = some s' ∧
      s'.finalised = s.finalised ++ [f] ∧
      f.response.answers = st.dns.answers ++
        (st.questions.filter (fun q => decide ((recorded st.answers q).integer ≠ 0))).map
          (fun q => DNS_ResponseEntry.mk q 1 1
            (if recorded st.answers q = IP_Address.loopback
             then (adapterIP.getD IP_Address.loopback).toBytes
             else (recorded st.answers q).toBytes) 10800)) := by
  have hinit : (Init s adapterIP EthHosts).localhostIP = adapterIP.getD IP_Address.loopback := by
    cases adapterIP <;> rfl
  have key : ∀ t : DNS_Server, heapGet t.heap state = some st →
      ∃ s' f, FinaliseDNS GetLength t state = some s' ∧ s'.finalised = t.finalised ++ [f] ∧
        f.response.answers = st.dns.answers ++
          (st.questions.filter (fun q => decide ((recorded st.answers q).integer ≠ 0))).map
            (fun q => DNS_ResponseEntry.mk q 1 1
              (if recorded st.answers q = IP_Address.loopback then t.localhostIP.toBytes
               else (recorded st.answers q).toBytes) 10800) := by
    intro t ht
    obtain ⟨s', hs', _, _, hf⟩ := FinaliseDNS_log GetLength t state st ht
    refine ⟨s', _, hs', hf, ?_⟩
    simp only [responseOf, finaliseLoop_answers, DNS_State.GetAnswers]
    congr 1
    apply List.map_congr_left
    intro q _
    simp only [answerRecord, substituteLoopback]
    split <;> rfl
  refine ⟨hinit, key s hlive, ?_⟩
  have h2 := key (Init s adapterIP EthHosts) (by cases adapterIP <;> exact hlive)
  rw [hinit] at h2
  exact h2

theorem C7_witness :
    heapGet exampleAnswered.heap 0 = some (recordAll exampleState exampleAnswers) ∧
    ∃ s' f, FinaliseDNS exampleLength exampleAnswered 0 = some s' ∧
      s'.finalised = exampleAnswered.finalised ++ [f] ∧
      f.response.answers =
        [⟨"a.test", 1, 1, [9, 9, 9, 9], 10800⟩, ⟨"home.test", 1, 1, [10, 0, 0, 5], 10800⟩] :=
  have ⟨s', f, h1, h2, h3⟩ :=
    (C7_loopback_replaced_by_adapter_address exampleLength exampleAnswered none [] 0
      (recordAll exampleState exampleAnswers) (by rfl)).2.1
  ⟨by rfl, s', f, h1, h2, h3.trans (by decide)⟩

/-- When the branch of line 129 is taken, `Send` is the setup followed by the
dispatch loop. -/
theorem Send_taken (GetLength : DNS_Packet → Nat) (s : DNS_Server) (payload : UDP_Packet)
    (hc : payload.payload.opCode = DNS_OPCode.Query ∧ payload.payload.questions.length > 0 ∧
      payload.payload.qr = false) :
    Send GetLength s payload =
      match sendSetup s payload with
      | none => some (true, s)
      | some (s1, state, reqs) =>
        (dispatchLoop GetLength s1 reqs state).map (fun s2 => (true, s2)) := by
  simp only [Send, if_pos hc]

/-- When the branch of line 129 is not taken (the opcode is not Query, or the
QR flag is set, or there is no question), `Send` reaches the call of line 176
and has no defined behaviour. -/
theorem Send_not_taken (GetLength : DNS_Packet → Nat) (s : DNS_Server) (payload : UDP_Packet)
    (hc : payload.payload.opCode ≠ DNS_OPCode.Query ∨ payload.payload.qr = true ∨
      payload.payload.questions = []) :
    Send GetLength s payload = none := by
  have hn : ¬ (payload.payload.opCode = DNS_OPCode.Query ∧
      payload.payload.questions.length > 0 ∧ payload.payload.qr = false) := by
    rintro ⟨h1, h2, h3⟩
    rcases hc with h | h | h
    · exact h h1
    · rw [h3] at h
      exact Bool.noConfusion h
    · rw [h] at h2
      exact Nat.lt_irrefl 0 h2
  simp only [Send, if_neg hn]

/-- A query that takes the branch of line 129 and is dropped inside it, because
its TC flag is set or because it has no question of type 1 and class 1: `Send`
returns true and the server is the same afterwards (no Query State in the
heap, no resolver thread, the same counter, the same queue, no finalisation). -/
theorem Send_dropped (GetLength : DNS_Packet → Nat) (s : DNS_Server) (payload : UDP_Packet)
    (hop : payload.payload.opCode = DNS_OPCode.Query) (hqr : payload.payload.qr = false)
    (hq : payload.payload.questions ≠ [])
    (hrej : payload.payload.tc = true ∨
      (∀ q, q ∈ payload.payload.questions → ¬ (q.entryType = 1 ∧ q.entryClass = 1))) :
    Send GetLength s payload = some (true, s) ∧ sendSetup s payload = none := by
  have hsetup : sendSetup s payload = none := by
    unfold sendSetup
    simp only [collectQuestions_eq, List.nil_append]
    rcases hrej with h | h
    · simp [h]
    · have hnil : supportedNames payload.payload.questions = [] := by
        simp only [supportedNames, List.map_eq_nil_iff, List.filter_eq_nil_iff]
        intro q hq
        simpa [DNS_QuestionEntry.supported] using h q hq
      simp [hnil]
  refine ⟨?_, hsetup⟩
  rw [Send_taken GetLength s payload ⟨hop, List.length_pos.mpr hq, hqr⟩, hsetup]

/-- The query without a supported question is dropped by `Send` on a server
with a live Query State. -/
theorem Send_dropped_example :
    Send exampleLength exampleLive unsupportedQuery = some (true, exampleLive) :=
  (Send_dropped exampleLength exampleLive unsupportedQuery (by decide) (by decide) (by decide)
    (Or.inr (by decide))).1

/-- C9 (code bug). The claim has `Send` return true and change nothing for a
query whose opcode is not Query. On `statusQuery` (opcode 2, QR and TC clear,
one question of type 1 and class 1) the code takes the `else` branch of line
129 and calls `Console.Error` with the opcode under a `%s` conversion (line
176): `Send` has no defined behaviour there, on every server, and so does not
return true with the server unchanged. -/
theorem C9_unexpected_opcode_undefined (GetLength : DNS_Packet → Nat) (s : DNS_Server) :
    statusQuery.payload.opCode ≠ DNS_OPCode.Query ∧
    statusQuery.payload.qr = false ∧ statusQuery.payload.tc = false ∧
    statusQuery.payload.questions = [⟨"example.com", 1, 1⟩] ∧
    Send GetLength s statusQuery = none ∧
    Send GetLength s statusQuery ≠ some (true, s) := by
  have h : Send GetLength s statusQuery = none :=
    Send_not_taken GetLength s statusQuery (Or.inl (by decide))
  refine ⟨by decide, rfl, rfl, rfl, h, ?_⟩
  rw [h]
  exact fun h => Option.noConfusion h

/-- C10. An accepted query (opcode Query, QR clear, TC clear, at least one
question of type 1 and class 1): `Send` constructs one Query State, at the
next address, over the names of the questions of type 1 and class 1 in their
original order, repeated names kept; its pending counter is the number of
those questions; the questions of another type or class are left out; the
outstanding-operations counter is incremented; and the dispatch loop then runs
over exactly those names. -/
theorem C10_query_state_over_supported_questions (GetLength : DNS_Packet → Nat)
    (s : DNS_Server) (payload : UDP_Packet)
    (hop : payload.payload.opCode = DNS_OPCode.Query) (hqr : payload.payload.qr = false)
    (htc : payload.payload.tc = false)
    (hsup : ∃ q, q ∈ payload.payload.questions ∧ q.entryType = 1 ∧ q.entryClass = 1) :
    ∃ s1 st, sendSetup s payload
        = some (s1, s.nextAddr, (payload.payload.questions.filter
            (fun q => q.entryType == 1 && q.entryClass == 1)).map DNS_QuestionEntry.name) ∧
      s1.heap = s.heap ++ [(s.nextAddr, st)] ∧
      s1.outstandingQueries = s.outstandingQueries + 1 ∧
      st.questions = (payload.payload.questions.filter
          (fun q => q.entryType == 1 && q.entryClass == 1)).map DNS_QuestionEntry.name ∧
      st.counter = Int.ofNat (payload.payload.questions.countP
          (fun q => q.entryType == 1 && q.entryClass == 1)) ∧
      1 ≤ st.counter ∧
      Send GetLength s payload = (dispatchLoop GetLength s1 st.questions s.nextAddr).map
        (fun s2 => (true, s2)) := by
  obtain ⟨q0, hq0, ht0, hc0⟩ := hsup
  have hfun : (fun q : DNS_QuestionEntry => q.entryType == 1 && q.entryClass == 1)
      = DNS_QuestionEntry.supported := rfl
  rw [hfun]
  have hmem : q0.name ∈ supportedNames payload.payload.questions := by
    simp only [supportedNames, List.mem_map, List.mem_filter]
    exact ⟨q0, ⟨hq0, by simp [DNS_QuestionEntry.supported, ht0, hc0]⟩, rfl⟩
  have hne : supportedNames payload.payload.questions ≠ [] := List.ne_nil_of_mem hmem
  have hlen : 0 < (supportedNames payload.payload.questions).length :=
    List.length_pos.mpr hne
  have hq : payload.payload.questions.length > 0 := List.length_pos.mpr (List.ne_nil_of_mem hq0)
  have hsetup : sendSetup s payload = some
      ({ s with
          heap := s.heap ++ [(s.nextAddr,
            DNS_State.new (supportedNames payload.payload.questions).length
              (supportedNames payload.payload.questions) (responseTemplate payload.payload)
              payload.sourcePort)]
          nextAddr := s.nextAddr + 1
          outstandingQueries := s.outstandingQueries + 1 },
        s.nextAddr, supportedNames payload.payload.questions) := by
    unfold sendSetup
    simp only [collectQuestions_eq, List.nil_append]
    rw [if_pos ⟨hop, hq, hqr⟩, if_neg (by omega), if_neg (by simp [htc])]
  refine ⟨_, _, hsetup, rfl, rfl, rfl, ?_, ?_, ?_⟩
  · simp only [DNS_State.new, supportedNames, List.length_map, List.countP_eq_length_filter]
    rfl
  · simp only [DNS_State.new]
    exact_mod_cast hlen
  · rw [Send_taken GetLength s payload ⟨hop, hq, hqr⟩]
    simp only [hsetup, DNS_State.new]

theorem C10_witness :
    (∃ q, q ∈ mixedQuery.payload.questions ∧ q.entryType = 1 ∧ q.entryClass = 1) ∧
    ∃ s1 st, sendSetup exampleServer mixedQuery = some (s1, 0, ["a.test", "a.test"]) ∧
      s1.heap = [(0, st)] ∧ st.questions = ["a.test", "a.test"] ∧ st.counter = 2 :=
  have ⟨s1, st, h1, h2, _, h4, h5, _⟩ :=
    C10_query_state_over_supported_questions exampleLength exampleServer mixedQuery
      (by decide) (by decide) (by decide) ⟨⟨"a.test", 1, 1⟩, by decide, rfl, rfl⟩
  ⟨⟨⟨"a.test", 1, 1⟩, by decide, rfl, rfl⟩, s1, st, h1, h2, h4, h5⟩

/-- C6. In every state the server reaches (through `Init`, `LoadHostList`,
`Recv`, `Send` and the completions of resolver threads, in any interleaving),
every response `FinaliseDNS` has built echoes the question list of its query,
was built over the supported questions of that list in their order, and its
answer records are, in that order, one record for each question whose
recorded answer (the address held under the question name at finalisation) is
non-zero and none for the other questions; each record has type 1, class 1,
TTL 10800 and an address of 4 bytes. And on every Query State that is alive
in such a state, `FinaliseDNS` returns and builds a response of that form. -/
theorem C6_answer_records_in_question_order (GetLength : DNS_Packet → Nat) (m : Machine)
    (hreach : Reachable GetLength m) :
    (∀ f, f ∈ m.server.finalised → AnswerRecordsInOrder f) ∧
    (∀ state st, heapGet m.server.heap state = some st →
      ∃ s' f, FinaliseDNS GetLength m.server state = some s' ∧
        s'.finalised = m.server.finalised ++ [f] ∧ f.state = state ∧ f.snapshot = st ∧
        AnswerRecordsInOrder f) := by
  have hinv := reachable_inv GetLength m hreach
  constructor
  · intro f hf
    obtain ⟨hst, ip, hresp⟩ := hinv.2 f hf
    exact answerRecords_of_sent f ip hst hresp
  · intro state st hlive
    obtain ⟨s', hs', _, _, hlog⟩ := FinaliseDNS_log GetLength m.server state st hlive
    exact ⟨s', _, hs', hlog, rfl, rfl,
      answerRecords_of_sent _ m.server.localhostIP
        (hinv.1 state st (mem_of_heapGet _ _ _ hlive)) rfl⟩

theorem C6_witness :
    ∃ m f, run exampleLength { server := exampleServer, sending := none } exampleEvents = some m ∧
      m.server.finalised = [f] ∧
      f.response.answers.map DNS_ResponseEntry.name = ["a.test", "home.test"] ∧
      (∀ r, r ∈ f.response.answers →
        r.entryType = 1 ∧ r.entryClass = 1 ∧ r.timeToLive = 10800 ∧ r.data.length = 4) := by
  obtain ⟨m, hm⟩ := Option.isSome_iff_exists.mp
    (by decide :
      (run exampleLength { server := exampleServer, sending := none } exampleEvents).isSome = true)
  have hlog : (run exampleLength { server := exampleServer, sending := none } exampleEvents).map
      (fun m => m.server.finalised.map
        (fun f => (f.snapshot.questions, f.snapshot.answers)))
      = some [(["a.test", "home.test"],
          [("a.test", ⟨9, 9, 9, 9⟩), ("home.test", ⟨127, 0, 0, 1⟩)])] := by
    decide
  rw [hm, Option.map_some', Option.some.injEq] at hlog
  obtain ⟨f, hfm, hf1⟩ : ∃ f, m.server.finalised = [f] ∧
      (f.snapshot.questions, f.snapshot.answers) = (["a.test", "home.test"],
          [("a.test", ⟨9, 9, 9, 9⟩), ("home.test", ⟨127, 0, 0, 1⟩)]) := by
    cases hfin : m.server.finalised with
    | nil => simp [hfin] at hlog
    | cons f rest =>
      cases rest with
      | nil =>
        simp only [hfin, List.map_cons, List.map_nil, List.cons.injEq, and_true] at hlog
        exact ⟨f, rfl, hlog⟩
      | cons g rest => simp [hfin] at hlog
  have h := (C6_answer_records_in_question_order exampleLength m
    ⟨exampleServer.localhostIP, exampleServer.hosts, exampleEvents, hm⟩).1 f
    (by rw [hfm]; exact List.mem_singleton_self f)
  simp only [Prod.mk.injEq] at hf1
  refine ⟨m, f, hm, hfm, ?_, h.2.2.2⟩
  rw [h.2.2.1, hf1.1, hf1.2]
  decide

/-! ## The completion handlers -/

theorem firstInet_eq_find (result : List AddrInfo) :
    firstInet result = result.find? (fun r => r.ai_family == AF_INET) := by
  induction result with
  | nil => rfl
  | cons r rest ih =>
    by_cases h : r.ai_family = AF_INET
    · rw [List.find?_cons_of_pos _ (by simp [h])]
      simp [firstInet, h]
    · rw [List.find?_cons_of_neg _ (by simp [h])]
      simp [firstInet, h, ih]

/-- C18. For every outcome of the resolver (error code and result list) the
completion handler, in its POSIX form (`GetAddrInfoThread`) and in its Windows
form (`GetAddrInfoExCallback`), makes exactly one recording call on the Query
State: `AddAnswer` with the address of the first result of family AF_INET when
the error code is 0 and there is such a result, `AddNoAnswer` in every other
case. The counter is decremented once, and when it was positive before the
call the returned value is not -1, which is what the assertion checks. -/
theorem C18_completion_records_exactly_once (st : DNS_State) (url : String) (error : Int)
    (dwError : Nat) (result : List AddrInfo) (hpos : 0 < st.counter) :
    recordOutcome st url error result
      = st.record (expectedCall url (decide (error = 0)) result) ∧
    recordOutcomeEx st url dwError result
      = st.record (expectedCall url (decide (dwError = 0)) result) ∧
    (recordOutcome st url error result).1.counter = st.counter - 1 ∧
    (recordOutcomeEx st url dwError result).1.counter = st.counter - 1 ∧
    (recordOutcome st url error result).2 ≠ -1 ∧
    (recordOutcomeEx st url dwError result).2 ≠ -1 := by
  have h1 : recordOutcome st url error result
      = st.record (expectedCall url (decide (error = 0)) result) := by
    unfold recordOutcome expectedCall
    rw [firstInet_eq_find]
    by_cases h : error = 0
    · simp only [h, if_true, decide_True]
      cases result.find? (fun r => r.ai_family == AF_INET) <;> rfl
    · simp only [h, if_false, decide_False]
      split <;> rfl
  have h2 : recordOutcomeEx st url dwError result
      = st.record (expectedCall url (decide (dwError = 0)) result) := by
    unfold recordOutcomeEx expectedCall
    rw [firstInet_eq_find]
    by_cases h : dwError = 0
    · simp only [h, if_true, decide_True]
      cases result.find? (fun r => r.ai_family == AF_INET) <;> rfl
    · simp only [h, if_false, decide_False]
      split <;> rfl
  refine ⟨h1, h2, ?_, ?_, ?_, ?_⟩
  · rw [h1]; exact (record_counter st _).1
  · rw [h2]; exact (record_counter st _).1
  · rw [h1, (record_counter st _).2]; omega
  · rw [h2, (record_counter st _).2]; omega

theorem C18_witness :
    0 < exampleState.counter ∧
    recordOutcome exampleState "a.test" 0 exampleResult
      = exampleState.AddAnswer "a.test" ⟨9, 9, 9, 9⟩ ∧
    recordOutcomeEx exampleState "a.test" 11001 exampleResult
      = exampleState.AddNoAnswer "a.test" ∧
    (recordOutcome exampleState "a.test" 0 exampleResult).2 ≠ -1 :=
  have h := C18_completion_records_exactly_once exampleState "a.test" 0 11001 exampleResult
    (by decide)
  ⟨by decide, h.1.trans (by decide), h.2.1.trans (by decide), h.2.2.2.2.1⟩

/-! ## A query whose questions all fail -/

theorem recordAll_failures_answers (calls : List RecordCall) (st : DNS_State)
    (hfail : ∀ c, c ∈ calls → ∃ name, c = RecordCall.addNoAnswer name) :
    (recordAll st calls).answers = st.answers := by
  induction calls generalizing st with
  | nil => rfl
  | cons c rest ih =>
    obtain ⟨name, hc⟩ := hfail c (List.mem_cons_self _ _)
    simp only [recordAll]
    rw [ih _ (fun c' hc' => hfail c' (List.mem_cons_of_mem _ hc')), hc]
    rfl

/-- C12. An accepted query has N >= 1 supported questions, its Query State is
constructed by `Send` over them, and every recording call it receives (N of
them or any other number) is an `AddNoAnswer`: the response `FinaliseDNS` builds has RCODE ServerFailure (2)
and no answer record. -/
theorem C12_all_failed_gives_server_failure (GetLength : DNS_Packet → Nat) (s : DNS_Server)
    (state : Nat) (payload : UDP_Packet) (calls : List RecordCall)
    (hsup : supportedNames payload.payload.questions ≠ [])
    (hfail : ∀ c, c ∈ calls → ∃ name, c = RecordCall.addNoAnswer name)
    (hlive : heapGet s.heap state
      = some (recordAll (DNS_State.new (supportedNames payload.payload.questions).length
          (supportedNames payload.payload.questions) (responseTemplate payload.payload)
          payload.sourcePort) calls)) :
    ∃ s' f, FinaliseDNS GetLength s state = some s' ∧ s'.finalised = s.finalised ++ [f] ∧
      f.state = state ∧ f.response.rCode = DNS_RCode.ServerFailure ∧
      f.response.answers = [] := by
  obtain ⟨s', hs', _, _, hf⟩ := FinaliseDNS_log GetLength s state _ hlive
  obtain ⟨hdns, hqs, _⟩ := recordAll_frame calls
    (DNS_State.new (supportedNames payload.payload.questions).length
      (supportedNames payload.payload.questions) (responseTemplate payload.payload)
      payload.sourcePort)
  have hans := recordAll_failures_answers calls
    (DNS_State.new (supportedNames payload.payload.questions).length
      (supportedNames payload.payload.questions) (responseTemplate payload.payload)
      payload.sourcePort) hfail
  have hnone : ∀ q, answered (prefill (supportedNames payload.payload.questions) []) q = false := by
    intro q
    simp only [answered, prefill_recorded _ [] q rfl]
    decide
  refine ⟨s', _, hs', hf, rfl, ?_, ?_⟩
  · simp only [responseOf, finaliseLoop_rCode, DNS_State.GetAnswers, hqs, hans]
    simp only [DNS_State.new]
    rw [if_neg]
    · rfl
    · obtain ⟨q, hq⟩ := List.exists_mem_of_ne_nil _ hsup
      intro hall
      have := List.all_eq_true.mp hall q hq
      rw [hnone q] at this
      exact absurd this (by decide)
  · simp only [responseOf, finaliseLoop_answers, DNS_State.GetAnswers, hqs, hans, hdns]
    simp only [DNS_State.new]
    have hfil : (supportedNames payload.payload.questions).filter
        (answered (prefill (supportedNames payload.payload.questions) [])) = [] := by
      rw [List.filter_eq_nil_iff]
      intro q _
      rw [hnone q]
      decide
    rw [hfil]
    rfl

theorem C12_witness :
    supportedNames exampleQuery2.payload.questions ≠ [] ∧
    ∃ s' f, FinaliseDNS exampleLength exampleFailed 0 = some s' ∧
      s'.finalised = exampleFailed.finalised ++ [f] ∧
      f.response.rCode = 2 ∧ f.response.answers = [] :=
  have ⟨s', f, h1, h2, _, h4, h5⟩ :=
    C12_all_failed_gives_server_failure exampleLength exampleFailed 0 exampleQuery2
      exampleFailures (by decide)
      (by
        intro c hc
        simp only [exampleFailures, List.mem_cons, List.mem_singleton, List.mem_nil_iff,
          or_false] at hc
        rcases hc with rfl | rfl
        · exact ⟨_, rfl⟩
        · exact ⟨_, rfl⟩)
      (by rfl)
  ⟨by decide, s', f, h1, h2, h4, h5⟩

/-! ## The override lookup -/

theorem tolower_of_sameLetter (c d : Char) (h : sameLetter c d = true) :
    tolower c = tolower d := by
  simp only [sameLetter, Bool.or_eq_true, Bool.and_eq_true, decide_eq_true_eq, beq_iff_eq] at h
  rcases h with (h | ⟨⟨h1, h2⟩, h3⟩) | ⟨⟨h1, h2⟩, h3⟩
  · rw [h]
  · have hd : ¬ (65 ≤ d.toNat ∧ d.toNat ≤ 90) := by omega
    simp only [tolower, h1, h2, and_self, if_true, hd, if_false]
    rw [← h3, Char.ofNat_toNat]
  · have hc : ¬ (65 ≤ c.toNat ∧ c.toNat ≤ 90) := by omega
    simp only [tolower, h1, h2, and_self, if_true, hc, if_false]
    rw [← h3, Char.ofNat_toNat]

theorem map_tolower_of_sameLetters (cs ds : List Char) (h : sameLetters cs ds = true) :
    cs.map tolower = ds.map tolower := by
  induction cs generalizing ds with
  | nil =>
    cases ds with
    | nil => rfl
    | cons d ds => simp [sameLetters] at h
  | cons c cs ih =>
    cases ds with
    | nil => simp [sameLetters] at h
    | cons d ds =>
      simp only [sameLetters, Bool.and_eq_true] at h
      simp only [List.map_cons, tolower_of_sameLetter c d h.1, ih ds h.2]

theorem toLowerUrl_of_equalIgnoringCase (n1 n2 : String) (h : EqualIgnoringCase n1 n2) :
    toLowerUrl n1 = toLowerUrl n2 := by
  unfold toLowerUrl
  rw [map_tolower_of_sameLetters n1.data n2.data h]

theorem FinaliseDNS_hosts (GetLength : DNS_Packet → Nat) (s s' : DNS_Server) (state : Nat)
    (hs : FinaliseDNS GetLength s state = some s') : s'.hosts = s.hosts := by
  cases hget : heapGet s.heap state with
  | none => simp [FinaliseDNS, hget] at hs
  | some st =>
    obtain ⟨s2, hs2, hh, _⟩ := FinaliseDNS_log GetLength s state st hget
    rw [hs] at hs2
    injection hs2 with hs2
    rw [hs2]
    exact hh

/-- C14. Two names that are equal when letter case is ignored get the same
override lookup from `CheckHostList`, on every table: the same entry of the
table is found or none is, so the lookup hits for one name if and only if it
hits for the other, with the same address; the whole result of
`CheckHostList` is the same for the two names; the returned flag is true
exactly when the lookup hits; and the table is the same after the call as
before it. -/
theorem C14_override_lookup_ignores_case (GetLength : DNS_Packet → Nat) (s : DNS_Server)
    (n1 n2 : String) (state : Nat) (hcase : EqualIgnoringCase n1 n2) :
    StringMap.find s.hosts (toLowerUrl n1) = StringMap.find s.hosts (toLowerUrl n2) ∧
    CheckHostList GetLength s n1 state = CheckHostList GetLength s n2 state ∧
    (∀ b s', CheckHostList GetLength s n1 state = some (b, s') →
      s'.hosts = s.hosts ∧ (b = true ↔ (StringMap.find s.hosts (toLowerUrl n1)).isSome = true)) := by
  have hl := toLowerUrl_of_equalIgnoringCase n1 n2 hcase
  refine ⟨by rw [hl], by simp only [CheckHostList, hl], ?_⟩
  intro b s' hs
  unfold CheckHostList at hs
  cases hfind : StringMap.find s.hosts (toLowerUrl n1) with
  | none =>
    simp only [hfind, Option.some.injEq, Prod.mk.injEq] at hs
    rw [← hs.1, ← hs.2]
    simp
  | some v =>
    cases hget : heapGet s.heap state with
    | none => simp [hfind, hget] at hs
    | some st =>
      simp only [hfind, hget, StringMap.index_of_find _ _ _ hfind] at hs
      split at hs
      · cases hfin : FinaliseDNS GetLength
            { s with
              hosts := s.hosts
              heap := heapSet s.heap state (st.AddAnswer (toLowerUrl n1) v).1 } state with
        | none => simp [hfin] at hs
        | some s2 =>
          simp only [hfin, Option.map_some', Option.some.injEq, Prod.mk.injEq] at hs
          rw [← hs.1, ← hs.2]
          have hh := FinaliseDNS_hosts GetLength _ s2 state hfin
          exact ⟨hh, by simp⟩
      · simp only [Option.some.injEq, Prod.mk.injEq] at hs
        rw [← hs.1, ← hs.2]
        exact ⟨rfl, by simp⟩

theorem C14_witness :
    EqualIgnoringCase "Home.TEST" "home.test" ∧
    StringMap.find exampleLive.hosts (toLowerUrl "Home.TEST") = some ⟨127, 0, 0, 1⟩ ∧
    CheckHostList exampleLength exampleLive "Home.TEST" 0
      = CheckHostList exampleLength exampleLive "home.test" 0 :=
  have hcase : EqualIgnoringCase "Home.TEST" "home.test" := by
    show sameLetters _ _ = true
    decide
  have h := C14_override_lookup_ignores_case exampleLength exampleLive "Home.TEST" "home.test" 0
    hcase
  ⟨hcase, h.1.trans (by decide), h.2.1⟩

/-! ## Reload of the override table -/

theorem loadEntries_find (entries : List HostEntry) (hosts : StringMap) (name : String) :
    StringMap.find (loadEntries entries hosts) name
      = match lastEnabled entries name with
        | some address => some address
        | none => StringMap.find hosts name := by
  induction entries generalizing hosts with
  | nil => rfl
  | cons entry rest ih =>
    by_cases hen : entry.Enabled = true
    · simp only [loadEntries, hen, if_true, ih, lastEnabled]
      cases hlast : lastEnabled rest name with
      | some address => rfl
      | none =>
        by_cases hurl : entry.Url = name
        · simp [hurl, StringMap.find_assign_same]
        · simp [hurl, StringMap.find_assign_ne _ _ _ _ hurl]
    · have hen' : entry.Enabled = false := by simpa using hen
      simp only [loadEntries, hen', lastEnabled]
      rw [if_neg (by decide), ih]
      cases hlast : lastEnabled rest name with
      | some address => rfl
      | none => simp

theorem StringMap.keys_assign_nodup (m : StringMap) (k : String) (v : IP_Address)
    (hnd : (StringMap.keys m).Nodup) : (StringMap.keys (StringMap.assign m k v)).Nodup := by
  induction m with
  | nil => simp [StringMap.assign, StringMap.keys]
  | cons hd tl ih =>
    obtain ⟨k0, v0⟩ := hd
    simp only [StringMap.keys, List.map_cons, List.nodup_cons] at hnd
    by_cases h : k0 = k
    · simp only [StringMap.assign, h, if_true, StringMap.keys, List.map_cons, List.nodup_cons]
      rw [← h]
      exact hnd
    · simp only [StringMap.assign, h, if_false, StringMap.keys, List.map_cons, List.nodup_cons]
      refine ⟨?_, ih hnd.2⟩
      intro hmem
      rcases (StringMap.mem_keys_assign tl k k0 v).mp hmem with h1 | h1
      · exact h h1
      · exact hnd.1 h1

theorem loadEntries_keys_nodup (entries : List HostEntry) (hosts : StringMap)
    (hnd : (StringMap.keys hosts).Nodup) : (StringMap.keys (loadEntries entries hosts)).Nodup := by
  induction entries generalizing hosts with
  | nil => exact hnd
  | cons entry rest ih =>
    simp only [loadEntries]
    split
    · exact ih _ (StringMap.keys_assign_nodup hosts _ _ hnd)
    · exact ih _ hnd

/-- C15 (evaluation at the failing input). The configuration has the single
enabled entry `Example.COM` at 1.2.3.4. After `LoadHostList` the table holds
the key `Example.COM` as configured, not the lower-cased hostname; the lookup
of `CheckHostList`, which lower-cases the queried name, misses for the query
names `Example.COM` and `example.com` alike, and both go to the resolver. -/
theorem C15_hostname_key_not_lower_cased :
    (LoadHostList exampleLive upperEntries).hosts = [("Example.COM", ⟨1, 2, 3, 4⟩)] ∧
    toLowerUrl "Example.COM" = "example.com" ∧
    StringMap.find (LoadHostList exampleLive upperEntries).hosts "example.com" = none ∧
    (CheckHostList exampleLength (LoadHostList exampleLive upperEntries) "Example.COM" 0).map
        Prod.fst = some false ∧
    (CheckHostList exampleLength (LoadHostList exampleLive upperEntries) "example.com" 0).map
        Prod.fst = some false ∧
    (Send exampleLength (LoadHostList exampleServer upperEntries) lowerQuery).map
        (fun r => (r.2.threads, r.2.finalised.length)) = some ([(0, "example.com")], 0) := by
  decide

/-! ## Teardown -/

theorem destructorLoop_drains (GetLength : DNS_Packet → Nat) (queue : List UDP_Packet)
    (s : DNS_Server) (deleted extra : Nat) (hqueue : s.dnsQueue = queue)
    (hcount : s.outstandingQueries = queue.length) :
    destructorLoop GetLength (List.replicate (queue.length + 1 + extra) []) s deleted
      = some ({ s with dnsQueue := [], outstandingQueries := 0 }, deleted + queue.length) := by
  induction queue generalizing s deleted with
  | nil =>
    have h0 : s.outstandingQueries = 0 := by simpa using hcount
    have hs : s = { s with dnsQueue := [], outstandingQueries := 0 } := by
      cases s
      simp only [DNS_Server.mk.injEq, true_and] at *
      exact ⟨h0, hqueue, trivial⟩
    simp only [List.length_nil, Nat.zero_add, Nat.add_zero, Nat.add_comm 1 extra,
      List.replicate_succ, destructorLoop, List.map_nil, run, h0, ne_eq, not_true_eq_false,
      if_false]
    rw [← hs]
  | cons pkt rest ih =>
    have hne : s.outstandingQueries ≠ 0 := by
      rw [hcount]
      simp only [List.length_cons, Nat.cast_add, Nat.cast_one]
      omega
    have hlen : (pkt :: rest).length + 1 + extra = (rest.length + 1 + extra) + 1 := by
      simp only [List.length_cons]
      omega
    rw [hlen, List.replicate_succ]
    simp only [destructorLoop, List.map_nil, run, hne, ne_eq, not_false_eq_true, if_true, hqueue]
    rw [ih _ (deleted + 1) rfl (by
      simp only [hcount, List.length_cons, Nat.cast_add, Nat.cast_one]
      omega)]
    simp only [List.length_cons, Option.some.injEq, Prod.mk.injEq, true_and]
    omega

theorem destructorLoop_exit (GetLength : DNS_Packet → Nat) (schedule : List (List Completion))
    (s s' : DNS_Server) (deleted n : Nat)
    (hs : destructorLoop GetLength schedule s deleted = some (s', n)) :
    s'.outstandingQueries = 0 := by
  induction schedule generalizing s deleted with
  | nil => simp [destructorLoop] at hs
  | cons batch schedule ih =>
    simp only [destructorLoop] at hs
    split at hs
    · simp at hs
    · rename_i m hrun
      split at hs
      · split at hs
        · exact ih _ _ hs
        · exact ih _ _ hs
      · rename_i hzero
        simp only [Option.some.injEq, Prod.mk.injEq] at hs
        rw [← hs.1]
        simpa using hzero

theorem destructorLoop_waits (GetLength : DNS_Packet → Nat) (n : Nat) (s : DNS_Server)
    (deleted : Nat) (hn : n ≤ s.dnsQueue.length)
    (hcount : s.outstandingQueries = s.dnsQueue.length) :
    destructorLoop GetLength (List.replicate n []) s deleted = none := by
  induction n generalizing s deleted with
  | zero => rfl
  | succ n ih =>
    cases hq : s.dnsQueue with
    | nil => simp [hq] at hn
    | cons pkt rest =>
      have hne : s.outstandingQueries ≠ 0 := by
        rw [hcount, hq]
        simp only [List.length_cons, Nat.cast_add, Nat.cast_one]
        omega
      rw [List.replicate_succ]
      simp only [destructorLoop, List.map_nil, run, hne, ne_eq, not_false_eq_true, if_true, hq]
      apply ih
      · simp only [hq, List.length_cons] at hn
        simpa using hn
      · simp only [hcount, hq, List.length_cons, Nat.cast_add, Nat.cast_one]
        omega

theorem destructorLoop_idle (GetLength : DNS_Packet → Nat) (schedule : List (List Completion))
    (s t : DNS_Server) (deleted n : Nat) (hthreads : s.threads = [])
    (hcount : s.outstandingQueries = s.dnsQueue.length)
    (hs : destructorLoop GetLength schedule s deleted = some (t, n)) :
    t = { s with dnsQueue := [], outstandingQueries := 0 } ∧ n = deleted + s.dnsQueue.length := by
  induction schedule generalizing s deleted with
  | nil => simp [destructorLoop] at hs
  | cons batch schedule ih =>
    cases batch with
    | cons c cs =>
      simp [destructorLoop, run, step, hthreads] at hs
    | nil =>
      cases hq : s.dnsQueue with
      | nil =>
        have h0 : s.outstandingQueries = 0 := by simpa [hq] using hcount
        simp only [destructorLoop, List.map_nil, run, h0, ne_eq, not_true_eq_false, if_false,
          Option.some.injEq, Prod.mk.injEq] at hs
        rw [← hs.1, ← hs.2]
        refine ⟨?_, by simp⟩
        cases s
        simp only [DNS_Server.mk.injEq, true_and] at *
        exact ⟨h0, hq, trivial⟩
      | cons pkt rest =>
        have hne : s.outstandingQueries ≠ 0 := by
          rw [hcount, hq]
          simp only [List.length_cons, Nat.cast_add, Nat.cast_one]
          omega
        simp only [destructorLoop, List.map_nil, run, hne, ne_eq, not_false_eq_true, if_true,
          hq] at hs
        have hc : s.outstandingQueries - 1 = (rest.length : Int) := by
          simp only [hcount, hq, List.length_cons, Nat.cast_add, Nat.cast_one]
          omega
        obtain ⟨h1, h2⟩ := ih
          { s with dnsQueue := rest, outstandingQueries := s.outstandingQueries - 1 }
          (deleted + 1) hthreads hc hs
        refine ⟨h1, ?_⟩
        rw [h2]
        simp only [List.length_cons]
        omega

/-- C16. No Query State is in flight when the destructor runs (no resolver
thread is left) and the outstanding-operations counter equals the number k of
responses on the output queue: the loop exits after k+1 evaluations of its
condition (and for every longer wait as well) and not before, and whenever it
exits it has dequeued and deleted exactly k packets, the queue is empty and
the counter is zero. And whenever the loop exits, from any server and under
any schedule of resolver completions, the counter is zero at exit. -/
theorem C16_destructor_drains_queue (GetLength : DNS_Packet → Nat) (s : DNS_Server)
    (hthreads : s.threads = []) (hcount : s.outstandingQueries = s.dnsQueue.length) :
    (∀ extra, destructorLoop GetLength (List.replicate (s.dnsQueue.length + 1 + extra) []) s 0
      = some ({ s with dnsQueue := [], outstandingQueries := 0 }, s.dnsQueue.length)) ∧
    (∀ n, n ≤ s.dnsQueue.length → destructorLoop GetLength (List.replicate n []) s 0 = none) ∧
    (∀ (schedule : List (List Completion)) (t : DNS_Server) (n : Nat),
      destructorLoop GetLength schedule s 0 = some (t, n) →
        t = { s with dnsQueue := [], outstandingQueries := 0 } ∧ n = s.dnsQueue.length) ∧
    (∀ (schedule : List (List Completion)) (t t' : DNS_Server) (deleted n : Nat),
      destructorLoop GetLength schedule t deleted = some (t', n) → t'.outstandingQueries = 0) := by
  refine ⟨?_, ?_, ?_, ?_⟩
  · intro extra
    have h := destructorLoop_drains GetLength s.dnsQueue s 0 extra rfl hcount
    simpa using h
  · intro n hn
    exact destructorLoop_waits GetLength n s 0 hn hcount
  · intro schedule t n h
    have h2 := destructorLoop_idle GetLength schedule s t 0 n hthreads hcount h
    simpa using h2
  · intro schedule t t' deleted n h
    exact destructorLoop_exit GetLength schedule t t' deleted n h

theorem C16_witness :
    exampleQueued.outstandingQueries = exampleQueued.dnsQueue.length ∧
    destructorLoop exampleLength [[], [], []] exampleQueued 0
      = some ({ exampleQueued with dnsQueue := [], outstandingQueries := 0 }, 2) ∧
    destructorLoop exampleLength [[], []] exampleQueued 0 = none :=
  have h := C16_destructor_drains_queue exampleLength exampleQueued rfl (by decide)
  ⟨by decide, h.1 0, h.2.1 2 (by decide)⟩

/-! ## Lemmas on the heap -/

theorem heapGet_none_iff (h : List (Nat × DNS_State)) (a : Nat) :
    heapGet h a = none ↔ a ∉ h.map Prod.fst := by
  induction h with
  | nil => simp [heapGet]
  | cons hd tl ih =>
    obtain ⟨a0, s0⟩ := hd
    by_cases ha : a0 = a
    · simp [heapGet, ha]
    · have ha' : ¬ a = a0 := fun e => ha e.symm
      simp [heapGet, ha, ha', ih]

theorem heapGet_heapSet (h : List (Nat × DNS_State)) (p a : Nat) (st' : DNS_State) :
    heapGet (heapSet h p st') a
      = if a = p then (heapGet h p).map (fun _ => st') else heapGet h a := by
  induction h with
  | nil => simp [heapSet, heapGet]
  | cons hd tl ih =>
    obtain ⟨a0, s0⟩ := hd
    by_cases h0 : a0 = p
    · by_cases ha : a = p
      · simp [heapSet, heapGet, h0, ha]
      · have ha' : ¬ p = a := fun e => ha e.symm
        simp [heapSet, heapGet, h0, ha, ha']
    · by_cases ha : a = p
      · subst ha
        simp only [if_true] at ih
        simp [heapSet, heapGet, h0, ih]
      · by_cases h1 : a0 = a
        · simp [heapSet, heapGet, h0, ha, h1]
        · simp [heapSet, heapGet, h0, ha, h1, ih]

theorem heapSet_map_fst (h : List (Nat × DNS_State)) (p : Nat) (st' : DNS_State) :
    (heapSet h p st').map Prod.fst = h.map Prod.fst := by
  induction h with
  | nil => rfl
  | cons hd tl ih =>
    obtain ⟨a0, s0⟩ := hd
    by_cases h0 : a0 = p
    · simp [heapSet, h0]
    · simp [heapSet, h0, ih]

theorem heapSet_length (h : List (Nat × DNS_State)) (p : Nat) (st' : DNS_State) :
    (heapSet h p st').length = h.length := by
  have := congrArg List.length (heapSet_map_fst h p st')
  simpa using this

theorem heapDelete_map_fst (h : List (Nat × DNS_State)) (p : Nat) :
    (heapDelete h p).map Prod.fst = (h.map Prod.fst).erase p := by
  induction h with
  | nil => rfl
  | cons hd tl ih =>
    obtain ⟨a0, s0⟩ := hd
    by_cases h0 : a0 = p
    · simp [heapDelete, h0]
    · simp [heapDelete, h0, ih, List.erase_cons_tail, h0]

theorem heapGet_heapDelete (h : List (Nat × DNS_State)) (p a : Nat)
    (hnd : (h.map Prod.fst).Nodup) :
    heapGet (heapDelete h p) a = if a = p then none else heapGet h a := by
  induction h with
  | nil => simp [heapDelete, heapGet]
  | cons hd tl ih =>
    obtain ⟨a0, s0⟩ := hd
    simp only [List.map_cons, List.nodup_cons] at hnd
    by_cases h0 : a0 = p
    · by_cases ha : a = p
      · have hnone : heapGet tl a = none := by
          rw [heapGet_none_iff, ha, ← h0]
          exact hnd.1
        rw [if_pos ha, ← hnone]
        simp only [heapDelete, h0, if_true]
      · have ha' : ¬ p = a := fun e => ha e.symm
        simp [heapDelete, heapGet, h0, ha, ha']
    · by_cases ha : a = p
      · subst ha
        have ih' := ih hnd.2
        simp only [if_true] at ih'
        simp [heapDelete, heapGet, h0, ih']
      · by_cases h1 : a0 = a
        · simp [heapDelete, heapGet, h0, ha, h1]
        · simp [heapDelete, heapGet, h0, ha, h1, ih hnd.2]

theorem heapDelete_length (h : List (Nat × DNS_State)) (p : Nat) (st : DNS_State)
    (hget : heapGet h p = some st) : (heapDelete h p).length + 1 = h.length := by
  induction h with
  | nil => simp [heapGet] at hget
  | cons hd tl ih =>
    obtain ⟨a0, s0⟩ := hd
    by_cases h0 : a0 = p
    · simp [heapDelete, h0]
    · simp only [heapGet, h0, if_false] at hget
      simp [heapDelete, h0, ih hget]

theorem heapGet_append_single (h : List (Nat × DNS_State)) (n a : Nat) (st : DNS_State) :
    heapGet (h ++ [(n, st)]) a
      = match heapGet h a with
        | some x => some x
        | none => if n = a then some st else none := by
  induction h with
  | nil => simp [heapGet]
  | cons hd tl ih =>
    obtain ⟨a0, s0⟩ := hd
    by_cases h0 : a0 = a
    · simp [heapGet, h0]
    · simp [heapGet, h0, ih]

/-! ## Preservation of the counting invariant -/

theorem CountInvOn_congr (heap : List (Nat × DNS_State)) (p p' : Nat → Nat) (n : Nat)
    (o : Int) (q : Nat) (log : List Nat) (hinv : CountInvOn heap p n o q log)
    (hp : ∀ a, p' a = p a) : CountInvOn heap p' n o q log := by
  have : p' = p := funext hp
  rw [this]
  exact hinv

theorem CountInvOn_recv (heap : List (Nat × DNS_State)) (p : Nat → Nat) (n : Nat)
    (o : Int) (q : Nat) (log : List Nat) (hinv : CountInvOn heap p n o (q + 1) log) :
    CountInvOn heap p n (o - 1) q log := by
  obtain ⟨h1, h2, h3, h4, h5, h6, h7, h8⟩ := hinv
  refine ⟨h1, h2, h3, h4, ?_, h6, h7, h8⟩
  rw [h5]
  push_cast
  ring

theorem CountInvOn_send (heap : List (Nat × DNS_State)) (p p' : Nat → Nat) (n : Nat)
    (o : Int) (q : Nat) (log : List Nat) (st : DNS_State) (k : Nat)
    (hinv : CountInvOn heap p n o q log) (hk : 1 ≤ k) (hst : st.counter = k)
    (hp : ∀ a, p' a = if a = n then p a + k else p a) :
    CountInvOn (heap ++ [(n, st)]) p' (n + 1) (o + 1) q log := by
  obtain ⟨h1, h2, h3, h4, h5, h6, h7, h8⟩ := hinv
  have hfresh : n ∉ heap.map Prod.fst := fun hmem => Nat.lt_irrefl n (h2 n hmem)
  have hnone : heapGet heap n = none := (heapGet_none_iff heap n).mpr hfresh
  have hpn : p n = 0 := h4 n hnone
  refine ⟨?_, ?_, ?_, ?_, ?_, h6, ?_, ?_⟩
  · rw [List.map_append, List.nodup_append]
    refine ⟨h1, by simp, ?_⟩
    intro a ha hb
    simp only [List.map_cons, List.map_nil, List.mem_singleton] at hb
    rw [hb] at ha
    exact hfresh ha
  · intro a ha
    rw [List.map_append, List.mem_append] at ha
    rcases ha with ha | ha
    · exact Nat.lt_succ_of_lt (h2 a ha)
    · simp only [List.map_cons, List.map_nil, List.mem_singleton] at ha
      omega
  · intro a x hx
    rw [heapGet_append_single] at hx
    cases hget : heapGet heap a with
    | some y =>
      have hne : a ≠ n := by
        intro e
        rw [e, hnone] at hget
        exact Option.noConfusion hget
      simp only [hget, Option.some.injEq] at hx
      rw [hp a, if_neg hne, ← hx]
      exact h3 a y hget
    | none =>
      simp only [hget] at hx
      split at hx
      · rename_i hna
        simp only [Option.some.injEq] at hx
        rw [hp a, if_pos hna.symm, ← hna, hpn, ← hx, hst]
        exact ⟨by simp, by omega⟩
      · exact Option.noConfusion hx
  · intro a ha
    rw [heapGet_append_single] at ha
    cases hget : heapGet heap a with
    | some y => simp [hget] at ha
    | none =>
      simp only [hget] at ha
      split at ha
      · exact Option.noConfusion ha
      · rename_i hna
        have hne : a ≠ n := fun e => hna e.symm
        rw [hp a, if_neg hne]
        exact h4 a hget
  · rw [h5, List.length_append]
    simp only [List.length_singleton]
    push_cast
    ring
  · intro a ha
    obtain ⟨hlt, hnon⟩ := h7 a ha
    refine ⟨Nat.lt_succ_of_lt hlt, ?_⟩
    rw [heapGet_append_single, hnon]
    have hne : ¬ n = a := by omega
    simp [hne]
  · rw [List.length_append]
    simp only [List.length_singleton]
    omega

theorem CountInvOn_record (heap : List (Nat × DNS_State)) (p p' : Nat → Nat) (n : Nat)
    (o : Int) (q : Nat) (log : List Nat) (state : Nat) (st st' : DNS_State)
    (hinv : CountInvOn heap p n o q log) (hget : heapGet heap state = some st)
    (hst : st'.counter = st.counter - 1) (hne : st.counter - 1 ≠ 0)
    (hp : ∀ a, p' a = if a = state then p a - 1 else p a) :
    CountInvOn (heapSet heap state st') p' n o q log := by
  obtain ⟨h1, h2, h3, h4, h5, h6, h7, h8⟩ := hinv
  obtain ⟨hc, hpos⟩ := h3 state st hget
  refine ⟨?_, ?_, ?_, ?_, ?_, h6, ?_, ?_⟩
  · rw [heapSet_map_fst]; exact h1
  · rw [heapSet_map_fst]; exact h2
  · intro a x hx
    rw [heapGet_heapSet] at hx
    by_cases ha : a = state
    · subst ha
      simp only [if_true, hget, Option.map_some', Option.some.injEq] at hx
      rw [hp a, if_pos rfl, ← hx, hst, hc]
      rw [hc] at hne
      constructor
      · omega
      · omega
    · rw [if_neg ha] at hx
      rw [hp a, if_neg ha]
      exact h3 a x hx
  · intro a ha
    rw [heapGet_heapSet] at ha
    by_cases hs : a = state
    · subst hs
      simp [hget] at ha
    · rw [if_neg hs] at ha
      rw [hp a, if_neg hs]
      exact h4 a ha
  · rw [heapSet_length]; exact h5
  · intro a ha
    obtain ⟨hlt, hnon⟩ := h7 a ha
    refine ⟨hlt, ?_⟩
    rw [heapGet_heapSet]
    by_cases hs : a = state
    · subst hs
      rw [hget] at hnon
      exact Option.noConfusion hnon
    · rw [if_neg hs]; exact hnon
  · rw [heapSet_length]; exact h8

theorem CountInvOn_finalise (heap : List (Nat × DNS_State)) (p p' : Nat → Nat) (n : Nat)
    (o o' : Int) (q q' : Nat) (log : List Nat) (state : Nat) (st st' : DNS_State)
    (hinv : CountInvOn heap p n o q log) (hget : heapGet heap state = some st)
    (hzero : st.counter - 1 = 0)
    (hp : ∀ a, p' a = if a = state then p a - 1 else p a)
    (hout : (o' = o - 1 ∧ q' = q) ∨ (o' = o ∧ q' = q + 1)) :
    CountInvOn (heapDelete (heapSet heap state st') state) p' n o' q' (log ++ [state]) := by
  obtain ⟨h1, h2, h3, h4, h5, h6, h7, h8⟩ := hinv
  obtain ⟨hc, hpos⟩ := h3 state st hget
  have hnd : ((heapSet heap state st').map Prod.fst).Nodup := by
    rw [heapSet_map_fst]; exact h1
  have hlive : heapGet (heapSet heap state st') state = some st' :=
    heapGet_heapSet_same heap state st st' hget
  have hlen := heapDelete_length (heapSet heap state st') state st' hlive
  rw [heapSet_length] at hlen
  have hmem : state ∈ heap.map Prod.fst := by
    by_contra hcon
    rw [← heapGet_none_iff, hget] at hcon
    exact Option.noConfusion hcon
  have hgetD : ∀ a, heapGet (heapDelete (heapSet heap state st') state) a
      = if a = state then none else heapGet heap a := by
    intro a
    rw [heapGet_heapDelete _ _ _ hnd, heapGet_heapSet]
    by_cases ha : a = state
    · simp [ha]
    · simp [ha]
  refine ⟨?_, ?_, ?_, ?_, ?_, ?_, ?_, ?_⟩
  · rw [heapDelete_map_fst]
    exact hnd.erase state
  · intro a ha
    rw [heapDelete_map_fst, heapSet_map_fst] at ha
    exact h2 a (List.mem_of_mem_erase ha)
  · intro a x hx
    rw [hgetD] at hx
    by_cases ha : a = state
    · simp [ha] at hx
    · rw [if_neg ha] at hx
      rw [hp a, if_neg ha]
      exact h3 a x hx
  · intro a ha
    rw [hgetD] at ha
    by_cases hs : a = state
    · rw [hp a, if_pos hs, hs]
      rw [hc] at hzero
      omega
    · rw [if_neg hs] at ha
      rw [hp a, if_neg hs]
      exact h4 a ha
  · rcases hout with ⟨ho, hq⟩ | ⟨ho, hq⟩
    · rw [ho, hq, h5]
      have : (heap.length : Int) = ((heapDelete (heapSet heap state st') state).length : Int) + 1 := by
        exact_mod_cast hlen.symm
      rw [this]
      ring
    · rw [ho, hq, h5]
      have : (heap.length : Int) = ((heapDelete (heapSet heap state st') state).length : Int) + 1 := by
        exact_mod_cast hlen.symm
      rw [this]
      push_cast
      ring
  · rw [List.nodup_append]
    refine ⟨h6, by simp, ?_⟩
    intro a ha hb
    simp only [List.mem_singleton] at hb
    rw [hb] at ha
    have := (h7 state ha).2
    rw [hget] at this
    exact Option.noConfusion this
  · intro a ha
    rw [List.mem_append, List.mem_singleton] at ha
    rw [hgetD]
    rcases ha with ha | ha
    · obtain ⟨hlt, hnon⟩ := h7 a ha
      refine ⟨hlt, ?_⟩
      split
      · rfl
      · exact hnon
    · rw [ha]
      exact ⟨h2 state hmem, by simp⟩
  · rw [List.length_append]
    simp only [List.length_singleton]
    omega

theorem filter_eraseIdx_length (l : List (Nat × String)) (i : Nat) (state : Nat) (url : String)
    (hget : l.get? i = some (state, url)) (a : Nat) :
    (l.filter (fun t => t.1 == a)).length
      = ((l.eraseIdx i).filter (fun t => t.1 == a)).length + (if a = state then 1 else 0) := by
  induction l generalizing i with
  | nil => simp at hget
  | cons hd tl ih =>
    cases i with
    | zero =>
      simp only [List.get?_cons_zero, Option.some.injEq] at hget
      subst hget
      by_cases ha : a = state
      · simp [List.eraseIdx, List.filter_cons, ha]
      · have ha' : ¬ state = a := fun e => ha e.symm
        simp [List.eraseIdx, List.filter_cons, ha, ha']
    | succ i =>
      simp only [List.get?_cons_succ] at hget
      have := ih i hget
      simp only [List.eraseIdx, List.filter_cons]
      split
      · simp only [List.length_cons]
        omega
      · exact this

theorem sendSetup_some (s s1 : DNS_Server) (payload : UDP_Packet) (state : Nat)
    (reqs : List String) (hs : sendSetup s payload = some (s1, state, reqs)) :
    state = s.nextAddr ∧ reqs = supportedNames payload.payload.questions ∧ 1 ≤ reqs.length ∧
    Accepted payload ∧
    s1 = { s with
           heap := s.heap ++ [(s.nextAddr,
             DNS_State.new reqs.length reqs (responseTemplate payload.payload) payload.sourcePort)]
           nextAddr := s.nextAddr + 1
           outstandingQueries := s.outstandingQueries + 1 } := by
  unfold sendSetup at hs
  simp only [collectQuestions_eq, List.nil_append] at hs
  split at hs
  · rename_i hacc
    split at hs
    · simp at hs
    · rename_i hlen
      split at hs
      · simp at hs
      · rename_i htc
        simp only [Option.some.injEq, Prod.mk.injEq] at hs
        obtain ⟨h1, h2, h3⟩ := hs
        refine ⟨h2.symm, h3.symm, ?_, ?_, ?_⟩
        · rw [← h3]; omega
        · refine ⟨hacc.1, hacc.2.2, by simpa using htc, ?_⟩
          have hne : supportedNames payload.payload.questions ≠ [] := by
            intro h
            rw [h] at hlen
            exact hlen rfl
          obtain ⟨name, hname⟩ := List.exists_mem_of_ne_nil _ hne
          simp only [supportedNames, List.mem_map, List.mem_filter,
            DNS_QuestionEntry.supported, Bool.and_eq_true, beq_iff_eq] at hname
          obtain ⟨q, ⟨hq, ht, hc⟩, _⟩ := hname
          exact ⟨q, hq, ht, hc⟩
        · rw [← h1, ← h3]
  · simp at hs

theorem finish_countInv (GetLength : DNS_Packet → Nat) (S s1 : DNS_Server)
    (heap : List (Nat × DNS_State)) (state : Nat) (st st' : DNS_State) (p p' : Nat → Nat)
    (hheap : S.heap = heapSet heap state st') (hget : heapGet heap state = some st)
    (hst : st'.counter = st.counter - 1)
    (hinv : CountInvOn heap p S.nextAddr S.outstandingQueries S.dnsQueue.length
      (S.finalised.map Finalisation.state))
    (hp : ∀ a, p' a = if a = state then p a - 1 else p a)
    (hres : (if st.counter - 1 = 0 then FinaliseDNS GetLength S state else some S) = some s1) :
    CountInvOn s1.heap p' s1.nextAddr s1.outstandingQueries s1.dnsQueue.length
      (s1.finalised.map Finalisation.state) ∧ s1.threads = S.threads := by
  by_cases hzero : st.counter - 1 = 0
  · rw [if_pos hzero] at hres
    have hlive : heapGet S.heap state = some st' := by
      rw [hheap]; exact heapGet_heapSet_same heap state st st' hget
    rw [FinaliseDNS_eq GetLength S state st' hlive] at hres
    injection hres with hres
    rw [← hres]
    split
    · refine ⟨?_, rfl⟩
      simp only [List.map_append, List.map_cons, List.map_nil, hheap]
      exact CountInvOn_finalise heap p p' _ _ _ _ _ _ state st st' hinv hget hzero hp
        (Or.inl ⟨rfl, rfl⟩)
    · refine ⟨?_, rfl⟩
      simp only [List.map_append, List.map_cons, List.map_nil, hheap, List.length_append,
        List.length_singleton]
      exact CountInvOn_finalise heap p p' _ _ _ _ _ _ state st st' hinv hget hzero hp
        (Or.inr ⟨rfl, rfl⟩)
  · rw [if_neg hzero] at hres
    injection hres with hres
    rw [← hres, hheap]
    exact ⟨CountInvOn_record heap p p' _ _ _ _ state st st' hinv hget hst hzero hp, rfl⟩

theorem CheckHostList_cases (GetLength : DNS_Packet → Nat) (s : DNS_Server) (url : String)
    (state : Nat) :
    (StringMap.find s.hosts (toLowerUrl url) = none ∧
      CheckHostList GetLength s url state = some (false, s)) ∨
    (∃ v, StringMap.find s.hosts (toLowerUrl url) = some v ∧ heapGet s.heap state = none ∧
      CheckHostList GetLength s url state = none) ∨
    (∃ v st, StringMap.find s.hosts (toLowerUrl url) = some v ∧ heapGet s.heap state = some st ∧
      CheckHostList GetLength s url state
        = (if st.counter - 1 = 0 then
            FinaliseDNS GetLength
              { s with heap := heapSet s.heap state (st.AddAnswer (toLowerUrl url) v).1 } state
          else
            some { s with heap := heapSet s.heap state (st.AddAnswer (toLowerUrl url) v).1 }).map
          (fun s2 => (true, s2))) := by
  cases hfind : StringMap.find s.hosts (toLowerUrl url) with
  | none =>
    left
    exact ⟨rfl, by simp only [CheckHostList, hfind]⟩
  | some v =>
    right
    cases hget : heapGet s.heap state with
    | none =>
      left
      exact ⟨v, rfl, rfl, by simp only [CheckHostList, hfind, hget]⟩
    | some st =>
      right
      refine ⟨v, st, rfl, rfl, ?_⟩
      have hr : (st.AddAnswer (toLowerUrl url) v).2 = st.counter - 1 := rfl
      simp only [CheckHostList, hfind, hget, StringMap.index_of_find _ _ _ hfind, hr]
      split <;> rfl

theorem step_countInv (GetLength : DNS_Packet → Nat) (m m' : Machine) (e : Event)
    (hinv : CountInv m) (hs : step GetLength m e = some m') : CountInv m' := by
  cases e with
  | init adapterIP EthHosts =>
    simp only [step, Option.some.injEq] at hs
    rw [← hs]
    exact hinv
  | loadHostList EthHosts =>
    simp only [step, Option.some.injEq] at hs
    rw [← hs]
    exact hinv
  | recv =>
    simp only [step] at hs
    split at hs
    · rename_i hsend
      simp only [Option.some.injEq] at hs
      rw [← hs]
      cases hq : m.server.dnsQueue with
      | nil =>
        have hrecv : (Recv m.server).2 = m.server := by simp [Recv, hq]
        unfold CountInv pendingOf
        rw [hrecv]
        exact hinv
      | cons pkt rest =>
        unfold CountInv at hinv ⊢
        rw [hq] at hinv
        have h := CountInvOn_recv _ _ _ _ _ _ hinv
        simp only [Recv, hq]
        exact h
    · simp at hs
  | send payload =>
    simp only [step] at hs
    split at hs
    · rename_i hsend
      have hc : payload.payload.opCode = DNS_OPCode.Query ∧
          payload.payload.questions.length > 0 ∧ payload.payload.qr = false := by
        by_contra hc
        rw [if_neg hc] at hs
        simp at hs
      rw [if_pos hc] at hs
      split at hs
      · simp only [Option.some.injEq] at hs
        rw [← hs]
        exact hinv
      · rename_i s1 state reqs hsetup
        simp only [Option.some.injEq] at hs
        rw [← hs]
        obtain ⟨hstate, _, hlen, _, hs1⟩ :=
          sendSetup_some m.server s1 payload state reqs hsetup
        unfold CountInv at hinv ⊢
        rw [hs1]
        refine CountInvOn_send _ (pendingOf m) _ _ _ _ _ _ reqs.length hinv hlen rfl ?_
        intro a
        simp only [pendingOf, hsend, hstate]
        by_cases ha : a = m.server.nextAddr
        · subst ha
          simp
        · have ha' : ¬ m.server.nextAddr = a := fun e => ha e.symm
          simp [ha, ha']
    · simp at hs
  | dispatch =>
    simp only [step] at hs
    split at hs
    · simp at hs
    · rename_i state hsend
      simp only [Option.some.injEq] at hs
      rw [← hs]
      unfold CountInv at hinv ⊢
      refine CountInvOn_congr _ _ _ _ _ _ _ hinv ?_
      intro a
      simp [pendingOf, hsend]
    · rename_i state url rest hsend
      split at hs
      · simp at hs
      · rename_i s1 hd
        simp only [Option.some.injEq] at hs
        rw [← hs]
        unfold dispatchQuestion at hd
        rcases CheckHostList_cases GetLength m.server url state with
          ⟨_, hc⟩ | ⟨v, _, _, hc⟩ | ⟨v, st, _, hget, hc⟩
        · simp only [hc, Option.some.injEq] at hd
          rw [← hd]
          unfold CountInv at hinv ⊢
          refine CountInvOn_congr _ _ _ _ _ _ _ hinv ?_
          intro a
          simp only [pendingOf, hsend, GetHost, List.filter_append, List.length_append]
          by_cases ha : state = a
          · simp [ha, List.filter_cons]
            omega
          · simp [ha, List.filter_cons]
        · simp [hc] at hd
        · rw [hc] at hd
          cases hres : (if st.counter - 1 = 0 then
              FinaliseDNS GetLength
                { m.server with
                  heap := heapSet m.server.heap state (st.AddAnswer (toLowerUrl url) v).1 } state
            else
              some { m.server with
                     heap := heapSet m.server.heap state (st.AddAnswer (toLowerUrl url) v).1 }) with
          | none => simp [hres] at hd
          | some s2 =>
            simp only [hres, Option.map_some', Option.some.injEq] at hd
            subst hd
            unfold CountInv at hinv ⊢
            obtain ⟨hcount, hthreads⟩ := finish_countInv GetLength
              { m.server with
                heap := heapSet m.server.heap state (st.AddAnswer (toLowerUrl url) v).1 }
              s2 m.server.heap state st
              (st.AddAnswer (toLowerUrl url) v).1 (pendingOf m)
              (fun a => if a = state then pendingOf m a - 1 else pendingOf m a)
              rfl hget rfl hinv (fun a => rfl) hres
            refine CountInvOn_congr _ _ _ _ _ _ _ hcount ?_
            intro a
            simp only [pendingOf, hsend, hthreads]
            by_cases ha : state = a
            · subst ha
              simp
            · have ha' : ¬ a = state := fun e => ha e.symm
              simp [ha, ha']
  | complete i error result =>
    simp only [step] at hs
    split at hs
    · simp at hs
    · rename_i state url hth
      split at hs
      · simp at hs
      · rename_i s1 hg
        simp only [Option.some.injEq] at hs
        rw [← hs]
        unfold GetAddrInfoThread at hg
        cases hget : heapGet m.server.heap state with
        | none => simp [hget] at hg
        | some st =>
          simp only [hget, (recordOutcome_counter st url error result).2] at hg
          unfold CountInv at hinv ⊢
          obtain ⟨hcount, hthreads⟩ := finish_countInv GetLength
            { m.server with
              threads := m.server.threads.eraseIdx i
              heap := heapSet m.server.heap state (recordOutcome st url error result).1 }
            s1 m.server.heap state st
            (recordOutcome st url error result).1 (pendingOf m)
            (fun a => if a = state then pendingOf m a - 1 else pendingOf m a)
            rfl hget (recordOutcome_counter st url error result).1 hinv (fun a => rfl) hg
          refine CountInvOn_congr _ _ _ _ _ _ _ hcount ?_
          intro a
          have hcnt := filter_eraseIdx_length m.server.threads i state url hth a
          simp only [pendingOf, hthreads]
          by_cases ha : a = state
          · rw [if_pos ha] at hcnt
            rw [if_pos ha, hcnt]
            omega
          · rw [if_neg ha] at hcnt
            rw [if_neg ha, hcnt]
            rfl

theorem run_countInv (GetLength : DNS_Packet → Nat) (events : List Event) (m m' : Machine)
    (hinv : CountInv m) (hs : run GetLength m events = some m') : CountInv m' := by
  induction events generalizing m with
  | nil =>
    simp only [run, Option.some.injEq] at hs
    rw [← hs]
    exact hinv
  | cons e rest ih =>
    simp only [run] at hs
    cases hstep : step GetLength m e with
    | none => simp [hstep] at hs
    | some m1 =>
      simp only [hstep] at hs
      exact ih m1 (step_countInv GetLength m m1 e hinv hstep) hs

theorem fresh_countInv (localhostIP : IP_Address) (hosts : StringMap) :
    CountInv { server := DNS_Server.fresh localhostIP hosts, sending := none } := by
  refine ⟨by simp [DNS_Server.fresh], ?_, ?_, ?_, ?_, by simp [DNS_Server.fresh], ?_, ?_⟩
  · intro a ha
    simp [DNS_Server.fresh] at ha
  · intro a st h
    simp [DNS_Server.fresh, heapGet] at h
  · intro a _
    simp [pendingOf, DNS_Server.fresh]
  · simp [DNS_Server.fresh]
  · intro a ha
    simp [DNS_Server.fresh] at ha
  · simp [DNS_Server.fresh]

theorem reachable_countInv (GetLength : DNS_Packet → Nat) (m : Machine)
    (hreach : Reachable GetLength m) : CountInv m := by
  obtain ⟨localhostIP, hosts, events, hrun⟩ := hreach
  exact run_countInv GetLength events _ m (fresh_countInv localhostIP hosts) hrun

theorem threads_nil_of_pending_zero (threads : List (Nat × String))
    (h : ∀ a, (threads.filter (fun t => t.1 == a)).length = 0) : threads = [] := by
  cases threads with
  | nil => rfl
  | cons t rest =>
    have := h t.1
    simp [List.filter_cons] at this

/-- C19. In every state the server reaches from a freshly constructed server
(through `Init`, `LoadHostList`, `Send`, resolver completions with the
`FinaliseDNS` they trigger, and `Recv`): the outstanding-operations counter
equals the number of live Query States plus the number of responses on the
output queue, where the live Query States are those created (`nextAddr` of
them) and not yet finalised; it is not negative; it is zero exactly when no
Query State is alive and the queue is empty, and then no resolver thread is
running either; and `Recv` decrements it by one when it dequeues a packet and
leaves the server unchanged when the queue is empty. -/
theorem C19_outstanding_counter_invariant (GetLength : DNS_Packet → Nat) (m : Machine)
    (hreach : Reachable GetLength m) :
    m.server.outstandingQueries = (m.server.heap.length : Int) + m.server.dnsQueue.length ∧
    m.server.finalised.length + m.server.heap.length = m.server.nextAddr ∧
    m.server.outstandingQueries + m.server.finalised.length
      = (m.server.nextAddr : Int) + m.server.dnsQueue.length ∧
    0 ≤ m.server.outstandingQueries ∧
    (m.server.outstandingQueries = 0 ↔ m.server.heap = [] ∧ m.server.dnsQueue = []) ∧
    (m.server.heap = [] → m.server.threads = []) ∧
    (∀ pkt rest, m.server.dnsQueue = pkt :: rest →
      (Recv m.server).1 = some pkt ∧ (Recv m.server).2.dnsQueue = rest ∧
      (Recv m.server).2.outstandingQueries = m.server.outstandingQueries - 1) ∧
    (m.server.dnsQueue = [] → Recv m.server = (none, m.server)) := by
  obtain ⟨_, _, _, h4, h5, _, _, h8⟩ := reachable_countInv GetLength m hreach
  simp only [List.length_map] at h8
  refine ⟨h5, h8, ?_, ?_, ?_, ?_, ?_, ?_⟩
  · rw [h5, ← h8]
    push_cast
    ring
  · rw [h5]
    omega
  · rw [h5]
    constructor
    · intro h
      have h1 : m.server.heap.length = 0 := by omega
      have h2 : m.server.dnsQueue.length = 0 := by omega
      exact ⟨List.eq_nil_of_length_eq_zero h1, List.eq_nil_of_length_eq_zero h2⟩
    · rintro ⟨h1, h2⟩
      rw [h1, h2]
      rfl
  · intro hheap
    apply threads_nil_of_pending_zero
    intro a
    have := h4 a (by rw [hheap]; rfl)
    simp only [pendingOf] at this
    omega
  · intro pkt rest hq
    simp [Recv, hq]
  · intro hq
    simp [Recv, hq]

theorem C19_witness :
    ∃ m, run exampleLength { server := exampleServer, sending := none } exampleEvents = some m ∧
      m.server.outstandingQueries = 1 ∧ m.server.heap.length = 0 ∧
      m.server.dnsQueue.length = 1 ∧ m.server.nextAddr = 1 ∧ m.server.finalised.length = 1 := by
  obtain ⟨m, hm⟩ := Option.isSome_iff_exists.mp
    (by decide :
      (run exampleLength { server := exampleServer, sending := none } exampleEvents).isSome = true)
  have hobs : (run exampleLength { server := exampleServer, sending := none } exampleEvents).map
      (fun m => (m.server.heap.length, m.server.dnsQueue.length, m.server.nextAddr))
      = some (0, 1, 1) := by
    decide
  rw [hm, Option.map_some', Option.some.injEq, Prod.mk.injEq, Prod.mk.injEq] at hobs
  obtain ⟨h1, h2, h3⟩ := hobs
  have h := C19_outstanding_counter_invariant exampleLength m
    ⟨exampleServer.localhostIP, exampleServer.hosts, exampleEvents, hm⟩
  refine ⟨m, hm, ?_, h1, h2, h3, ?_⟩
  · rw [h.1, h1, h2]
    rfl
  · have := h.2.1
    omega

/-! ## The dispatch loop of `Send` under interleaving -/

theorem finish_heap (GetLength : DNS_Packet → Nat) (S s1 : DNS_Server) (state : Nat)
    (st' : DNS_State) (c : Int) (hlive : heapGet S.heap state = some st')
    (hres : (if c = 0 then FinaliseDNS GetLength S state else some S) = some s1) :
    s1.heap = if c = 0 then heapDelete S.heap state else S.heap := by
  by_cases hc : c = 0
  · rw [if_pos hc] at hres
    rw [if_pos hc]
    rw [FinaliseDNS_eq GetLength S state st' hlive] at hres
    injection hres with hres
    rw [← hres]
    split <;> rfl
  · rw [if_neg hc] at hres
    rw [if_neg hc]
    injection hres with hres
    rw [hres]

theorem step_sendingInv (GetLength : DNS_Packet → Nat) (m m' : Machine) (e : Event)
    (hcount : CountInv m) (hinv : SendingInv m) (hs : step GetLength m e = some m') :
    SendingInv m' := by
  cases e with
  | init adapterIP EthHosts =>
    simp only [step, Option.some.injEq] at hs
    rw [← hs]
    exact hinv
  | loadHostList EthHosts =>
    simp only [step, Option.some.injEq] at hs
    rw [← hs]
    exact hinv
  | recv =>
    simp only [step] at hs
    split at hs
    · rename_i hsend
      simp only [Option.some.injEq] at hs
      rw [← hs]
      intro state url rest h
      simp only [hsend] at h
      exact Option.noConfusion h
    · simp at hs
  | send payload =>
    simp only [step] at hs
    split at hs
    · rename_i hsend
      have hc : payload.payload.opCode = DNS_OPCode.Query ∧
          payload.payload.questions.length > 0 ∧ payload.payload.qr = false := by
        by_contra hc
        rw [if_neg hc] at hs
        simp at hs
      rw [if_pos hc] at hs
      split at hs
      · simp only [Option.some.injEq] at hs
        rw [← hs]
        exact hinv
      · rename_i s1 state reqs hsetup
        simp only [Option.some.injEq] at hs
        rw [← hs]
        obtain ⟨hstate, _, _, _, hs1⟩ := sendSetup_some m.server s1 payload state reqs hsetup
        intro state' url rest h
        simp only [Option.some.injEq, Prod.mk.injEq] at h
        obtain ⟨h1, h2⟩ := h
        have hfresh : heapGet m.server.heap m.server.nextAddr = none := by
          rw [heapGet_none_iff]
          intro hmem
          exact Nat.lt_irrefl _ (hcount.2.1 _ hmem)
        refine ⟨DNS_State.new reqs.length reqs (responseTemplate payload.payload)
          payload.sourcePort, ?_, ?_⟩
        · rw [hs1, ← h1, hstate]
          simp only [heapGet_append_single, hfresh, if_true]
        · rw [← h2]
          exact List.suffix_refl _
    · simp at hs
  | dispatch =>
    simp only [step] at hs
    split at hs
    · simp at hs
    · simp only [Option.some.injEq] at hs
      rw [← hs]
      intro state url rest h
      exact Option.noConfusion h
    · rename_i state url rest hsend
      split at hs
      · simp at hs
      · rename_i s1 hd
        simp only [Option.some.injEq] at hs
        rw [← hs]
        intro state' url' rest' h
        simp only [Option.some.injEq, Prod.mk.injEq] at h
        obtain ⟨h1, h2⟩ := h
        subst h1
        obtain ⟨st, hget, hsuf⟩ := hinv state url rest hsend
        have hsuf' : List.IsSuffix (url' :: rest') st.questions := by
          rw [← h2]
          exact (List.suffix_cons url rest).trans hsuf
        unfold dispatchQuestion at hd
        rcases CheckHostList_cases GetLength m.server url state with
          ⟨_, hc⟩ | ⟨v, _, hnone, _⟩ | ⟨v, st0, _, hget0, hc⟩
        · simp only [hc, Option.some.injEq] at hd
          rw [← hd]
          exact ⟨st, hget, hsuf'⟩
        · rw [hget] at hnone
          exact Option.noConfusion hnone
        · rw [hget] at hget0
          injection hget0 with hget0
          subst hget0
          rw [hc] at hd
          have hnz : st.counter - 1 ≠ 0 := by
            have := (hcount.2.2.1 state st hget).1
            simp only [pendingOf, hsend, if_true, h2, List.length_cons] at this
            omega
          rw [if_neg hnz] at hd
          simp only [Option.map_some', Option.some.injEq] at hd
          rw [← hd]
          exact ⟨(st.AddAnswer (toLowerUrl url) v).1,
            heapGet_heapSet_same _ _ _ _ hget, hsuf'⟩
  | complete i error result =>
    simp only [step] at hs
    split at hs
    · simp at hs
    · rename_i tstate turl hth
      split at hs
      · simp at hs
      · rename_i s1 hg
        simp only [Option.some.injEq] at hs
        rw [← hs]
        intro state url rest hsend
        replace hsend : m.sending = some (state, url :: rest) := hsend
        obtain ⟨st, hget, hsuf⟩ := hinv state url rest hsend
        unfold GetAddrInfoThread at hg
        cases hgett : heapGet m.server.heap tstate with
        | none => simp [hgett] at hg
        | some tst =>
          simp only [hgett, (recordOutcome_counter tst turl error result).2] at hg
          have hheap := finish_heap GetLength
            { m.server with
              threads := m.server.threads.eraseIdx i
              heap := heapSet m.server.heap tstate (recordOutcome tst turl error result).1 }
            s1 tstate (recordOutcome tst turl error result).1 (tst.counter - 1)
            (heapGet_heapSet_same _ _ _ _ hgett) hg
          have hnd : ((heapSet m.server.heap tstate
              (recordOutcome tst turl error result).1).map Prod.fst).Nodup := by
            rw [heapSet_map_fst]
            exact hcount.1
          show ∃ st, heapGet s1.heap state = some st ∧ List.IsSuffix (url :: rest) st.questions
          rw [hheap]
          by_cases hst : state = tstate
          · subst hst
            rw [hget] at hgett
            injection hgett with hgett
            subst hgett
            have hnz : st.counter - 1 ≠ 0 := by
              have hp := (hcount.2.2.1 state st hget).1
              have hcnt := filter_eraseIdx_length m.server.threads i state turl hth state
              simp only [pendingOf, hsend, if_true, List.length_cons] at hp
              simp only [if_true] at hcnt
              omega
            rw [if_neg hnz]
            refine ⟨(recordOutcome st turl error result).1,
              heapGet_heapSet_same _ _ _ _ hget, ?_⟩
            rw [(recordOutcome_frame st turl error result).2]
            exact hsuf
          · refine ⟨st, ?_, hsuf⟩
            split
            · rw [heapGet_heapDelete _ _ _ hnd, if_neg hst, heapGet_heapSet, if_neg hst]
              exact hget
            · show heapGet (heapSet m.server.heap tstate _) state = some st
              rw [heapGet_heapSet, if_neg hst]
              exact hget

theorem run_dispatchInv (GetLength : DNS_Packet → Nat) (events : List Event) (m m' : Machine)
    (hcount : CountInv m) (hinv : SendingInv m) (hs : run GetLength m events = some m') :
    CountInv m' ∧ SendingInv m' := by
  induction events generalizing m with
  | nil =>
    simp only [run, Option.some.injEq] at hs
    rw [← hs]
    exact ⟨hcount, hinv⟩
  | cons e rest ih =>
    simp only [run] at hs
    cases hstep : step GetLength m e with
    | none => simp [hstep] at hs
    | some m1 =>
      simp only [hstep] at hs
      exact ih m1 (step_countInv GetLength m m1 e hcount hstep)
        (step_sendingInv GetLength m m1 e hcount hinv hstep) hs

theorem reachable_sendingInv (GetLength : DNS_Packet → Nat) (m : Machine)
    (hreach : Reachable GetLength m) : SendingInv m := by
  obtain ⟨localhostIP, hosts, events, hrun⟩ := hreach
  refine (run_dispatchInv GetLength events _ m (fresh_countInv localhostIP hosts) ?_ hrun).2
  intro state url rest h
  exact Option.noConfusion h

theorem dispatchQuestion_live (GetLength : DNS_Packet → Nat) (s : DNS_Server) (url : String)
    (state : Nat) (st : DNS_State) (hget : heapGet s.heap state = some st) :
    ∃ s1, dispatchQuestion GetLength s url state = some s1 := by
  unfold dispatchQuestion
  rcases CheckHostList_cases GetLength s url state with
    ⟨_, hc⟩ | ⟨v, _, hnone, _⟩ | ⟨v, st0, _, hget0, hc⟩
  · rw [hc]
    exact ⟨_, rfl⟩
  · rw [hget] at hnone
    exact Option.noConfusion hnone
  · rw [hc]
    by_cases hz : st0.counter - 1 = 0
    · rw [if_pos hz]
      obtain ⟨s2, hs2, _⟩ := FinaliseDNS_log GetLength
        { s with heap := heapSet s.heap state (st0.AddAnswer (toLowerUrl url) v).1 } state
        (st0.AddAnswer (toLowerUrl url) v).1 (heapGet_heapSet_same _ _ _ _ hget0)
      rw [hs2]
      exact ⟨_, rfl⟩
    · rw [if_neg hz]
      exact ⟨_, rfl⟩

/-- C20. In every reachable state in which `Send` is in its dispatch loop and
is about to dispatch a question (the questions left are `url :: rest`, so
with N questions in all it is question i = N - (rest.length + 1)): the Query
State of that `Send` is alive, the questions left are the final segment of
its question list from index i on, its counter is at least the number of
questions left, N - i, hence at least 1 and at most i decrements have been
applied, `FinaliseDNS` has not run on it, and the iteration of the loop is
defined: neither `CheckHostList` nor `GetHost` receives a destroyed Query
State. The state was reached under an arbitrary interleaving of the loop with
the completions of the resolver threads started earlier. -/
theorem C20_dispatch_never_sees_destroyed_state (GetLength : DNS_Packet → Nat) (m : Machine)
    (hreach : Reachable GetLength m) (state : Nat) (url : String) (rest : List String)
    (hsend : m.sending = some (state, url :: rest)) :
    ∃ st, heapGet m.server.heap state = some st ∧
      (∃ i, i + (rest.length + 1) = st.questions.length ∧ st.questions.drop i = url :: rest ∧
        (st.questions.length : Int) - st.counter ≤ i) ∧
      ((rest.length : Int) + 1 ≤ st.counter) ∧ 1 ≤ st.counter ∧
      (∀ f, f ∈ m.server.finalised → f.state ≠ state) ∧
      (∃ m', step GetLength m Event.dispatch = some m') := by
  obtain ⟨_, _, h3, _, _, _, h7, _⟩ := reachable_countInv GetLength m hreach
  obtain ⟨st, hget, hsuf⟩ := reachable_sendingInv GetLength m hreach state url rest hsend
  have hc := (h3 state st hget).1
  simp only [pendingOf, hsend, if_true, List.length_cons] at hc
  have hge : (rest.length : Int) + 1 ≤ st.counter := by
    rw [hc]
    push_cast
    omega
  refine ⟨st, hget, ?_, hge, by omega, ?_, ?_⟩
  · obtain ⟨pre, hpre⟩ := hsuf
    refine ⟨pre.length, ?_, ?_, ?_⟩
    · rw [← hpre, List.length_append, List.length_cons]
    · rw [← hpre, List.drop_left]
    · rw [← hpre, List.length_append, List.length_cons]
      push_cast
      omega
  · intro f hf hfs
    have hmem : f.state ∈ m.server.finalised.map Finalisation.state :=
      List.mem_map_of_mem _ hf
    have := (h7 f.state hmem).2
    rw [hfs, hget] at this
    exact Option.noConfusion this
  · obtain ⟨s1, hs1⟩ := dispatchQuestion_live GetLength m.server url state st hget
    refine ⟨{ server := s1, sending := some (state, rest) }, ?_⟩
    simp only [step, hsend, hs1]

theorem C20_witness :
    ∃ m st, run exampleLength { server := exampleServer, sending := none }
        exampleEarlyCompletion = some m ∧
      m.sending = some (0, ["home.test"]) ∧ heapGet m.server.heap 0 = some st ∧
      1 ≤ st.counter ∧ (∃ m', step exampleLength m Event.dispatch = some m') := by
  obtain ⟨m, hm⟩ := Option.isSome_iff_exists.mp
    (by decide :
      (run exampleLength { server := exampleServer, sending := none }
        exampleEarlyCompletion).isSome = true)
  have hobs : (run exampleLength { server := exampleServer, sending := none }
      exampleEarlyCompletion).map (fun m => m.sending) = some (some (0, ["home.test"])) := by
    decide
  rw [hm, Option.map_some', Option.some.injEq] at hobs
  obtain ⟨st, h1, _, _, h4, _, h6⟩ := C20_dispatch_never_sees_destroyed_state exampleLength m
    ⟨exampleServer.localhostIP, exampleServer.hosts, exampleEarlyCompletion, hm⟩
    0 "home.test" [] hobs
  exact ⟨m, st, hm, hobs, h1, h4, h6⟩

/-! ## A query answered from the override table alone -/

theorem dispatchLoop_all_hits (GetLength : DNS_Packet → Nat) (state : Nat) (reqs : List String)
    (s : DNS_Server) (st : DNS_State) (hget : heapGet s.heap state = some st)
    (hcount : st.counter = reqs.length) (hne : reqs ≠ [])
    (hhit : ∀ q, q ∈ reqs → (StringMap.find s.hosts (toLowerUrl q)).isSome = true) :
    ∃ s' f, dispatchLoop GetLength s reqs state = some s' ∧ s'.threads = s.threads ∧
      s'.finalised = s.finalised ++ [f] ∧ f.state = state ∧
      (GetLength f.response ≤ 512 →
        s'.dnsQueue = s.dnsQueue ++ [UDP_Packet.mk 53 st.clientPort f.response] ∧
        s'.callbackCount = s.callbackCount + 1) ∧
      (GetLength f.response > 512 →
        s'.dnsQueue = s.dnsQueue ∧ s'.callbackCount = s.callbackCount) := by
  induction reqs generalizing s st with
  | nil => exact absurd rfl hne
  | cons url rest ih =>
    obtain ⟨v, hv⟩ := Option.isSome_iff_exists.mp (hhit url (List.mem_cons_self _ _))
    rcases CheckHostList_cases GetLength s url state with
      ⟨hnone, _⟩ | ⟨_, _, hnone, _⟩ | ⟨v', st0, _, hget0, hc⟩
    · rw [hv] at hnone
      exact Option.noConfusion hnone
    · rw [hget] at hnone
      exact Option.noConfusion hnone
    · rw [hget] at hget0
      injection hget0 with hget0
      subst hget0
      simp only [List.length_cons, Nat.cast_add, Nat.cast_one] at hcount
      cases rest with
      | nil =>
        have hz : st.counter - 1 = 0 := by
          simp only [List.length_nil, Nat.cast_zero] at hcount
          omega
        rw [if_pos hz, FinaliseDNS_eq GetLength _ state (st.AddAnswer (toLowerUrl url) v').1
          (heapGet_heapSet_same _ _ _ _ hget)] at hc
        simp only [dispatchLoop, dispatchQuestion, hc, Option.map_some']
        by_cases hlen : GetLength (responseOf s.localhostIP (st.AddAnswer (toLowerUrl url) v').1)
            > 512
        · rw [if_pos hlen]
          refine ⟨_, _, rfl, rfl, rfl, rfl, ?_, ?_⟩
          · intro h
            exact absurd hlen (by simpa using h)
          · intro _
            exact ⟨rfl, rfl⟩
        · rw [if_neg hlen]
          refine ⟨_, _, rfl, rfl, rfl, rfl, ?_, ?_⟩
          · intro _
            exact ⟨rfl, rfl⟩
          · intro h
            exact absurd h hlen
      | cons url2 rest2 =>
        have hz : st.counter - 1 ≠ 0 := by
          simp only [List.length_cons, Nat.cast_add, Nat.cast_one] at hcount
          omega
        rw [if_neg hz] at hc
        obtain ⟨s', f, h1, h2, h3, h4, h6, h7⟩ := ih
          { s with heap := heapSet s.heap state (st.AddAnswer (toLowerUrl url) v').1 }
          (st.AddAnswer (toLowerUrl url) v').1 (heapGet_heapSet_same _ _ _ _ hget)
          (by simp only [DNS_State.AddAnswer]; omega) (by simp)
          (fun q hq => hhit q (List.mem_cons_of_mem _ hq))
        refine ⟨s', f, ?_, h2, h3, h4, h6, h7⟩
        rw [dispatchLoop]
        simp only [dispatchQuestion, hc, Option.map_some']
        exact h1

theorem sendSetup_accepted (s : DNS_Server) (payload : UDP_Packet)
    (hop : payload.payload.opCode = DNS_OPCode.Query) (hqr : payload.payload.qr = false)
    (htc : payload.payload.tc = false)
    (hsup : ∃ q, q ∈ payload.payload.questions ∧ q.entryType = 1 ∧ q.entryClass = 1) :
    sendSetup s payload = some
      ({ s with
          heap := s.heap ++ [(s.nextAddr,
            DNS_State.new (supportedNames payload.payload.questions).length
              (supportedNames payload.payload.questions) (responseTemplate payload.payload)
              payload.sourcePort)]
          nextAddr := s.nextAddr + 1
          outstandingQueries := s.outstandingQueries + 1 },
        s.nextAddr, supportedNames payload.payload.questions) ∧
    supportedNames payload.payload.questions ≠ [] := by
  obtain ⟨q0, hq0, ht0, hc0⟩ := hsup
  have hmem : q0.name ∈ supportedNames payload.payload.questions := by
    simp only [supportedNames, List.mem_map, List.mem_filter]
    exact ⟨q0, ⟨hq0, by simp [DNS_QuestionEntry.supported, ht0, hc0]⟩, rfl⟩
  have hne : supportedNames payload.payload.questions ≠ [] := List.ne_nil_of_mem hmem
  have hlen : 0 < (supportedNames payload.payload.questions).length :=
    List.length_pos.mpr hne
  have hq : payload.payload.questions.length > 0 := List.length_pos.mpr (List.ne_nil_of_mem hq0)
  refine ⟨?_, hne⟩
  unfold sendSetup
  simp only [collectQuestions_eq, List.nil_append]
  rw [if_pos ⟨hop, hq, hqr⟩, if_neg (by omega), if_neg (by simp [htc])]

/-- C11. No `Send` is executing in a reachable state of the server, and
`Send` is called with an accepted query whose supported question names are
all found by the override lookup: `Send` returns true; it has started no
resolver thread (`GetHost` was not called); `FinaliseDNS` has run exactly once
during the call, on the Query State of this query; and the response is on the
output queue (with one notification) when its length is at most 512, and was
dropped otherwise. -/
theorem C11_all_override_hits_finalise_in_send (GetLength : DNS_Packet → Nat) (m : Machine)
    (hreach : Reachable GetLength m) (payload : UDP_Packet)
    (hop : payload.payload.opCode = DNS_OPCode.Query) (hqr : payload.payload.qr = false)
    (htc : payload.payload.tc = false)
    (hsup : ∃ q, q ∈ payload.payload.questions ∧ q.entryType = 1 ∧ q.entryClass = 1)
    (hhit : ∀ q, q ∈ payload.payload.questions → q.entryType = 1 → q.entryClass = 1 →
      (StringMap.find m.server.hosts (toLowerUrl q.name)).isSome = true) :
    ∃ s' f, Send GetLength m.server payload = some (true, s') ∧
      s'.threads = m.server.threads ∧
      s'.finalised = m.server.finalised ++ [f] ∧ f.state = m.server.nextAddr ∧
      (GetLength f.response ≤ 512 →
        s'.dnsQueue = m.server.dnsQueue ++ [UDP_Packet.mk 53 payload.sourcePort f.response] ∧
        s'.callbackCount = m.server.callbackCount + 1) ∧
      (GetLength f.response > 512 →
        s'.dnsQueue = m.server.dnsQueue ∧ s'.callbackCount = m.server.callbackCount) := by
  obtain ⟨hsetup, hne⟩ := sendSetup_accepted m.server payload hop hqr htc hsup
  have hfresh : heapGet m.server.heap m.server.nextAddr = none := by
    rw [heapGet_none_iff]
    intro hmem
    exact Nat.lt_irrefl _ ((reachable_countInv GetLength m hreach).2.1 _ hmem)
  obtain ⟨s', f, h1, h2, h3, h4, h6, h7⟩ := dispatchLoop_all_hits GetLength m.server.nextAddr
    (supportedNames payload.payload.questions)
    { m.server with
      heap := m.server.heap ++ [(m.server.nextAddr,
        DNS_State.new (supportedNames payload.payload.questions).length
          (supportedNames payload.payload.questions) (responseTemplate payload.payload)
          payload.sourcePort)]
      nextAddr := m.server.nextAddr + 1
      outstandingQueries := m.server.outstandingQueries + 1 }
    (DNS_State.new (supportedNames payload.payload.questions).length
      (supportedNames payload.payload.questions) (responseTemplate payload.payload)
      payload.sourcePort)
    (by simp only [heapGet_append_single, hfresh, if_true])
    rfl hne
    (by
      intro q hq
      simp only [supportedNames, List.mem_map, List.mem_filter, DNS_QuestionEntry.supported,
        Bool.and_eq_true, beq_iff_eq] at hq
      obtain ⟨entry, ⟨hmem, ht, hc⟩, hname⟩ := hq
      rw [← hname]
      exact hhit entry hmem ht hc)
  refine ⟨s', f, ?_, h2, h3, h4, h6, h7⟩
  have hq : payload.payload.questions.length > 0 := by
    obtain ⟨q0, hq0, _⟩ := hsup
    exact List.length_pos.mpr (List.ne_nil_of_mem hq0)
  rw [Send_taken GetLength m.server payload ⟨hop, hq, hqr⟩]
  simp only [hsetup, h1, Option.map_some']

theorem C11_witness :
    ∃ s' f, Send exampleLength exampleServer allFoundQuery = some (true, s') ∧
      s'.threads = [] ∧ s'.finalised = [f] ∧ f.state = 0 ∧ s'.dnsQueue.length = 1 := by
  obtain ⟨s', f, h1, h2, h3, h4, h5, _⟩ := C11_all_override_hits_finalise_in_send exampleLength
    { server := exampleServer, sending := none }
    ⟨exampleServer.localhostIP, exampleServer.hosts, [], rfl⟩ allFoundQuery
    (by decide) (by decide) (by decide) ⟨⟨"home.test", 1, 1⟩, by decide, rfl, rfl⟩
    (by
      intro q hq ht hc
      simp only [allFoundQuery, exampleQuery, List.mem_cons, List.mem_singleton,
        List.mem_nil_iff, or_false] at hq
      rcases hq with rfl | rfl | rfl
      · decide
      · exact absurd ht (by decide)
      · decide)
  have hlen : exampleLength f.response ≤ 512 := by
    have hobs : (Send exampleLength exampleServer allFoundQuery).map
        (fun r => r.2.finalised.map (fun f => decide (exampleLength f.response ≤ 512)))
        = some [true] := by
      decide
    rw [h1] at hobs
    simp only [Option.map_some', Option.some.injEq] at hobs
    rw [h3] at hobs
    simpa [exampleServer, DNS_Server.fresh] using hobs
  refine ⟨s', f, h1, h2, h3, h4, ?_⟩
  rw [(h5 hlen).1]
  rfl

/-! ## Provenance of the responses -/

theorem sentQueries_append (es fs : List Event) :
    sentQueries (es ++ fs) = sentQueries es ++ sentQueries fs := by
  induction es with
  | nil => rfl
  | cons e rest ih =>
    cases e <;> simp [sentQueries, ih]

theorem createdQueries_append (es fs : List Event) :
    createdQueries (es ++ fs) = createdQueries es ++ createdQueries fs := by
  simp only [createdQueries, sentQueries_append, List.filter_append]

theorem createdQueries_subset (events : List Event) (query : UDP_Packet)
    (h : query ∈ createdQueries events) : query ∈ sentQueries events :=
  (List.mem_filter.mp h).1

theorem get?_append_some {α : Type} (l l' : List α) (a : Nat) (q : α)
    (h : l.get? a = some q) : (l ++ l').get? a = some q := by
  induction l generalizing a with
  | nil => simp at h
  | cons x rest ih =>
    cases a with
    | zero => simpa using h
    | succ n =>
      simp only [List.get?_cons_succ] at h
      simp only [List.cons_append, List.get?_cons_succ]
      exact ih n h

theorem get?_append_length {α : Type} (l : List α) (q : α) :
    (l ++ [q]).get? l.length = some q := by
  induction l with
  | nil => rfl
  | cons x rest ih =>
    simp only [List.cons_append, List.length_cons, List.get?_cons_succ]
    exact ih

theorem mem_of_get? {α : Type} (l : List α) (a : Nat) (q : α) (h : l.get? a = some q) :
    q ∈ l := by
  induction l generalizing a with
  | nil => simp at h
  | cons x rest ih =>
    cases a with
    | zero =>
      simp only [List.get?_cons_zero, Option.some.injEq] at h
      rw [h]
      exact List.mem_cons_self _ _
    | succ n =>
      simp only [List.get?_cons_succ] at h
      exact List.mem_cons_of_mem _ (ih n h)

/-- The call of `sendSetup` constructs a Query State exactly for the queries
`createsState` marks, whatever the server. -/
theorem sendSetup_isSome (s : DNS_Server) (payload : UDP_Packet) :
    (sendSetup s payload).isSome = createsState payload := by
  unfold sendSetup createsState
  by_cases h1 : payload.payload.opCode = DNS_OPCode.Query ∧
      payload.payload.questions.length > 0 ∧ payload.payload.qr = false
  · by_cases h2 : (collectQuestions payload.payload.questions []).length = 0
    · simp [h1, h2]
    · by_cases h3 : payload.payload.tc = true
      · simp [h1, h2, h3]
      · simp [h1, h2, h3]
  · simp [h1]

theorem enqueuedPackets_append_single (GetLength : DNS_Packet → Nat)
    (log : List Finalisation) (f : Finalisation) :
    enqueuedPackets GetLength (log ++ [f]) =
      if GetLength f.response ≤ 512 then enqueuedPackets GetLength log ++ [f.packet]
      else enqueuedPackets GetLength log := by
  by_cases h : GetLength f.response ≤ 512
  · simp [enqueuedPackets, List.filter_append, h]
  · simp [enqueuedPackets, List.filter_append, h]

theorem mem_enqueuedPackets (GetLength : DNS_Packet → Nat) (log : List Finalisation)
    (pkt : UDP_Packet) (h : pkt ∈ enqueuedPackets GetLength log) :
    ∃ f, f ∈ log ∧ GetLength f.response ≤ 512 ∧ pkt = f.packet := by
  simp only [enqueuedPackets, List.mem_map, List.mem_filter, decide_eq_true_eq] at h
  obtain ⟨f, ⟨hf, hlen⟩, hp⟩ := h
  exact ⟨f, hf, hlen, hp.symm⟩

/-- The response `FinaliseDNS` builds from a Query State of the query is a
response to the query. -/
theorem answersQuery_of_fromQuery (localhostIP : IP_Address) (st : DNS_State)
    (query : UDP_Packet) (h : FromQuery st query) :
    AnswersQuery (UDP_Packet.mk 53 st.clientPort (responseOf localhostIP st)) query := by
  obtain ⟨hacc, hport, hecho⟩ := h
  obtain ⟨h1, h2, h3, h4, h5, h6, h7, h8, h9, h10⟩ :=
    finaliseLoop_header localhostIP st.questions st.GetAnswers st.dns
  obtain ⟨e1, e2, e3, e4, e5, e6, e7, e8, e9, e10⟩ := hecho
  refine ⟨hacc, rfl, hport, ?_⟩
  simp only [responseOf]
  exact ⟨h1.trans e1, h10.trans e2, h2.trans e3, h3.trans e4, h4.trans e5,
    h5.trans e6, h6.trans e7, h7.trans e8, h8.trans e9, h9.trans e10⟩

theorem FinaliseDNS_prov (GetLength : DNS_Packet → Nat) (created : List UDP_Packet)
    (s s' : DNS_Server) (state : Nat) (hinv : ProvInv GetLength created s)
    (hs : FinaliseDNS GetLength s state = some s') : ProvInv GetLength created s' := by
  cases hget : heapGet s.heap state with
  | none => simp [FinaliseDNS, hget] at hs
  | some st =>
    obtain ⟨q, hq, hfrom⟩ := hinv.2.1 state st (mem_of_heapGet _ _ _ hget)
    have hans := answersQuery_of_fromQuery s.localhostIP st q hfrom
    rw [FinaliseDNS_eq GetLength s state st hget] at hs
    injection hs with hs
    have hlog : ∀ f, f ∈ s.finalised ++ [Finalisation.mk state st (responseOf s.localhostIP st)] →
        ∃ query, created.get? f.state = some query ∧ AnswersQuery f.packet query := by
      intro f hf
      rw [List.mem_append, List.mem_singleton] at hf
      rcases hf with hf | hf
      · exact hinv.2.2.1 f hf
      · rw [hf]
        exact ⟨q, hq, hans⟩
    by_cases hlen : GetLength (responseOf s.localhostIP st) > 512
    · rw [if_pos hlen] at hs
      subst hs
      refine ⟨hinv.1, ?_, hlog, ?_⟩
      · intro a x hx
        exact hinv.2.1 a x (mem_heapDelete _ _ _ _ hx)
      · show List.IsSuffix s.dnsQueue (enqueuedPackets GetLength
          (s.finalised ++ [Finalisation.mk state st (responseOf s.localhostIP st)]))
        rw [enqueuedPackets_append_single, if_neg (by simpa using hlen)]
        exact hinv.2.2.2
    · rw [if_neg hlen] at hs
      subst hs
      refine ⟨hinv.1, ?_, hlog, ?_⟩
      · intro a x hx
        exact hinv.2.1 a x (mem_heapDelete _ _ _ _ hx)
      · show List.IsSuffix
          (s.dnsQueue ++ [UDP_Packet.mk 53 st.clientPort (responseOf s.localhostIP st)])
          (enqueuedPackets GetLength
            (s.finalised ++ [Finalisation.mk state st (responseOf s.localhostIP st)]))
        rw [enqueuedPackets_append_single, if_pos (by simpa using hlen)]
        obtain ⟨t, ht⟩ := hinv.2.2.2
        exact ⟨t, by rw [← ht, List.append_assoc]; rfl⟩

theorem mem_heapSet_addr (h : List (Nat × DNS_State)) (p : Nat) (st' : DNS_State) (a : Nat)
    (x : DNS_State) (hmem : (a, x) ∈ heapSet h p st') : (a, x) ∈ h ∨ (a = p ∧ x = st') := by
  induction h with
  | nil => simp [heapSet] at hmem
  | cons hd tl ih =>
    obtain ⟨a0, s0⟩ := hd
    by_cases ha : a0 = p
    · simp only [heapSet, ha, if_true, List.mem_cons, Prod.mk.injEq] at hmem
      rcases hmem with ⟨hap, hx⟩ | hmem
      · exact Or.inr ⟨hap, hx⟩
      · exact Or.inl (List.mem_cons_of_mem _ hmem)
    · simp only [heapSet, ha, if_false, List.mem_cons] at hmem
      rcases hmem with hx | hmem
      · exact Or.inl (by rw [hx]; exact List.mem_cons_self _ _)
      · rcases ih hmem with h1 | h1
        · exact Or.inl (List.mem_cons_of_mem _ h1)
        · exact Or.inr h1

theorem ProvInv_heapSet (GetLength : DNS_Packet → Nat) (created : List UDP_Packet)
    (s : DNS_Server) (state : Nat)
    (st st' : DNS_State) (hinv : ProvInv GetLength created s)
    (hget : heapGet s.heap state = some st)
    (hdns : st'.dns = st.dns) (hport : st'.clientPort = st.clientPort) (hosts : StringMap)
    (threads : List (Nat × String)) :
    ProvInv GetLength created
      { s with
        hosts := hosts
        threads := threads
        heap := heapSet s.heap state st' } := by
  obtain ⟨q, hq, hf⟩ := hinv.2.1 state st (mem_of_heapGet _ _ _ hget)
  refine ⟨hinv.1, ?_, hinv.2.2.1, hinv.2.2.2⟩
  intro a x hx
  rcases mem_heapSet_addr _ _ _ _ _ hx with h1 | ⟨ha, h1⟩
  · exact hinv.2.1 a x h1
  · refine ⟨q, ?_, ?_⟩
    · rw [ha]
      exact hq
    · rw [h1]
      unfold FromQuery at hf ⊢
      rw [hdns, hport]
      exact hf

theorem recordOutcome_port (st : DNS_State) (url : String) (error : Int)
    (result : List AddrInfo) :
    (recordOutcome st url error result).1.clientPort = st.clientPort := by
  unfold recordOutcome
  split
  · split <;> simp [DNS_State.AddAnswer, DNS_State.AddNoAnswer]
  · split <;> simp [DNS_State.AddNoAnswer]

theorem step_prov (GetLength : DNS_Packet → Nat) (created : List UDP_Packet) (m m' : Machine)
    (e : Event) (hinv : ProvInv GetLength created m.server)
    (hs : step GetLength m e = some m') :
    ProvInv GetLength (created ++ createdQueries [e]) m'.server := by
  cases e with
  | init adapterIP EthHosts =>
    simp only [step, Option.some.injEq] at hs
    rw [← hs]
    simpa [createdQueries, sentQueries] using hinv
  | loadHostList EthHosts =>
    simp only [step, Option.some.injEq] at hs
    rw [← hs]
    simpa [createdQueries, sentQueries] using hinv
  | recv =>
    simp only [step] at hs
    split at hs
    · simp only [Option.some.injEq] at hs
      rw [← hs]
      simp only [createdQueries, sentQueries, List.filter_nil, List.append_nil, Recv]
      split
      · rename_i pkt rest hq
        refine ⟨hinv.1, hinv.2.1, hinv.2.2.1, ?_⟩
        have hsuf := hinv.2.2.2
        rw [hq] at hsuf
        exact (List.suffix_cons pkt rest).trans hsuf
      · exact hinv
    · simp at hs
  | send payload =>
    simp only [step] at hs
    split at hs
    · have hc : payload.payload.opCode = DNS_OPCode.Query ∧
          payload.payload.questions.length > 0 ∧ payload.payload.qr = false := by
        by_contra hc
        rw [if_neg hc] at hs
        simp at hs
      rw [if_pos hc] at hs
      split at hs
      · rename_i hsetup
        simp only [Option.some.injEq] at hs
        rw [← hs]
        have hno : createsState payload = false := by
          rw [← sendSetup_isSome m.server payload, hsetup]
          rfl
        simpa [createdQueries, sentQueries, hno] using hinv
      · rename_i s1 state reqs hsetup
        simp only [Option.some.injEq] at hs
        rw [← hs]
        have hyes : createsState payload = true := by
          rw [← sendSetup_isSome m.server payload, hsetup]
          rfl
        have hcr : createdQueries [Event.send payload] = [payload] := by
          simp [createdQueries, sentQueries, hyes]
        rw [hcr]
        obtain ⟨_, _, _, hacc, hs1⟩ := sendSetup_some m.server s1 payload state reqs hsetup
        rw [hs1]
        refine ⟨?_, ?_, ?_, hinv.2.2.2⟩
        · show m.server.nextAddr + 1 = (created ++ [payload]).length
          rw [List.length_append, hinv.1]
          rfl
        · intro a x hx
          simp only [List.mem_append, List.mem_singleton, Prod.mk.injEq] at hx
          rcases hx with hx | ⟨ha, hx⟩
          · obtain ⟨q, hq, hf⟩ := hinv.2.1 a x hx
            exact ⟨q, get?_append_some _ _ _ _ hq, hf⟩
          · refine ⟨payload, ?_, ?_⟩
            · rw [ha, hinv.1]
              exact get?_append_length created payload
            · rw [hx]
              exact ⟨hacc, rfl, rfl, rfl, rfl, rfl, rfl, rfl, rfl, rfl, rfl, rfl⟩
        · intro f hf
          obtain ⟨q, hq, hans⟩ := hinv.2.2.1 f hf
          exact ⟨q, get?_append_some _ _ _ _ hq, hans⟩
    · simp at hs
  | dispatch =>
    simp only [step] at hs
    simp only [createdQueries, sentQueries, List.filter_nil, List.append_nil]
    split at hs
    · simp at hs
    · simp only [Option.some.injEq] at hs
      rw [← hs]
      exact hinv
    · rename_i state url rest hsend
      split at hs
      · simp at hs
      · rename_i s1 hd
        simp only [Option.some.injEq] at hs
        rw [← hs]
        unfold dispatchQuestion at hd
        rcases CheckHostList_cases GetLength m.server url state with
          ⟨_, hc⟩ | ⟨v, _, _, hc⟩ | ⟨v, st, _, hget, hc⟩
        · simp only [hc, Option.some.injEq] at hd
          rw [← hd]
          exact hinv
        · simp [hc] at hd
        · rw [hc] at hd
          have h1 := ProvInv_heapSet GetLength created m.server state st
            (st.AddAnswer (toLowerUrl url) v).1
            hinv hget rfl rfl m.server.hosts m.server.threads
          cases hres : (if st.counter - 1 = 0 then
              FinaliseDNS GetLength
                { m.server with
                  heap := heapSet m.server.heap state (st.AddAnswer (toLowerUrl url) v).1 } state
            else
              some { m.server with
                     heap := heapSet m.server.heap state (st.AddAnswer (toLowerUrl url) v).1 }) with
          | none => simp [hres] at hd
          | some s2 =>
            simp only [hres, Option.map_some', Option.some.injEq] at hd
            subst hd
            by_cases hz : st.counter - 1 = 0
            · rw [if_pos hz] at hres
              exact FinaliseDNS_prov GetLength created _ s2 state h1 hres
            · rw [if_neg hz] at hres
              injection hres with hres
              rw [← hres]
              exact h1
  | complete i error result =>
    simp only [step] at hs
    simp only [createdQueries, sentQueries, List.filter_nil, List.append_nil]
    split at hs
    · simp at hs
    · rename_i state url hth
      split at hs
      · simp at hs
      · rename_i s1 hg
        simp only [Option.some.injEq] at hs
        rw [← hs]
        unfold GetAddrInfoThread at hg
        cases hget : heapGet m.server.heap state with
        | none => simp [hget] at hg
        | some st =>
          have h1 := ProvInv_heapSet GetLength created m.server state st
            (recordOutcome st url error result).1
            hinv hget (recordOutcome_frame st url error result).1
            (recordOutcome_port st url error result) m.server.hosts
            (m.server.threads.eraseIdx i)
          simp only [hget] at hg
          split at hg
          · exact FinaliseDNS_prov GetLength created _ s1 state h1 hg
          · simp only [Option.some.injEq] at hg
            rw [← hg]
            exact h1

theorem run_prov (GetLength : DNS_Packet → Nat) (events : List Event)
    (created : List UDP_Packet)
    (m m' : Machine) (hinv : ProvInv GetLength created m.server)
    (hs : run GetLength m events = some m') :
    ProvInv GetLength (created ++ createdQueries events) m'.server := by
  induction events generalizing m created with
  | nil =>
    simp only [run, Option.some.injEq] at hs
    rw [← hs]
    simpa [createdQueries, sentQueries] using hinv
  | cons e rest ih =>
    simp only [run] at hs
    cases hstep : step GetLength m e with
    | none => simp [hstep] at hs
    | some m1 =>
      simp only [hstep] at hs
      have h1 := step_prov GetLength created m m1 e hinv hstep
      have h2 := ih (created ++ createdQueries [e]) m1 h1 hs
      have happ : createdQueries (e :: rest) = createdQueries [e] ++ createdQueries rest :=
        createdQueries_append [e] rest
      rw [happ, ← List.append_assoc]
      exact h2

theorem fresh_prov (GetLength : DNS_Packet → Nat) (localhostIP : IP_Address)
    (hosts : StringMap) : ProvInv GetLength [] (DNS_Server.fresh localhostIP hosts) := by
  refine ⟨rfl, ?_, ?_, ?_⟩
  · intro a st h
    simp [DNS_Server.fresh] at h
  · intro f h
    simp [DNS_Server.fresh] at h
  · exact List.suffix_refl _

/-- C13. The server starts with nothing in flight and runs any sequence of
steps. The query that causes a response is the query whose call of `Send`
constructed the Query State the response is built from: Query States get the
addresses 0, 1, 2, ... in the order of construction, and `createdQueries`
lists their queries in that order (the next call of `Send` that constructs a
Query State adds its query at the position of the new address). Then: every
live Query State keeps the source port and the template of its own query, and
`FinaliseDNS` on it builds a response to that query and puts its packet on
the output queue when it fits; the output queue is what `Recv` has left of the
packets of the finalisations that fit, in their order; and the packet of every
finalisation, every packet on the output queue and the packet `Recv` returns
is a response to the query of the Query State it was built from: a UDP packet
with source port 53 and destination port equal to the source port of that
query, whose DNS payload carries the transaction ID of that query and its
complete question list (questions of unsupported type or class included),
with QR=1, opcode Query, AA=0, TC=0, RD=1, RA=1, AD=0 and CD=0. -/
theorem C13_queued_responses_echo_their_query (GetLength : DNS_Packet → Nat)
    (localhostIP : IP_Address) (hosts : StringMap) (events : List Event) (m : Machine)
    (hrun : run GetLength { server := DNS_Server.fresh localhostIP hosts, sending := none }
      events = some m) :
    m.server.nextAddr = (createdQueries events).length ∧
    (∀ payload s1 state reqs, sendSetup m.server payload = some (s1, state, reqs) →
      (createdQueries (events ++ [Event.send payload])).get? state = some payload) ∧
    (∀ state st, heapGet m.server.heap state = some st →
      ∃ query s' f, (createdQueries events).get? state = some query ∧ FromQuery st query ∧
        FinaliseDNS GetLength m.server state = some s' ∧
        s'.finalised = m.server.finalised ++ [f] ∧ f.state = state ∧
        AnswersQuery f.packet query ∧
        (GetLength f.response ≤ 512 → s'.dnsQueue = m.server.dnsQueue ++ [f.packet]) ∧
        (GetLength f.response > 512 → s'.dnsQueue = m.server.dnsQueue)) ∧
    List.IsSuffix m.server.dnsQueue (enqueuedPackets GetLength m.server.finalised) ∧
    (∀ f, f ∈ m.server.finalised →
      ∃ query, (createdQueries events).get? f.state = some query ∧
        query ∈ sentQueries events ∧ AnswersQuery f.packet query) ∧
    (∀ pkt, pkt ∈ m.server.dnsQueue →
      ∃ f query, f ∈ m.server.finalised ∧ GetLength f.response ≤ 512 ∧ pkt = f.packet ∧
        (createdQueries events).get? f.state = some query ∧
        query ∈ sentQueries events ∧ AnswersQuery pkt query) ∧
    (∀ pkt, (Recv m.server).1 = some pkt →
      ∃ f query, f ∈ m.server.finalised ∧ GetLength f.response ≤ 512 ∧ pkt = f.packet ∧
        (createdQueries events).get? f.state = some query ∧
        query ∈ sentQueries events ∧ AnswersQuery pkt query) := by
  have h := run_prov GetLength events [] _ m (fresh_prov GetLength localhostIP hosts) hrun
  rw [List.nil_append] at h
  have hlog : ∀ f, f ∈ m.server.finalised →
      ∃ query, (createdQueries events).get? f.state = some query ∧
        query ∈ sentQueries events ∧ AnswersQuery f.packet query := by
    intro f hf
    obtain ⟨q, hq, hans⟩ := h.2.2.1 f hf
    exact ⟨q, hq, createdQueries_subset events q (mem_of_get? _ _ _ hq), hans⟩
  have hqueue : ∀ pkt, pkt ∈ m.server.dnsQueue →
      ∃ f query, f ∈ m.server.finalised ∧ GetLength f.response ≤ 512 ∧ pkt = f.packet ∧
        (createdQueries events).get? f.state = some query ∧
        query ∈ sentQueries events ∧ AnswersQuery pkt query := by
    intro pkt hpkt
    obtain ⟨f, hf, hlen, hp⟩ := mem_enqueuedPackets GetLength _ pkt (h.2.2.2.mem hpkt)
    obtain ⟨q, hq, hsent, hans⟩ := hlog f hf
    exact ⟨f, q, hf, hlen, hp, hq, hsent, by rw [hp]; exact hans⟩
  refine ⟨h.1, ?_, ?_, h.2.2.2, hlog, hqueue, ?_⟩
  · intro payload s1 state reqs hsetup
    have hyes : createsState payload = true := by
      rw [← sendSetup_isSome m.server payload, hsetup]
      rfl
    obtain ⟨hstate, _⟩ := sendSetup_some m.server s1 payload state reqs hsetup
    have hcr : createdQueries [Event.send payload] = [payload] := by
      simp [createdQueries, sentQueries, hyes]
    rw [createdQueries_append, hcr, hstate, h.1]
    exact get?_append_length _ payload
  · intro state st hget
    obtain ⟨q, hq, hfrom⟩ := h.2.1 state st (mem_of_heapGet _ _ _ hget)
    have hans := answersQuery_of_fromQuery m.server.localhostIP st q hfrom
    rw [FinaliseDNS_eq GetLength m.server state st hget]
    by_cases hlen : GetLength (responseOf m.server.localhostIP st) > 512
    · rw [if_pos hlen]
      refine ⟨q, _, Finalisation.mk state st (responseOf m.server.localhostIP st),
        hq, hfrom, rfl, rfl, rfl, hans, ?_, ?_⟩
      · intro hle
        exact absurd hlen (Nat.not_lt.mpr hle)
      · intro _
        rfl
    · rw [if_neg hlen]
      refine ⟨q, _, Finalisation.mk state st (responseOf m.server.localhostIP st),
        hq, hfrom, rfl, rfl, rfl, hans, ?_, ?_⟩
      · intro _
        rfl
      · intro hgt
        exact absurd hgt hlen
  · intro pkt hpkt
    apply hqueue
    cases hq : m.server.dnsQueue with
    | nil => simp [Recv, hq] at hpkt
    | cons p rest =>
      simp only [Recv, hq, Option.some.injEq] at hpkt
      rw [← hpkt]
      exact List.mem_cons_self _ _

theorem C13_witness :
    ∃ m, run exampleLength { server := exampleServer, sending := none } overtakingEvents
        = some m ∧
      createdQueries overtakingEvents = [firstQuery, secondQuery] ∧
      m.server.finalised.map Finalisation.state = [1, 0] ∧
      m.server.dnsQueue.map (fun pkt => (pkt.destinationPort, pkt.payload.id))
        = [(2222, 2), (1111, 1)] ∧
      ∀ pkt, pkt ∈ m.server.dnsQueue →
        ∃ f query, f ∈ m.server.finalised ∧ exampleLength f.response ≤ 512 ∧ pkt = f.packet ∧
          (createdQueries overtakingEvents).get? f.state = some query ∧
          query ∈ sentQueries overtakingEvents ∧ AnswersQuery pkt query := by
  obtain ⟨m, hm⟩ := Option.isSome_iff_exists.mp
    (by decide :
      (run exampleLength { server := exampleServer, sending := none }
        overtakingEvents).isSome = true)
  have hobs : (run exampleLength { server := exampleServer, sending := none }
      overtakingEvents).map
      (fun m => (m.server.finalised.map Finalisation.state,
        m.server.dnsQueue.map (fun pkt => (pkt.destinationPort, pkt.payload.id))))
      = some ([1, 0], [(2222, 2), (1111, 1)]) := by
    decide
  rw [hm, Option.map_some', Option.some.injEq, Prod.mk.injEq] at hobs
  exact ⟨m, hm, by decide, hobs.1, hobs.2,
    (C13_queued_responses_echo_their_query exampleLength exampleServer.localhostIP
      exampleServer.hosts overtakingEvents m hm).2.2.2.2.2.1⟩

/-! ## The resolver threads of one Query State -/

theorem countP_set_worker (p : Worker → Bool) (l : List Worker) (i : Nat) (w x : Worker)
    (h : l.get? i = some w) :
    (l.set i x).countP p + (p w).toNat = l.countP p + (p x).toNat := by
  induction l generalizing i with
  | nil => simp at h
  | cons hd tl ih =>
    cases i with
    | zero =>
      simp only [List.get?_cons_zero, Option.some.injEq] at h
      subst h
      simp only [List.set_cons_zero, List.countP_cons]
      cases p hd <;> cases p x <;> simp
    | succ i =>
      simp only [List.get?_cons_succ] at h
      have := ih i h
      simp only [List.set_cons_succ, List.countP_cons]
      omega

theorem get?_set_worker (l : List Worker) (i j : Nat) (x y : Worker)
    (h : (l.set i x).get? j = some y) : (j = i ∧ y = x) ∨ (j ≠ i ∧ l.get? j = some y) := by
  induction l generalizing i j with
  | nil => simp at h
  | cons hd tl ih =>
    cases i with
    | zero =>
      cases j with
      | zero =>
        simp only [List.set_cons_zero, List.get?_cons_zero, Option.some.injEq] at h
        exact Or.inl ⟨rfl, h.symm⟩
      | succ j =>
        simp only [List.set_cons_zero, List.get?_cons_succ] at h
        exact Or.inr ⟨by omega, by simpa using h⟩
    | succ i =>
      cases j with
      | zero =>
        simp only [List.set_cons_succ, List.get?_cons_zero] at h
        exact Or.inr ⟨by omega, by simpa using h⟩
      | succ j =>
        simp only [List.set_cons_succ, List.get?_cons_succ] at h
        rcases ih i j h with ⟨h1, h2⟩ | ⟨h1, h2⟩
        · exact Or.inl ⟨by omega, h2⟩
        · exact Or.inr ⟨by omega, by simpa using h2⟩

theorem countP_pos_of_get? (p : Worker → Bool) (l : List Worker) (i : Nat) (w : Worker)
    (h : l.get? i = some w) (hp : p w = true) : 0 < l.countP p := by
  induction l generalizing i with
  | nil => simp at h
  | cons hd tl ih =>
    cases i with
    | zero =>
      simp only [List.get?_cons_zero, Option.some.injEq] at h
      subst h
      simp [List.countP_cons, hp]
    | succ i =>
      simp only [List.get?_cons_succ] at h
      have := ih i h
      simp only [List.countP_cons]
      omega

theorem holdsZero_of_undecremented (pc : Pc) (h : pc.undecremented = true) :
    pc.holdsZero = false := by
  cases pc <;> simp [Pc.undecremented, Pc.holdsZero] at h ⊢

theorem decrementStep_inv (sh : Shared) (i : Nat) (w : Worker) (hinv : WorkersInv sh)
    (hw : sh.workers.get? i = some w) (hpc : w.pc.undecremented = true) :
    ∃ sh', decrementStep sh i w = some sh' ∧ WorkersInv sh' := by
  obtain ⟨hz, hst⟩ := hinv
  have hpos := countP_pos_of_get? (fun w => w.pc.undecremented) sh.workers i w hw hpc
  cases hstate : sh.state with
  | none =>
    rw [hstate] at hst
    simp only at hst
    omega
  | some st =>
    rw [hstate] at hst
    simp only at hst
    obtain ⟨hc, hfin, hzl, hzc⟩ := hst
    have hU : List.countP (fun w => w.pc.undecremented)
        (sh.workers.set i { w with pc := Pc.decremented (st.counter - 1) }) + 1
        = List.countP (fun w => w.pc.undecremented) sh.workers + 0 := by
      have := countP_set_worker (fun w => w.pc.undecremented) sh.workers i w
        { w with pc := Pc.decremented (st.counter - 1) } hw
      beta_reduce at this
      rw [hpc] at this
      exact this
    have hZ : List.countP (fun w => w.pc.holdsZero)
        (sh.workers.set i { w with pc := Pc.decremented (st.counter - 1) }) + 0
        = List.countP (fun w => w.pc.holdsZero) sh.workers
          + (decide (st.counter - 1 = 0)).toNat := by
      have := countP_set_worker (fun w => w.pc.holdsZero) sh.workers i w
        { w with pc := Pc.decremented (st.counter - 1) } hw
      beta_reduce at this
      rw [holdsZero_of_undecremented w.pc hpc] at this
      exact this
    refine ⟨_, (by unfold decrementStep; rw [hstate]), ?_, ?_⟩
    · intro j y hj hy
      rcases get?_set_worker _ _ _ _ _ hj with ⟨h1, h2⟩ | ⟨h1, h2⟩
      · rw [h2] at hy
        have hy' : st.counter - 1 = 0 := by simpa [Pc.holdsZero] using hy
        show j ∈ (if st.counter - 1 = 0 then sh.zeros ++ [i] else sh.zeros)
        rw [if_pos hy', h1]
        simp
      · have := hz j y h2 hy
        show j ∈ (if st.counter - 1 = 0 then sh.zeros ++ [i] else sh.zeros)
        split
        · exact List.mem_append_left _ this
        · exact this
    · show (st.counter - 1 = _ ∧ sh.finalisers = [] ∧
        (if st.counter - 1 = 0 then sh.zeros ++ [i] else sh.zeros).length = _ ∧ _)
      dsimp only
      by_cases h0 : st.counter - 1 = 0
      · have hd : (decide (st.counter - 1 = 0)).toNat = 1 := by simp [h0]
        rw [hd] at hZ
        rw [if_pos h0, List.length_append, List.length_singleton]
        refine ⟨?_, hfin, ?_, ?_⟩
        · omega
        · omega
        · have hU0 : List.countP (fun w => w.pc.undecremented)
              (sh.workers.set i { w with pc := Pc.decremented (st.counter - 1) }) = 0 := by
            omega
          rw [hU0, if_pos rfl]
          split at hzc <;> omega
      · have hd : (decide (st.counter - 1 = 0)).toNat = 0 := by simp [h0]
        rw [hd] at hZ
        rw [if_neg h0]
        have hne : List.countP (fun w => w.pc.undecremented)
            (sh.workers.set i { w with pc := Pc.decremented (st.counter - 1) }) ≠ 0 := by
          omega
        refine ⟨?_, hfin, ?_, ?_⟩
        · omega
        · omega
        · rw [if_neg hne]
          split at hzc <;> omega

theorem storeStep_inv (sh : Shared) (i : Nat) (w : Worker) (address : IP_Address)
    (hinv : WorkersInv sh) (hw : sh.workers.get? i = some w) (hpc : w.pc = Pc.resolved) :
    ∃ st, sh.state = some st ∧
      WorkersInv { sh with
                   state := some { st with answers := st.answers.assign w.url address }
                   workers := sh.workers.set i { w with pc := Pc.stored } } := by
  obtain ⟨hz, hst⟩ := hinv
  have hund : w.pc.undecremented = true := by rw [hpc]; rfl
  have hpos := countP_pos_of_get? (fun w => w.pc.undecremented) sh.workers i w hw hund
  cases hstate : sh.state with
  | none =>
    rw [hstate] at hst
    simp only at hst
    omega
  | some st =>
    rw [hstate] at hst
    simp only at hst
    obtain ⟨hc, hfin, hzl, hzc⟩ := hst
    have hU : List.countP (fun w => w.pc.undecremented)
        (sh.workers.set i { w with pc := Pc.stored }) + 1
        = List.countP (fun w => w.pc.undecremented) sh.workers + 1 := by
      have := countP_set_worker (fun w => w.pc.undecremented) sh.workers i w
        { w with pc := Pc.stored } hw
      beta_reduce at this
      rw [hund] at this
      exact this
    have hZ : List.countP (fun w => w.pc.holdsZero)
        (sh.workers.set i { w with pc := Pc.stored }) + 0
        = List.countP (fun w => w.pc.holdsZero) sh.workers + 0 := by
      have := countP_set_worker (fun w => w.pc.holdsZero) sh.workers i w
        { w with pc := Pc.stored } hw
      beta_reduce at this
      rw [holdsZero_of_undecremented w.pc hund] at this
      exact this
    refine ⟨st, rfl, ?_, ?_⟩
    · intro j y hj hy
      rcases get?_set_worker _ _ _ _ _ hj with ⟨h1, h2⟩ | ⟨h1, h2⟩
      · rw [h2] at hy
        exact absurd hy (by simp [Pc.holdsZero])
      · exact hz j y h2 hy
    · show (st.counter = _ ∧ sh.finalisers = [] ∧ sh.zeros.length = _ ∧ _)
      dsimp only
      have hUe : List.countP (fun w => w.pc.undecremented)
          (sh.workers.set i { w with pc := Pc.stored })
          = List.countP (fun w => w.pc.undecremented) sh.workers := by omega
      have hZe : List.countP (fun w => w.pc.holdsZero)
          (sh.workers.set i { w with pc := Pc.stored })
          = List.countP (fun w => w.pc.holdsZero) sh.workers := by omega
      rw [hUe, hZe]
      exact ⟨hc, hfin, hzl, hzc⟩

theorem finaliseStep_inv (sh : Shared) (i : Nat) (w : Worker) (hinv : WorkersInv sh)
    (hw : sh.workers.get? i = some w) (hpc : w.pc = Pc.decremented 0) :
    ∃ st, sh.state = some st ∧
      WorkersInv { sh with
                   state := none
                   workers := sh.workers.set i { w with pc := Pc.finished }
                   finalisers := sh.finalisers ++ [i] } := by
  obtain ⟨hz, hst⟩ := hinv
  have hzero : w.pc.holdsZero = true := by rw [hpc]; rfl
  have hund : w.pc.undecremented = false := by rw [hpc]; rfl
  have hpos := countP_pos_of_get? (fun w => w.pc.holdsZero) sh.workers i w hw hzero
  have hmem : i ∈ sh.zeros := hz i w hw hzero
  have hU : List.countP (fun w => w.pc.undecremented)
      (sh.workers.set i { w with pc := Pc.finished }) + 0
      = List.countP (fun w => w.pc.undecremented) sh.workers + 0 := by
    have := countP_set_worker (fun w => w.pc.undecremented) sh.workers i w
      { w with pc := Pc.finished } hw
    beta_reduce at this
    rw [hund] at this
    exact this
  have hZ : List.countP (fun w => w.pc.holdsZero)
      (sh.workers.set i { w with pc := Pc.finished }) + 1
      = List.countP (fun w => w.pc.holdsZero) sh.workers + 0 := by
    have := countP_set_worker (fun w => w.pc.holdsZero) sh.workers i w
      { w with pc := Pc.finished } hw
    beta_reduce at this
    rw [hzero] at this
    exact this
  cases hstate : sh.state with
  | none =>
    rw [hstate] at hst
    simp only at hst
    omega
  | some st =>
    rw [hstate] at hst
    simp only at hst
    obtain ⟨hc, hfin, hzl, hzc⟩ := hst
    refine ⟨st, rfl, ?_, ?_⟩
    · intro j y hj hy
      rcases get?_set_worker _ _ _ _ _ hj with ⟨h1, h2⟩ | ⟨h1, h2⟩
      · rw [h2] at hy
        exact absurd hy (by simp [Pc.holdsZero])
      · exact hz j y h2 hy
    · show (_ = 0 ∧ _ = 0 ∧ sh.zeros.length = 1 ∧ sh.finalisers ++ [i] = sh.zeros)
      dsimp only
      have hone : sh.zeros.length = 1 := by
        split at hzc <;> omega
      refine ⟨?_, ?_, hone, ?_⟩
      · split at hzc <;> omega
      · omega
      · rw [hfin, List.nil_append]
        cases hzs : sh.zeros with
        | nil => simp [hzs] at hone
        | cons z rest =>
          rw [hzs] at hone hmem
          have hrest : rest = [] := by
            apply List.eq_nil_of_length_eq_zero
            simpa using hone
          subst hrest
          simp only [List.mem_singleton] at hmem
          rw [hmem]

theorem finishStep_inv (sh : Shared) (i : Nat) (w : Worker) (remaining : Int)
    (hinv : WorkersInv sh) (hw : sh.workers.get? i = some w)
    (hpc : w.pc = Pc.decremented remaining) (hne : remaining ≠ 0) :
    WorkersInv { sh with workers := sh.workers.set i { w with pc := Pc.finished } } := by
  obtain ⟨hz, hst⟩ := hinv
  have hzero : w.pc.holdsZero = false := by
    rw [hpc]
    simp [Pc.holdsZero, hne]
  have hund : w.pc.undecremented = false := by rw [hpc]; rfl
  have hU : List.countP (fun w => w.pc.undecremented)
      (sh.workers.set i { w with pc := Pc.finished })
      = List.countP (fun w => w.pc.undecremented) sh.workers := by
    have := countP_set_worker (fun w => w.pc.undecremented) sh.workers i w
      { w with pc := Pc.finished } hw
    beta_reduce at this
    rw [hund] at this
    exact Nat.add_right_cancel this
  have hZ : List.countP (fun w => w.pc.holdsZero)
      (sh.workers.set i { w with pc := Pc.finished })
      = List.countP (fun w => w.pc.holdsZero) sh.workers := by
    have := countP_set_worker (fun w => w.pc.holdsZero) sh.workers i w
      { w with pc := Pc.finished } hw
    beta_reduce at this
    rw [hzero] at this
    exact Nat.add_right_cancel this
  constructor
  · intro j y hj hy
    rcases get?_set_worker _ _ _ _ _ hj with ⟨h1, h2⟩ | ⟨h1, h2⟩
    · rw [h2] at hy
      exact absurd hy (by simp [Pc.holdsZero])
    · exact hz j y h2 hy
  · dsimp only
    rw [hU, hZ]
    exact hst

theorem workerStep_inv (sh : Shared) (i : Nat) (hinv : WorkersInv sh) :
    ∃ sh', workerStep sh i = some sh' ∧ WorkersInv sh' := by
  unfold workerStep
  cases hw : sh.workers.get? i with
  | none => exact ⟨sh, rfl, hinv⟩
  | some w =>
    dsimp only
    cases hpc : w.pc with
    | resolved =>
      dsimp only
      have hund : w.pc.undecremented = true := by rw [hpc]; rfl
      by_cases herr : w.error = 0
      · rw [if_pos herr]
        cases hfirst : firstInet w.result with
        | none => exact decrementStep_inv sh i w hinv hw hund
        | some retInfo =>
          dsimp only
          obtain ⟨st, hstate, h⟩ := storeStep_inv sh i w retInfo.sin_addr hinv hw hpc
          rw [hstate]
          exact ⟨_, rfl, h⟩
      · rw [if_neg herr]
        exact decrementStep_inv sh i w hinv hw hund
    | stored =>
      dsimp only
      exact decrementStep_inv sh i w hinv hw (by rw [hpc]; rfl)
    | decremented remaining =>
      dsimp only
      by_cases hr : remaining = 0
      · rw [if_pos hr]
        subst hr
        obtain ⟨st, hstate, h⟩ := finaliseStep_inv sh i w hinv hw hpc
        rw [hstate]
        exact ⟨_, rfl, h⟩
      · rw [if_neg hr]
        exact ⟨_, rfl, finishStep_inv sh i w remaining hinv hw hpc hr⟩
    | finished => exact ⟨sh, rfl, hinv⟩

theorem runWorkers_inv (schedule : List Nat) (sh : Shared) (hinv : WorkersInv sh) :
    ∃ sh', runWorkers sh schedule = some sh' ∧ WorkersInv sh' := by
  induction schedule generalizing sh with
  | nil => exact ⟨sh, rfl, hinv⟩
  | cons i rest ih =>
    obtain ⟨sh1, h1, hinv1⟩ := workerStep_inv sh i hinv
    obtain ⟨sh2, h2, hinv2⟩ := ih sh1 hinv1
    exact ⟨sh2, by simp only [runWorkers, h1, h2], hinv2⟩

theorem get?_set_same_worker (l : List Worker) (i : Nat) (w x : Worker)
    (h : l.get? i = some w) : (l.set i x).get? i = some x := by
  induction l generalizing i with
  | nil => simp at h
  | cons hd tl ih =>
    cases i with
    | zero => simp
    | succ i =>
      simp only [List.get?_cons_succ] at h
      simpa using ih i h

theorem worker_records_as_source (sh : Shared) (i : Nat) (w : Worker) (st : DNS_State)
    (hw : sh.workers.get? i = some w) (hpc : w.pc = Pc.resolved) (hstate : sh.state = some st) :
    ∃ sh', (workerStep sh i = some sh' ∨
        ∃ sh1, workerStep sh i = some sh1 ∧ workerStep sh1 i = some sh') ∧
      sh'.state = some (recordOutcome st w.url w.error w.result).1 ∧
      sh'.workers.get? i
        = some { w with pc := Pc.decremented (recordOutcome st w.url w.error w.result).2 } := by
  by_cases herr : w.error = 0
  · cases hfirst : firstInet w.result with
    | none =>
      refine ⟨_, Or.inl (by
        unfold workerStep
        rw [hw]
        dsimp only
        rw [hpc]
        dsimp only
        rw [if_pos herr, hfirst]
        dsimp only
        unfold decrementStep
        rw [hstate]), ?_, ?_⟩
      · simp only [recordOutcome, herr, if_true, hfirst, DNS_State.AddNoAnswer]
      · simp only [recordOutcome, herr, if_true, hfirst, DNS_State.AddNoAnswer]
        exact get?_set_same_worker _ _ _ _ hw
    | some retInfo =>
      refine ⟨_, Or.inr ⟨_, (by
        unfold workerStep
        rw [hw]
        dsimp only
        rw [hpc]
        dsimp only
        rw [if_pos herr, hfirst]
        dsimp only
        rw [hstate]), (by
        unfold workerStep
        dsimp only
        rw [get?_set_same_worker _ _ _ _ hw]
        dsimp only
        unfold decrementStep
        dsimp only)⟩, ?_, ?_⟩
      · simp only [recordOutcome, herr, if_true, hfirst, DNS_State.AddAnswer]
      · simp only [recordOutcome, herr, if_true, hfirst, DNS_State.AddAnswer]
        rw [List.set_set]
        exact get?_set_same_worker _ _ _ _ hw
  · refine ⟨_, Or.inl (by
      unfold workerStep
      rw [hw]
      dsimp only
      rw [hpc]
      dsimp only
      rw [if_neg herr]
      unfold decrementStep
      rw [hstate]), ?_, ?_⟩
    · simp only [recordOutcome, herr, if_false, DNS_State.AddNoAnswer, ite_self]
    · simp only [recordOutcome, herr, if_false, DNS_State.AddNoAnswer, ite_self]
      exact get?_set_same_worker _ _ _ _ hw

/-- C17. A Query State with N >= 1 questions is shared by N resolver threads,
each about to make its recording call, and the threads run their statements
(the store into `answers`, the atomic `--counter`, the call of `FinaliseDNS`)
in any interleaving, complete or not. No statement uses the Query State after
`FinaliseDNS` has destroyed it (the run is defined); at most one thread has
obtained 0 from its decrement and at most one has called `FinaliseDNS`; a
thread that called `FinaliseDNS` is one that obtained 0; the state is
destroyed exactly when `FinaliseDNS` has been called; and when every thread
has finished, exactly one thread obtained 0 and that thread, and no other,
called `FinaliseDNS`. -/
theorem C17_exactly_one_thread_finalises (st : DNS_State) (workers : List Worker)
    (schedule : List Nat) (hN : 1 ≤ workers.length) (hcount : st.counter = workers.length)
    (hstart : ∀ w, w ∈ workers → w.pc = Pc.resolved) :
    ∃ sh', runWorkers { state := some st, workers := workers, zeros := [], finalisers := [] }
        schedule = some sh' ∧
      sh'.zeros.length ≤ 1 ∧ sh'.finalisers.length ≤ 1 ∧
      (∀ i, i ∈ sh'.finalisers → i ∈ sh'.zeros) ∧
      (sh'.state = none ↔ sh'.finalisers.length = 1) ∧
      ((∀ w, w ∈ sh'.workers → w.pc = Pc.finished) →
        sh'.state = none ∧ sh'.zeros.length = 1 ∧ sh'.finalisers = sh'.zeros) := by
  have hU : workers.countP (fun w => w.pc.undecremented) = workers.length := by
    rw [List.countP_eq_length]
    intro w hw
    rw [hstart w hw]
    rfl
  have hZ : workers.countP (fun w => w.pc.holdsZero) = 0 := by
    rw [List.countP_eq_zero]
    intro w hw
    rw [hstart w hw]
    simp [Pc.holdsZero]
  have hinit : WorkersInv { state := some st, workers := workers, zeros := [], finalisers := [] } := by
    constructor
    · intro i w hw hz
      have hmem : w ∈ workers := List.get?_mem hw
      rw [hstart w hmem] at hz
      exact absurd hz (by simp [Pc.holdsZero])
    · show (st.counter = _ ∧ _ ∧ _ ∧ _)
      dsimp only
      rw [hU, hZ]
      refine ⟨hcount, rfl, rfl, ?_⟩
      rw [if_neg (by omega)]
  obtain ⟨sh', hrun, hz, hst⟩ := runWorkers_inv schedule _ hinit
  refine ⟨sh', hrun, ?_⟩
  cases hstate : sh'.state with
  | some st' =>
    rw [hstate] at hst
    simp only at hst
    obtain ⟨_, hfin, hzl, hzc⟩ := hst
    refine ⟨?_, by simp [hfin], by simp [hfin], by simp [hfin], ?_⟩
    · rw [hzl, hzc]
      split <;> omega
    · intro hall
      have h1 : sh'.workers.countP (fun w => w.pc.undecremented) = 0 := by
        rw [List.countP_eq_zero]
        intro w hw
        rw [hall w hw]
        simp [Pc.undecremented]
      have h2 : sh'.workers.countP (fun w => w.pc.holdsZero) = 0 := by
        rw [List.countP_eq_zero]
        intro w hw
        rw [hall w hw]
        simp [Pc.holdsZero]
      rw [h1, h2] at hzc
      simp at hzc
  | none =>
    rw [hstate] at hst
    simp only at hst
    obtain ⟨_, _, hone, hfz⟩ := hst
    refine ⟨by omega, by rw [hfz]; omega, ?_, ?_, ?_⟩
    · intro i hi
      rw [hfz] at hi
      exact hi
    · simp [hfz, hone]
    · intro _
      exact ⟨rfl, hone, hfz⟩

theorem C17_witness :
    runWorkers exampleShared [2, 0, 1, 0, 2, 1, 2, 0]
      = some { state := none
               workers := exampleWorkers.map (fun w => { w with pc := Pc.finished })
               zeros := [2]
               finalisers := [2] } ∧
    ∃ sh', runWorkers exampleShared [2, 0, 1, 0, 2, 1, 2, 0, 1, 2] = some sh' ∧
      sh'.zeros.length ≤ 1 ∧ sh'.finalisers.length ≤ 1 :=
  have ⟨sh', h1, h2, h3, _⟩ := C17_exactly_one_thread_finalises
    (DNS_State.new 3 ["a.test", "b.test", "c.test"] (responseTemplate {}) 4000) exampleWorkers
    [2, 0, 1, 0, 2, 1, 2, 0, 1, 2] (by decide) (by decide) (by decide)
  ⟨by decide, sh', h1, h2, h3⟩

end InternalServers

namespace GSRendererPGS

/-! ## The super-sampling options -/

/-- The result of `parse_super_sampling_options` at the values 0 to 5. -/
theorem parse_super_sampling_options_table :
    parse_super_sampling_options 0 = ⟨1, false⟩ ∧
    parse_super_sampling_options 1 = ⟨2, false⟩ ∧
    parse_super_sampling_options 2 = ⟨4, false⟩ ∧
    parse_super_sampling_options 3 = ⟨4, true⟩ ∧
    parse_super_sampling_options 4 = ⟨8, false⟩ ∧
    parse_super_sampling_options 5 = ⟨16, false⟩ := by
  refine ⟨?_, ?_, ?_, ?_, ?_, ?_⟩ <;> decide

/-- A value above 5 is clamped to 5. -/
theorem parse_super_sampling_options_clamp (s : Nat) (hs : 5 < s) :
    parse_super_sampling_options s = parse_super_sampling_options 5 := by
  simp only [parse_super_sampling_options, if_pos hs, gt_iff_lt, lt_self_iff_false, if_false]

/-- Claim C21. For every 8-bit configuration value `s`,
`parse_super_sampling_options s` has `ordered = true` exactly when `s = 3`; the
super-sampling rate is 1, 2, 4, 4, 8, 16 for `s` = 0, 1, 2, 3, 4, 5; every `s`
greater than 5 gives the result of `s = 5`; and the rate is a power of two
between 1 and 16. -/
theorem C21_super_sampling_options (s : Fin 256) :
    ((parse_super_sampling_options s.val).ordered = true ↔ s.val = 3) ∧
    (s.val = 0 → (parse_super_sampling_options s.val).super_sampling = 1) ∧
    (s.val = 1 → (parse_super_sampling_options s.val).super_sampling = 2) ∧
    (s.val = 2 → (parse_super_sampling_options s.val).super_sampling = 4) ∧
    (s.val = 3 → (parse_super_sampling_options s.val).super_sampling = 4) ∧
    (s.val = 4 → (parse_super_sampling_options s.val).super_sampling = 8) ∧
    (s.val = 5 → (parse_super_sampling_options s.val).super_sampling = 16) ∧
    (5 < s.val → parse_super_sampling_options s.val = parse_super_sampling_options 5) ∧
    (∃ k, k ≤ 4 ∧ (parse_super_sampling_options s.val).super_sampling = 2 ^ k) ∧
    1 ≤ (parse_super_sampling_options s.val).super_sampling ∧
    (parse_super_sampling_options s.val).super_sampling ≤ 16 := by
  obtain ⟨h0, h1, h2, h3, h4, h5⟩ := parse_super_sampling_options_table
  by_cases hs : 5 < s.val
  · have hc := parse_super_sampling_options_clamp s.val hs
    rw [hc, h5]
    refine ⟨?_, ?_, ?_, ?_, ?_, ?_, ?_, ?_, ?_, ?_, ?_⟩
    · constructor
      · intro h; exact absurd h (by decide)
      · intro h; omega
    · intro h; omega
    · intro h; omega
    · intro h; omega
    · intro h; omega
    · intro h; omega
    · intro h; omega
    · intro _; rfl
    · exact ⟨4, le_refl 4, rfl⟩
    · decide
    · decide
  · have hle : s.val ≤ 5 := Nat.le_of_not_lt hs
    generalize s.val = n at hle hs ⊢
    interval_cases n
    · rw [h0]
      exact ⟨by decide, fun _ => rfl, by decide, by decide, by decide, by decide, by decide,
        by decide, ⟨0, by decide, rfl⟩, by decide, by decide⟩
    · rw [h1]
      exact ⟨by decide, by decide, fun _ => rfl, by decide, by decide, by decide, by decide,
        by decide, ⟨1, by decide, rfl⟩, by decide, by decide⟩
    · rw [h2]
      exact ⟨by decide, by decide, by decide, fun _ => rfl, by decide, by decide, by decide,
        by decide, ⟨2, by decide, rfl⟩, by decide, by decide⟩
    · rw [h3]
      exact ⟨by decide, by decide, by decide, by decide, fun _ => rfl, by decide, by decide,
        by decide, ⟨2, by decide, rfl⟩, by decide, by decide⟩
    · rw [h4]
      exact ⟨by decide, by decide, by decide, by decide, by decide, fun _ => rfl, by decide,
        by decide, ⟨3, by decide, rfl⟩, by decide, by decide⟩
    · rw [h5]
      exact ⟨by decide, by decide, by decide, by decide, by decide, by decide, fun _ => rfl,
        by decide, ⟨4, by decide, rfl⟩, by decide, by decide⟩

/-- Witness of C21 at the ordered setting 3 and at the clamped setting 7. -/
theorem C21_witness :
    (parse_super_sampling_options 3).ordered = true ∧
    (parse_super_sampling_options 3).super_sampling = 4 ∧
    parse_super_sampling_options 7 = parse_super_sampling_options 5 :=
  ⟨(C21_super_sampling_options 3).1.2 rfl,
   (C21_super_sampling_options 3).2.2.2.2.1 rfl,
   (C21_super_sampling_options 7).2.2.2.2.2.2.2.1 (by decide)⟩

end GSRendererPGS
